import Mathlib

/-!
Verification development for the fan-out/fan-in valuation orchestrator.

The Python sources embedded here:
  * `src/services/request-orchestrator/app/hydration/engine.py`
  * `src/services/request-orchestrator/app/hydration/strategies.py`
  * `src/services/request-orchestrator/app/orchestrator.py`
  * `src/services/vnvs/app/hydration/strategies.py`

XML elements (`lxml.etree._Element`) are modelled as finite ordered trees.
Each node carries a numeric identity `eid` standing for the Python object
identity: `copy.deepcopy` and `etree.Element(...)` allocate fresh identities
from a counter that is threaded explicitly through every function that
allocates.  All other fields mirror the lxml element: tag, ordered attribute
list (unique keys, insertion order preserved, `set` overwrites in place),
namespace map, text, tail and the ordered child list.
-/

namespace FanOut

/-- Shallow embedding of `lxml.etree._Element`: an ordered XML tree node.
`eid` models Python object identity (fresh per allocation). -/
inductive Elem : Type where
  | mk (eid : Nat) (tag : String) (attrs : List (String × String))
       (nsmap : List (String × String)) (text : Option String)
       (tail : Option String) (children : List Elem)

mutual

def elemDecEq : (a b : Elem) → Decidable (a = b)
  | .mk i t u n tx tl ch, .mk i' t' u' n' tx' tl' ch' =>
    if h1 : i = i' then
      if h2 : t = t' then
        if h3 : u = u' then
          if h4 : n = n' then
            if h5 : tx = tx' then
              if h6 : tl = tl' then
                match elemListDecEq ch ch' with
                | isTrue h7 => isTrue (by rw [h1, h2, h3, h4, h5, h6, h7])
                | isFalse h7 => isFalse (by intro he; injection he; contradiction)
              else isFalse (by intro he; injection he; contradiction)
            else isFalse (by intro he; injection he; contradiction)
          else isFalse (by intro he; injection he; contradiction)
        else isFalse (by intro he; injection he; contradiction)
      else isFalse (by intro he; injection he; contradiction)
    else isFalse (by intro he; injection he; contradiction)

def elemListDecEq : (as bs : List Elem) → Decidable (as = bs)
  | [], [] => isTrue rfl
  | [], _ :: _ => isFalse (by intro he; exact List.noConfusion he)
  | _ :: _, [] => isFalse (by intro he; exact List.noConfusion he)
  | a :: as, b :: bs =>
    match elemDecEq a b, elemListDecEq as bs with
    | isTrue h1, isTrue h2 => isTrue (by rw [h1, h2])
    | isFalse h1, _ => isFalse (by intro he; injection he; contradiction)
    | _, isFalse h2 => isFalse (by intro he; injection he; contradiction)

end

instance : DecidableEq Elem := elemDecEq

namespace Elem

def eid : Elem → Nat
  | .mk i _ _ _ _ _ _ => i

def tag : Elem → String
  | .mk _ t _ _ _ _ _ => t

def attrs : Elem → List (String × String)
  | .mk _ _ a _ _ _ _ => a

def nsmap : Elem → List (String × String)
  | .mk _ _ _ n _ _ _ => n

def text : Elem → Option String
  | .mk _ _ _ _ t _ _ => t

def tail : Elem → Option String
  | .mk _ _ _ _ _ t _ => t

def children : Elem → List Elem
  | .mk _ _ _ _ _ _ c => c

def withTail (e : Elem) (t : Option String) : Elem :=
  .mk e.eid e.tag e.attrs e.nsmap e.text t e.children

def withChildren (e : Elem) (c : List Elem) : Elem :=
  .mk e.eid e.tag e.attrs e.nsmap e.text e.tail c

def withAttrs (e : Elem) (a : List (String × String)) : Elem :=
  .mk e.eid e.tag a e.nsmap e.text e.tail e.children

end Elem

/-- `element.get(key)`: attribute lookup (first binding; keys are unique). -/
def getAttr (e : Elem) (k : String) : Option String :=
  (e.attrs.find? (fun p => p.1 == k)).map (·.2)

/-- `attrs` assoc-list update used by `element.set(key, value)`: overwrite in
place when the key exists, else append. -/
def setPair (a : List (String × String)) (k v : String) : List (String × String) :=
  match a with
  | [] => [(k, v)]
  | (k', v') :: rest =>
    if k' == k then (k, v) :: rest else (k', v') :: setPair rest k v

def setAttr (e : Elem) (k v : String) : Elem :=
  e.withAttrs (setPair e.attrs k v)

/-- `element.attrib.pop(key, None)`. -/
def popAttr (e : Elem) (k : String) : Elem :=
  e.withAttrs (e.attrs.filter (fun p => p.1 != k))

/-! Kernel-reducible replacements for the `String` operations the sources
use (`startswith`, `endswith`, `split`, `strip`, `int(...)`): the core
`String` versions are defined by position arithmetic the kernel cannot
evaluate, so these work on the character list instead. -/

def leadMatch : List Char → List Char → Bool
  | _, [] => true
  | [], _ :: _ => false
  | c :: cs, d :: ds => c == d && leadMatch cs ds

/-- `s.startswith(p)`. -/
def strStarts (s p : String) : Bool := leadMatch s.toList p.toList

/-- `s.endswith(p)`. -/
def strEnds (s p : String) : Bool := leadMatch s.toList.reverse p.toList.reverse

/-- `s.split(sep)` for a one-character separator. -/
def splitChar (sep : Char) : List Char → List (List Char)
  | [] => [[]]
  | c :: cs =>
    match splitChar sep cs with
    | [] => [[c]]
    | g :: gs => if c == sep then [] :: g :: gs else (c :: g) :: gs

def strSplit (s : String) (sep : Char) : List String :=
  (splitChar sep s.toList).map String.mk

/-- Python whitespace for `str.strip()`. -/
def isSpaceChar (c : Char) : Bool :=
  c == ' ' || c == '\t' || c == '\n' || c == '\r' || c == '\x0b' || c == '\x0c'

/-- `s.strip()`. -/
def pyStrip (s : String) : String :=
  String.mk (((s.toList.dropWhile isSpaceChar).reverse.dropWhile isSpaceChar).reverse)

def digitVal (c : Char) : Option Nat :=
  let n := c.toNat
  if 48 ≤ n && n ≤ 57 then some (n - 48) else none

def digitsVal : List Nat → Nat
  | [] => 0
  | d :: ds => d * 10 ^ ds.length + digitsVal ds

/-- Python `int(s)`: optional surrounding whitespace, optional sign, one or
more decimal digits; anything else raises `ValueError` (here: `none`). -/
def pyInt (s : String) : Option Int :=
  let core := (pyStrip s).toList
  let signed : Int → List Char → Option Int := fun sign ds =>
    match ds.mapM digitVal with
    | some l => if l.isEmpty then none else some (sign * (digitsVal l : Int))
    | none => none
  match core with
  | '-' :: rest => signed (-1) rest
  | '+' :: rest => signed 1 rest
  | rest => signed 1 rest

/-- Python truthiness of `local.text and local.text.strip()`: a present,
non-whitespace text. -/
def nonBlankText : Option String → Bool
  | some s => pyStrip s != ""
  | none => false

/-- Truthiness of `element.get(k)` in Python: present and non-empty. -/
def attrTruthy (e : Elem) (k : String) : Bool :=
  match getAttr e k with
  | none => false
  | some v => v != ""

mutual

/-- All identities occurring in the tree (self and descendants). -/
def elemIds : Elem → List Nat
  | .mk i _ _ _ _ _ c => i :: elemIdsList c

def elemIdsList : List Elem → List Nat
  | [] => []
  | e :: es => elemIds e ++ elemIdsList es

end

mutual

/-- `copy.deepcopy`: structurally identical tree with fresh identities drawn
from the counter `c`.  Returns the copy and the next counter. -/
def deepcopy (c : Nat) : Elem → Elem × Nat
  | .mk _ t a n tx tl ch =>
    let (ch', c') := deepcopyList (c + 1) ch
    (.mk c t a n tx tl ch', c')

def deepcopyList (c : Nat) : List Elem → List Elem × Nat
  | [] => ([], c)
  | e :: es =>
    let (e', c') := deepcopy c e
    let (es', c'') := deepcopyList c' es
    (e' :: es', c'')

end

mutual

/-- Strict descendants (document order) satisfying `p`; models
`element.xpath(".//*[@k]")`-style snapshots (which exclude the element
itself). -/
def descWhere (p : Elem → Bool) : Elem → List Elem
  | .mk _ _ _ _ _ _ ch => descWhereList p ch

def descWhereList (p : Elem → Bool) : List Elem → List Elem
  | [] => []
  | e :: es =>
    (if p e then [e] else []) ++ descWhere p e ++ descWhereList p es

end

/-- `element.xpath(".//*[@href]")`: strict descendants carrying `href`. -/
def descWithAttr (k : String) (e : Elem) : List Elem :=
  descWhere (fun d => (getAttr d k).isSome) e

mutual

/-- `remote_root.iter(tag)`: descendant-or-self nodes with the tag, document
order. -/
def iterTag (t : String) : Elem → List Elem
  | .mk i tg a n tx tl ch =>
    (if tg == t then [Elem.mk i tg a n tx tl ch] else []) ++ iterTagList t ch

def iterTagList (t : String) : List Elem → List Elem
  | [] => []
  | e :: es => iterTag t e ++ iterTagList t es

end

mutual

/-- First node (document order, self included) with the given identity. -/
def findById (i : Nat) : Elem → Option Elem
  | .mk j tg a n tx tl ch =>
    if j == i then some (Elem.mk j tg a n tx tl ch) else findByIdList i ch

def findByIdList (i : Nat) : List Elem → Option Elem
  | [] => none
  | e :: es =>
    match findById i e with
    | some r => some r
    | none => findByIdList i es

end

/-- One step of an lxml `getpath` result: tag plus the positional predicate,
present only when the node has same-tag siblings (lxml omits `[1]` for a
unique child). -/
abbrev PathStep := String × Option Nat

mutual

/-- Path (in `getpath` form, root step included) from `root` to the node with
identity `i`. -/
def pathToId (i : Nat) : Elem → Option (List PathStep)
  | .mk j tg _ _ _ _ ch =>
    if j == i then some [(tg, none)]
    else
      match pathToIdChildren i ch ch with
      | some rest => some ((tg, none) :: rest)
      | none => none

def pathToIdChildren (i : Nat) (all : List Elem) : List Elem → Option (List PathStep)
  | [] => none
  | e :: es =>
    match pathToIdSub i all e with
    | some p => some p
    | none => pathToIdChildren i all es

def pathToIdSub (i : Nat) (all : List Elem) (e : Elem) : Option (List PathStep) :=
  match pathToId i e with
  | none => none
  | some rest =>
    let sameTag := all.filter (fun s => s.tag == e.tag)
    let idx := (all.takeWhile (fun s => s.eid != e.eid)).countP (fun s => s.tag == e.tag)
    let step : PathStep :=
      if sameTag.length ≤ 1 then (e.tag, none) else (e.tag, some (idx + 1))
    match rest with
    | [] => none
    | _ :: tailSteps => some (step :: tailSteps)

end

/-- Children of `e` selected by one path step. -/
def stepChildren (e : Elem) (s : PathStep) : List Elem :=
  let same := e.children.filter (fun c => c.tag == s.1)
  match s.2 with
  | none => same
  | some k => (same.drop (k - 1)).take 1

/-- Evaluate an absolute positional path (as produced by `getpath`) against a
document root: models `remote_root.xpath(xpath)` for such paths. -/
def resolvePath (root : Elem) (p : List PathStep) : List Elem :=
  match p with
  | [] => []
  | (t, _) :: rest =>
    if root.tag == t then
      rest.foldl (fun acc s => acc.flatMap (fun e => stepChildren e s)) [root]
    else []

mutual

/-- Replace the (first, document order) subtree whose root has identity `i`
with `new`; models lxml `parent.remove(node); parent.insert(index, new)`. -/
def replaceById (i : Nat) (new : Elem) : Elem → Elem
  | .mk j tg a n tx tl ch =>
    if j == i then new
    else Elem.mk j tg a n tx tl (replaceByIdList i new ch)

def replaceByIdList (i : Nat) (new : Elem) : List Elem → List Elem
  | [] => []
  | e :: es =>
    if (findById i e).isSome then replaceById i new e :: es
    else e :: replaceByIdList i new es

end

mutual

/-- Rewrite the child list of the parent of the node with identity `i`
(document order, first occurrence).  `f` receives the old child list and the
position of the node inside it. -/
def mapParentOf (i : Nat) (f : List Elem → Nat → List Elem) : Elem → Elem
  | .mk j tg a n tx tl ch =>
    match ch.findIdx? (fun c => c.eid == i) with
    | some k => Elem.mk j tg a n tx tl (f ch k)
    | none => Elem.mk j tg a n tx tl (mapParentOfList i f ch)

def mapParentOfList (i : Nat) (f : List Elem → Nat → List Elem) : List Elem → List Elem
  | [] => []
  | e :: es =>
    if (findById i e).isSome then mapParentOf i f e :: es
    else e :: mapParentOfList i f es

end

mutual

/-- Ancestors (closest first) of the node with identity `i`; models
`node.iterancestors()`. -/
def ancestorsOf (i : Nat) : Elem → Option (List Elem)
  | .mk j tg a n tx tl ch =>
    if j == i then some []
    else
      match ancestorsOfList i ch with
      | some anc => some (anc ++ [Elem.mk j tg a n tx tl ch])
      | none => none

def ancestorsOfList (i : Nat) : List Elem → Option (List Elem)
  | [] => none
  | e :: es =>
    match ancestorsOf i e with
    | some anc => some anc
    | none => ancestorsOfList i es

end

mutual

/-- Structural equality ignoring identities (used only in statements; the
sources never compare elements). -/
def likeElem : Elem → Elem → Bool
  | .mk _ t a n tx tl ch, .mk _ t' a' n' tx' tl' ch' =>
    t == t' && a == a' && n == n' && tx == tx' && tl == tl' && likeElemList ch ch'

def likeElemList : List Elem → List Elem → Bool
  | [], [] => true
  | e :: es, f :: fs => likeElem e f && likeElemList es fs
  | _, _ => false

end

mutual

/-- Total number of `href` attributes in the tree (self included). -/
def hrefCount : Elem → Nat
  | .mk _ _ a _ _ _ ch =>
    (if (a.find? (fun p => p.1 == "href")).isSome then 1 else 0) + hrefCountList ch

def hrefCountList : List Elem → Nat
  | [] => 0
  | e :: es => hrefCount e + hrefCountList es

end

/-! ## Hydration items and errors

From `hydration/engine.py` (`HydrationItem`) and `exceptions.py`
(`HydrationError`).  Fuel exhaustion (`HydErr.fuel`) is this embedding's
representation of a source loop that has not yet exited; it is distinct from
every error the Python code can raise. -/

structure HydrationItem where
  element : Elem
  contextNode : Option Elem := none

inductive HydErr : Type where
  | fuel
  | err (msg : String)
deriving DecidableEq

/-- A resource fetcher joined with `etree.fromstring`: maps a URI to the
parsed remote root.  `none` covers both `ResourceFetchError` and XML parse
failure, which `_get_remote_document` turns into `HydrationError`.  The
per-strategy `_document_cache` is semantically the identity here because the
fetcher is a pure map and cached documents are only ever deep-copied. -/
abbrev Fetcher := String → Option Elem

/-! ## `HrefHydrationStrategy` (request-orchestrator `hydration/strategies.py`)

`_child_key`, `_child_signature`, `_merge_nodes`, `_locate_remote_node`,
`_hydrate_single_node`, `_hydrate_href_nodes`, `apply`.  (The vnvs service
duplicates `_child_key`/`_child_signature`/`_locate_remote_node` verbatim;
those definitions are shared.) -/

abbrev ChildKey := String × Option String × Option String × Nat
abbrev ChildSig := String × Option String × Option String

/-- `_child_key(element, position)`. -/
def childKey (e : Elem) (pos : Nat) : ChildKey :=
  match getAttr e "name" with
  | some v => (e.tag, some "name", some v, 0)
  | none =>
    match getAttr e "id" with
    | some v => (e.tag, some "id", some v, 0)
    | none => (e.tag, none, none, pos)

/-- `_child_signature(element)`. -/
def childSig (e : Elem) : ChildSig :=
  match getAttr e "name" with
  | some v => (e.tag, some "name", some v)
  | none =>
    match getAttr e "id" with
    | some v => (e.tag, some "id", some v)
    | none => (e.tag, none, none)

/-- `remote_lookup.get(key)` where `remote_lookup` is a dict comprehension
over `enumerate(remote_children)`: the LAST child whose key ms wins. -/
def lookupChild (remoteCh : List Elem) (k : ChildKey) : Option Elem :=
  ((remoteCh.enum.filter (fun p => childKey p.2 p.1 == k)).getLast?).map (·.2)

mutual

/-- Number of nodes in the tree (used only for fuel bounds). -/
def nodeCount : Elem → Nat
  | .mk _ _ _ _ _ _ ch => 1 + nodeCountList ch

def nodeCountList : List Elem → Nat
  | [] => 0
  | e :: es => nodeCount e + nodeCountList es

end

/-- The second child loop of `_merge_nodes`: append deep copies of remote
children whose key was not consumed and whose signature does not appear among
the local children. -/
def mergeExtras (c : Nat) (consumed : List ChildKey) (localSigs : List ChildSig) :
    List (Nat × Elem) → List Elem × Nat
  | [] => ([], c)
  | (idx, rc) :: rest =>
    if childKey rc idx ∈ consumed then mergeExtras c consumed localSigs rest
    else if childSig rc ∈ localSigs then mergeExtras c consumed localSigs rest
    else
      let (cp, c') := deepcopy c rc
      let (ms, c'') := mergeExtras c' consumed localSigs rest
      (cp :: ms, c'')

mutual

/-- `HrefHydrationStrategy._merge_nodes(local, remote)`; allocates fresh
identities from the counter `c`.  The Python recursion is structural in the
local tree; the explicit fuel (threaded so every call decreases it) only
makes the equations kernel-reducible — `mergeNodes` below always supplies an
adequate bound, so the fuel-exhausted branch is unreachable. -/
def mergeNodesF : Nat → Nat → Elem → Elem → Elem × Nat
  | 0, c, _, re => (Elem.mk c re.tag [] re.nsmap none none [], c + 1)
  | f + 1, c, lo, re =>
    let a0 := re.attrs.foldl (fun a p => setPair a p.1 p.2) []
    let a1 := lo.attrs.foldl
      (fun a p => if p.1 == "href" then a else setPair a p.1 p.2) a0
    let tx := if nonBlankText lo.text then lo.text else re.text
    let (mergedCh, consumed, c1) := mergeChildrenF f (c + 1) re.children 0 lo.children
    let localSigs := lo.children.map childSig
    let (extraCh, c2) := mergeExtras c1 consumed localSigs re.children.enum
    (Elem.mk c re.tag a1 re.nsmap tx lo.tail (mergedCh ++ extraCh), c2)

/-- The first child loop of `_merge_nodes`: merge each local child (at
0-based position `idx`) with the key-matched remote child, else deep-copy it;
record consumed keys. -/
def mergeChildrenF : Nat → Nat → List Elem → Nat → List Elem →
    List Elem × List ChildKey × Nat
  | 0, c, _, _, _ => ([], [], c)
  | _ + 1, c, _, _, [] => ([], [], c)
  | f + 1, c, remoteCh, idx, lc :: rest =>
    match lookupChild remoteCh (childKey lc idx) with
    | some rc =>
      let (m, c') := mergeNodesF f c lc rc
      let (ms, ks, c'') := mergeChildrenF f c' remoteCh (idx + 1) rest
      (m :: ms, childKey lc idx :: ks, c'')
    | none =>
      let (cp, c') := deepcopy c lc
      let (ms, ks, c'') := mergeChildrenF f c' remoteCh (idx + 1) rest
      (cp :: ms, ks, c'')

end

/-- `_merge_nodes` with its always-adequate fuel bound. -/
def mergeNodes (c : Nat) (lo re : Elem) : Elem × Nat :=
  mergeNodesF (4 * nodeCount lo + 4) c lo re

/-- The `try_attr` helper of `_locate_remote_node`: unique `name`/`id`
attribute match among same-tag nodes of the remote document. -/
def tryAttrFn (lo remoteRoot : Elem) (attr : String) : Option Elem :=
  if attrTruthy lo attr then
    match (iterTag lo.tag remoteRoot).filter
        (fun e => getAttr e attr == getAttr lo attr) with
    | [m] => some m
    | _ => none
  else none

/-- `_locate_remote_node(local, remote_root, xpath, href_value)`:
(a) the local node's own positional path evaluated in the remote document,
(b) unique `name`/`id` attribute match among same-tag nodes,
(c) unique same-tag node. -/
def locateRemoteNode (lo remoteRoot : Elem) (path : List PathStep) : Except HydErr Elem :=
  match resolvePath remoteRoot path with
  | [m] => .ok m
  | _ =>
    match tryAttrFn lo remoteRoot "name" with
    | some m => .ok m
    | none =>
      match tryAttrFn lo remoteRoot "id" with
      | some m => .ok m
      | none =>
        match iterTag lo.tag remoteRoot with
        | [m] => .ok m
        | _ => .error (.err "Remote document does not contain a single match")

/-- `_hydrate_single_node(node)`, acting on the tree that owns the node.
A snapshot entry whose node has been detached by an earlier replacement in
the same pass is a no-op here (the Python code mutates the detached
fragment, which cannot affect the result tree). -/
def hydrateSingleNode (fetch : Fetcher) (tree : Elem) (nodeId : Nat) (c : Nat) :
    Except HydErr (Elem × Nat) :=
  match findById nodeId tree with
  | none => .ok (tree, c)
  | some node =>
    match getAttr node "href" with
    | none => .ok (tree, c)
    | some hrefValue =>
      if hrefValue == "" then
        .error (.err "empty href attribute")
      else
        match pathToId nodeId tree with
        | none => .ok (tree, c)
        | some path =>
          match fetch hrefValue with
          | none => .error (.err "unresolved href URI")
          | some remoteRoot =>
            match locateRemoteNode node remoteRoot path with
            | .error e => .error e
            | .ok remoteNode =>
              let (merged, c') := mergeNodes c node remoteNode
              let merged := popAttr merged "href"
              let merged := merged.withTail node.tail
              .ok (replaceById nodeId merged tree, c')

/-- The `for node in nodes_with_href` pass over one snapshot. -/
def hydrateSnapshot (fetch : Fetcher) : List Nat → Elem → Nat → Except HydErr (Elem × Nat)
  | [], tree, c => .ok (tree, c)
  | i :: is, tree, c =>
    match hydrateSingleNode fetch tree i c with
    | .error e => .error e
    | .ok (tree', c') => hydrateSnapshot fetch is tree' c'

/-- `_hydrate_href_nodes(element)`: repeat snapshot-and-resolve until no
`href` remains.  The `while True` loop is given explicit fuel; running out of
fuel models a loop iteration the Python code would still be executing. -/
def hydrateHrefNodes (fetch : Fetcher) : Nat → Elem → Nat → Except HydErr (Elem × Nat)
  | 0, _, _ => .error .fuel
  | f + 1, tree, c =>
    match (descWithAttr "href" tree).map Elem.eid with
    | [] => .ok (tree, c)
    | snap =>
      match hydrateSnapshot fetch snap tree c with
      | .error e => .error e
      | .ok (tree', c') => hydrateHrefNodes fetch f tree' c'

/-- `HrefHydrationStrategy.apply(items, document_root, engine)`. -/
def hrefApply (fetch : Fetcher) (fuel : Nat) :
    List HydrationItem → Nat → Except HydErr (List HydrationItem × Nat)
  | [], c => .ok ([], c)
  | it :: its, c =>
    match hydrateHrefNodes fetch fuel it.element c with
    | .error e => .error e
    | .ok (e', c') =>
      match hrefApply fetch fuel its c' with
      | .error e => .error e
      | .ok (its', c'') => .ok ({ it with element := e' } :: its', c'')

/-! ## XPath subset

The strategies evaluate XPath strings via `node.xpath(...)`.  The sources
only ever build child-axis location paths: absolute `/t1/t2/…`, the bare
context `.`, and relative `./t1/…` (including `./.`).  This evaluator covers
exactly that subset and returns no ms for anything else; expressions
outside the subset do not occur in the statements below. -/

/-- Apply one location step (a tag, or `.` for self) to a node set. -/
def evalSteps (start : List Elem) (steps : List String) : List Elem :=
  steps.foldl
    (fun acc st =>
      if st == "." then acc
      else acc.flatMap (fun e => e.children.filter (fun ch => ch.tag == st)))
    start

/-- `node.xpath(expr)` for the child-axis subset; absolute paths are
evaluated from `node` as the document root (all call sites pass the root for
absolute expressions). -/
def xpath (node : Elem) (expr : String) : List Elem :=
  match strSplit expr '/' with
  | "" :: first :: rest =>
    if node.tag == first then evalSteps [node] rest else []
  | [""] => []
  | parts => evalSteps [node] parts

/-! ## `UseFunctionHydrationStrategy`

Identical source text in both services' `strategies.py`. -/

/-- Python `s.split(sep, 1)` for a one-character separator. -/
def splitFirst (s : String) (sep : Char) : List String :=
  match strSplit s sep with
  | [x] => [x]
  | x :: rest => [x, String.intercalate (String.mk [sep]) rest]
  | [] => []

/-- `_strip_namespace(value)`: split at the first `:`; no colon raises
`HydrationError` (via the documented ValueError path). -/
def stripNamespace (v : String) : Except HydErr (String × String) :=
  match splitFirst v ':' with
  | [pfx, func] => .ok (pfx, func)
  | _ => .error (.err "expected prefix:function format")

/-- `_parse_use_expression(expr)` → (function name, the two arguments). -/
def parseUseExpression (expr : String) : Except HydErr (String × String × String) :=
  if !strEnds expr ")" then .error (.err "expected parentheses")
  else
    match splitFirst (expr.dropRight 1) '(' with
    | [pfxFunc, argsStr] =>
      match stripNamespace pfxFunc with
      | .error e => .error e
      | .ok (_, func) =>
        match (strSplit argsStr ',').map pyStrip |>.filter (fun p => p != "") with
        | [a, b] => .ok (func, a, b)
        | _ => .error (.err "expects exactly two arguments")
    | _ => .error (.err "ValueError: no opening parenthesis")

/-- The inner loop of `_execute_link`: one item clone per matched child; the
clone is a deep copy of the element minus `use`, the child is the clone's
context node. -/
def usePerChild (it : HydrationItem) : List Elem → Nat → List HydrationItem × Nat
  | [], c0 => ([], c0)
  | child :: cs, c0 =>
    let (clone, c1) := deepcopy c0 it.element
    let clone := popAttr clone "use"
    let (rest, c2) := usePerChild it cs c1
    ({ element := clone, contextNode := some child } :: rest, c2)

/-- `_execute_link(item, args, document_root)`. -/
def executeLink (docRoot : Elem) (it : HydrationItem) (srcXPath childName : String)
    (c : Nat) : Except HydErr (List HydrationItem × Nat) :=
  match xpath docRoot srcXPath with
  | [] => .error (.err "vn:link source XPath did not resolve to any elements")
  | ms =>
    let produced := ms.foldl
      (fun (acc : List HydrationItem × Nat) m =>
        let (items0, c0) := acc
        let (new, c1) := usePerChild it (xpath m ("./" ++ childName)) c0
        (items0 ++ new, c1))
      ([], c)
    .ok produced

/-- `_expand_use(item, use_attr, document_root)`. -/
def expandUse (docRoot : Elem) (it : HydrationItem) (useAttr : String) (c : Nat) :
    Except HydErr (List HydrationItem × Nat) :=
  match stripNamespace ((splitFirst useAttr '(').headD useAttr) with
  | .error e => .error e
  | .ok (pfx, _) =>
    if pfx != "vn" then .error (.err "Unsupported custom hydration namespace")
    else
      match parseUseExpression useAttr with
      | .error e => .error e
      | .ok (func, a, b) =>
        if func != "link" then .error (.err "Unsupported custom hydration function")
        else executeLink docRoot it a b c

/-- The work-queue loop of `UseFunctionHydrationStrategy.apply` for one
initial item list.  The queue is processed with fuel; each dequeued item
either passes through (no `use`) or is expanded and its clones re-enqueued. -/
def useQueue (docRoot : Elem) : Nat → List HydrationItem → List HydrationItem → Nat →
    Except HydErr (List HydrationItem × Nat)
  | 0, queue, _, _ => if queue.isEmpty then .error .fuel else .error .fuel
  | _ + 1, [], output, c => .ok (output, c)
  | f + 1, current :: queue, output, c =>
    match getAttr current.element "use" with
    | none => useQueue docRoot f queue (output ++ [current]) c
    | some useAttr =>
      if useAttr == "" then useQueue docRoot f queue (output ++ [current]) c
      else
        match expandUse docRoot current useAttr c with
        | .error e => .error e
        | .ok (clones, c') =>
          if clones.isEmpty then
            .error (.err "Custom function did not resolve to any target nodes")
          else useQueue docRoot f (queue ++ clones) output c'

/-- `UseFunctionHydrationStrategy.apply(items, document_root, engine)`:
each item seeds its own queue; outputs are concatenated in order. -/
def useApply (docRoot : Elem) (fuel : Nat) :
    List HydrationItem → Nat → Except HydErr (List HydrationItem × Nat)
  | [], c => .ok ([], c)
  | it :: its, c =>
    match useQueue docRoot fuel [it] [] c with
    | .error e => .error e
    | .ok (out, c') =>
      match useApply docRoot fuel its c' with
      | .error e => .error e
      | .ok (outs, c'') => .ok (out ++ outs, c'')

/-! ## `SelectHydrationStrategy` (request-orchestrator variant)

This service's select strategy replaces each eligible node with a plain deep
copy of the resolved reference — no merge and no recursive re-hydration
(contrast with the vnvs variant below). -/

/-- `_validate_match`: exactly one element. -/
def validateMatch (ms : List Elem) : Except HydErr Elem :=
  match ms with
  | [m] => .ok m
  | _ => .error (.err "resolved to a number of elements other than one")

/-- `SelectHydrationStrategy._resolve_reference` (request-orchestrator).
The absolute-expression `_reference_cache` is semantically the identity
because `document_root` is never mutated while the strategy runs. -/
def resolveReference (docRoot : Elem) (ctx : Option Elem) (expr : String) :
    Except HydErr Elem :=
  if strStarts expr "/" then validateMatch (xpath docRoot expr)
  else if !strStarts expr "." then
    .error (.err "select expression must be absolute or relative")
  else
    match ctx with
    | none => .error (.err "select expression requires a context node")
    | some ctxNode =>
      if expr == "." then .ok ctxNode
      else validateMatch (xpath ctxNode expr)

/-- Loop body of the orchestrator `SelectHydrationStrategy.apply` over one
snapshot entry: skip when an ancestor carries `use`; resolve; replace the
node with a deep copy of the resolved element.  Entries detached by earlier
replacements are no-ops (the Python code mutates the detached fragment). -/
def selectProcessNode (docRoot : Elem) (ctx : Option Elem) (tree : Elem) (nodeId : Nat)
    (c : Nat) : Except HydErr (Elem × Nat) :=
  match findById nodeId tree with
  | none => .ok (tree, c)
  | some node =>
    match ancestorsOf nodeId tree with
    | none => .ok (tree, c)
    | some ancestors =>
      if ancestors.any (fun a => attrTruthy a "use") then .ok (tree, c)
      else
        match getAttr node "select" with
        | none => .ok (tree, c)
        | some expr =>
          if expr == "" then
            .error (.err "select attribute without a value")
          else
            match resolveReference docRoot ctx expr with
            | .error e => .error e
            | .ok source =>
              let (replacementCopy, c') := deepcopy c source
              .ok (replaceById nodeId replacementCopy tree, c')

def selectSnapshot (docRoot : Elem) (ctx : Option Elem) :
    List Nat → Elem → Nat → Except HydErr (Elem × Nat)
  | [], tree, c => .ok (tree, c)
  | i :: is, tree, c =>
    match selectProcessNode docRoot ctx tree i c with
    | .error e => .error e
    | .ok (tree', c') => selectSnapshot docRoot ctx is tree' c'

/-- `SelectHydrationStrategy.apply` (request-orchestrator): one snapshot of
`.//*[@select]` per item, no repeat loop. -/
def selectApply (docRoot : Elem) :
    List HydrationItem → Nat → Except HydErr (List HydrationItem × Nat)
  | [], c => .ok ([], c)
  | it :: its, c =>
    let snap := (descWithAttr "select" it.element).map Elem.eid
    match selectSnapshot docRoot it.contextNode snap it.element c with
    | .error e => .error e
    | .ok (e', c') =>
      match selectApply docRoot its c' with
      | .error e => .error e
      | .ok (its', c'') => .ok ({ it with element := e' } :: its', c'')

/-! ## `HydrationEngine` (request-orchestrator `hydration/engine.py`) -/

/-- Strategy tags of the request-orchestrator service (only three strategy
classes exist in its `strategies.py`). -/
inductive OStrat : Type where
  | href
  | useFunction
  | select
deriving DecidableEq

/-- Class name of each strategy, for comparing pipeline layouts. -/
def OStrat.name : OStrat → String
  | .href => "Href"
  | .useFunction => "UseFunction"
  | .select => "Select"

/-- The default strategy list built by `HydrationEngine.__init__` when
`strategies is None` (the same list is built by
`RequestOrchestrator.__init__`); the first and last entries are the same
`HrefHydrationStrategy` instance. -/
def defaultStrategies : List OStrat :=
  [.href, .useFunction, .select, .href]

def applyOStrat (fetch : Fetcher) (fuel : Nat) (docRoot : Elem) (s : OStrat)
    (items : List HydrationItem) (c : Nat) : Except HydErr (List HydrationItem × Nat) :=
  match s with
  | .href => hrefApply fetch fuel items c
  | .useFunction => useApply docRoot fuel items c
  | .select => selectApply docRoot items c

/-- `HydrationEngine._apply_strategies`. -/
def applyStrategies (fetch : Fetcher) (fuel : Nat) (docRoot : Elem) :
    List OStrat → List HydrationItem → Nat → Except HydErr (List HydrationItem × Nat)
  | [], items, c => .ok (items, c)
  | s :: ss, items, c =>
    match applyOStrat fetch fuel docRoot s items c with
    | .error e => .error e
    | .ok (items', c') => applyStrategies fetch fuel docRoot ss items' c'

/-- `HydrationEngine.hydrate_element(element, document_root, context_node)`:
deep-copy the input once, wrap it as a single item, thread the item list
through each strategy in order. -/
def hydrateElement (fetch : Fetcher) (fuel : Nat) (strategies : List OStrat)
    (element docRoot : Elem) (ctx : Option Elem) (c : Nat) :
    Except HydErr (List HydrationItem × Nat) :=
  let (copied, c') := deepcopy c element
  applyStrategies fetch fuel docRoot strategies
    [{ element := copied, contextNode := ctx }] c'

/-! ## vnvs service: `_merge_elements` (`src/services/vnvs/app/hydration/strategies.py`)

Unlike the orchestrator's `_merge_nodes`, this merge takes ignore sets for
both sides (propagated into child merges), has a signature-based fallback
when the key lookup misses, tracks consumed signatures, and prefers the
remote text whenever the local element carries `select` and the remote text
is not None. -/

/-- The signature fallback of the vnvs child loop: the first remote child
(by enumeration) whose key is not consumed and whose signature matches. -/
def sigFallback (remoteCh : List Elem) (consumed : List ChildKey) (sig : ChildSig) :
    Option (Elem × ChildKey) :=
  ((remoteCh.enum.filter
      (fun p => !(childKey p.2 p.1 ∈ consumed) && childSig p.2 == sig)).head?).map
    (fun p => (p.2, childKey p.2 p.1))

/-- The trailing loop of `_merge_elements`: append deep copies of remote
children whose key was not consumed, unless their signature appears both
among the local children and among the consumed signatures. -/
def vnvsMergeExtras (c : Nat) (consumed : List ChildKey) (consumedSigs localSigs : List ChildSig) :
    List (Nat × Elem) → List Elem × Nat
  | [] => ([], c)
  | (idx, rc) :: rest =>
    if childKey rc idx ∈ consumed then vnvsMergeExtras c consumed consumedSigs localSigs rest
    else if childSig rc ∈ localSigs && childSig rc ∈ consumedSigs then
      vnvsMergeExtras c consumed consumedSigs localSigs rest
    else
      let (cp, c') := deepcopy c rc
      let (ms, c'') := vnvsMergeExtras c' consumed consumedSigs localSigs rest
      (cp :: ms, c'')

mutual

/-- `_merge_elements(local, remote, ignore_local_attrs, ignore_remote_attrs)`.
Fuel as in `mergeNodesF`: the wrapper below always supplies an adequate
bound. -/
def vnvsMergeElementsF : Nat → Nat → Elem → Elem → List String → List String →
    Elem × Nat
  | 0, c, _, re, _, _ => (Elem.mk c re.tag [] re.nsmap none none [], c + 1)
  | f + 1, c, lo, re, ignoreLocal, ignoreRemote =>
    let a0 := re.attrs.foldl
      (fun a p => if p.1 ∈ ignoreRemote then a else setPair a p.1 p.2) []
    let a1 := lo.attrs.foldl
      (fun a p => if p.1 ∈ ignoreLocal then a else setPair a p.1 p.2) a0
    let tx :=
      if (getAttr lo "select").isSome && re.text.isSome then re.text
      else if nonBlankText lo.text then lo.text else re.text
    let (mergedCh, consumed, consumedSigs, c1) :=
      vnvsMergeChildrenF f (c + 1) re.children ignoreLocal ignoreRemote 0 [] [] lo.children
    let localSigs := lo.children.map childSig
    let (extraCh, c2) := vnvsMergeExtras c1 consumed consumedSigs localSigs re.children.enum
    (Elem.mk c re.tag a1 re.nsmap tx lo.tail (mergedCh ++ extraCh), c2)

/-- The child loop of `_merge_elements`: key lookup (unconditional), then
signature fallback restricted to not-yet-consumed remote children, then
plain deep copy; `consumed`/`consumedSigs` accumulate across the loop. -/
def vnvsMergeChildrenF : Nat → Nat → List Elem → List String → List String →
    Nat → List ChildKey → List ChildSig → List Elem →
    List Elem × List ChildKey × List ChildSig × Nat
  | 0, c, _, _, _, _, consumed, consumedSigs, _ => ([], consumed, consumedSigs, c)
  | _ + 1, c, _, _, _, _, consumed, consumedSigs, [] => ([], consumed, consumedSigs, c)
  | f + 1, c, remoteCh, ignoreLocal, ignoreRemote, idx, consumed, consumedSigs, lc :: rest =>
    let viaKey := (lookupChild remoteCh (childKey lc idx)).map
      (fun rc => (rc, childKey lc idx))
    let found :=
      match viaKey with
      | some p => some p
      | none => sigFallback remoteCh consumed (childSig lc)
    match found with
    | some (rc, key) =>
      let (m, c') := vnvsMergeElementsF f c lc rc ignoreLocal ignoreRemote
      let (ms, ks, sgs, c'') :=
        vnvsMergeChildrenF f c' remoteCh ignoreLocal ignoreRemote (idx + 1)
          (consumed ++ [key]) (consumedSigs ++ [childSig rc]) rest
      (m :: ms, ks, sgs, c'')
    | none =>
      let (cp, c') := deepcopy c lc
      let (ms, ks, sgs, c'') :=
        vnvsMergeChildrenF f c' remoteCh ignoreLocal ignoreRemote (idx + 1)
          consumed consumedSigs rest
      (cp :: ms, ks, sgs, c'')

end

/-- `_merge_elements` with its always-adequate fuel bound. -/
def vnvsMergeElements (c : Nat) (lo re : Elem) (ignoreLocal ignoreRemote : List String) :
    Elem × Nat :=
  vnvsMergeElementsF (4 * nodeCount lo + 4) c lo re ignoreLocal ignoreRemote

/-! ## vnvs service: `HrefHydrationStrategy`

Same locate/loop structure as the orchestrator variant, but merging with
`_merge_elements(node, remote, ignore_local_attrs={"href"},
ignore_remote_attrs={"href"})` and no separate pop. -/

def vnvsHydrateSingleNode (fetch : Fetcher) (tree : Elem) (nodeId : Nat) (c : Nat) :
    Except HydErr (Elem × Nat) :=
  match findById nodeId tree with
  | none => .ok (tree, c)
  | some node =>
    match getAttr node "href" with
    | none => .ok (tree, c)
    | some hrefValue =>
      if hrefValue == "" then
        .error (.err "empty href attribute")
      else
        match pathToId nodeId tree with
        | none => .ok (tree, c)
        | some path =>
          match fetch hrefValue with
          | none => .error (.err "unresolved href URI")
          | some remoteRoot =>
            match locateRemoteNode node remoteRoot path with
            | .error e => .error e
            | .ok remoteNode =>
              let (merged, c') := vnvsMergeElements c node remoteNode ["href"] ["href"]
              let merged := merged.withTail node.tail
              .ok (replaceById nodeId merged tree, c')

def vnvsHydrateSnapshot (fetch : Fetcher) : List Nat → Elem → Nat → Except HydErr (Elem × Nat)
  | [], tree, c => .ok (tree, c)
  | i :: is, tree, c =>
    match vnvsHydrateSingleNode fetch tree i c with
    | .error e => .error e
    | .ok (tree', c') => vnvsHydrateSnapshot fetch is tree' c'

def vnvsHydrateHrefNodes (fetch : Fetcher) : Nat → Elem → Nat → Except HydErr (Elem × Nat)
  | 0, _, _ => .error .fuel
  | f + 1, tree, c =>
    match (descWithAttr "href" tree).map Elem.eid with
    | [] => .ok (tree, c)
    | snap =>
      match vnvsHydrateSnapshot fetch snap tree c with
      | .error e => .error e
      | .ok (tree', c') => vnvsHydrateHrefNodes fetch f tree' c'

def vnvsHrefApply (fetch : Fetcher) (fuel : Nat) :
    List HydrationItem → Nat → Except HydErr (List HydrationItem × Nat)
  | [], c => .ok ([], c)
  | it :: its, c =>
    match vnvsHydrateHrefNodes fetch fuel it.element c with
    | .error e => .error e
    | .ok (e', c') =>
      match vnvsHrefApply fetch fuel its c' with
      | .error e => .error e
      | .ok (its', c'') => .ok ({ it with element := e' } :: its', c'')

/-! ## vnvs service: `AttributeSelectHydrationStrategy` -/

mutual

/-- `etree.tostring(value, encoding="unicode")`, simplified: attributes in
stored order, `<t/>` for empty elements, the element's tail appended
(namespace declarations are not rendered). -/
def elemToString : Elem → String
  | .mk _ t a _ tx tl ch =>
    let attrStr := a.foldl (fun s p => s ++ " " ++ p.1 ++ "=\"" ++ p.2 ++ "\"") ""
    let inner := (tx.getD "") ++ elemToStringList ch
    let body :=
      if inner == "" then "<" ++ t ++ attrStr ++ "/>"
      else "<" ++ t ++ attrStr ++ ">" ++ inner ++ "</" ++ t ++ ">"
    body ++ tl.getD ""

def elemToStringList : List Elem → String
  | [] => ""
  | e :: es => elemToString e ++ elemToStringList es

end

/-- The `${select(` placeholder delimiters. -/
def placeholderPre : String := "$\x7bselect("

def placeholderSuf : String := ")\x7d"

/-- `AttributeSelectHydrationStrategy._extract_xpath(value)`. -/
def extractXPath (v : String) : Except HydErr (Option String) :=
  if !(strStarts v placeholderPre) || !(strEnds v placeholderSuf) then .ok none
  else
    let inner := pyStrip ((v.drop placeholderPre.length).dropRight placeholderSuf.length)
    if inner == "" then .error (.err "placeholder must include a non-empty XPath")
    else .ok (some inner)

/-- `AttributeSelectHydrationStrategy._resolve_xpath`. -/
def attrResolveXPath (docRoot : Elem) (ctx : Option Elem) (expr : String) :
    Except HydErr String :=
  let results :=
    if strStarts expr "/" then .ok (xpath docRoot expr)
    else if strStarts expr "." then
      match ctx with
      | none => Except.error (HydErr.err "XPath requires a context node")
      | some ctxNode => .ok (xpath ctxNode expr)
    else Except.error (HydErr.err "XPath must be absolute or relative")
  match results with
  | .error e => .error e
  | .ok [] => .error (.err "XPath did not resolve to any values")
  | .ok [v] => .ok (elemToString v)
  | .ok _ => .error (.err "XPath resolved to more than one value")

def attrSelectAttrs (docRoot : Elem) (ctx : Option Elem) :
    List (String × String) → Except HydErr (List (String × String))
  | [] => .ok []
  | (k, v) :: rest =>
    match extractXPath v with
    | .error e => .error e
    | .ok none =>
      match attrSelectAttrs docRoot ctx rest with
      | .error e => .error e
      | .ok rest' => .ok ((k, v) :: rest')
    | .ok (some expr) =>
      match attrResolveXPath docRoot ctx expr with
      | .error e => .error e
      | .ok resolved =>
        match attrSelectAttrs docRoot ctx rest with
        | .error e => .error e
        | .ok rest' => .ok ((k, resolved) :: rest')

mutual

/-- `_hydrate_attributes` over one element tree (`item.element.iter()`). -/
def attrSelectElem (docRoot : Elem) (ctx : Option Elem) : Elem → Except HydErr Elem
  | .mk i t a n tx tl ch =>
    match attrSelectAttrs docRoot ctx a with
    | .error e => .error e
    | .ok a' =>
      match attrSelectList docRoot ctx ch with
      | .error e => .error e
      | .ok ch' => .ok (Elem.mk i t a' n tx tl ch')

def attrSelectList (docRoot : Elem) (ctx : Option Elem) :
    List Elem → Except HydErr (List Elem)
  | [] => .ok []
  | e :: es =>
    match attrSelectElem docRoot ctx e with
    | .error e' => .error e'
    | .ok e' =>
      match attrSelectList docRoot ctx es with
      | .error e'' => .error e''
      | .ok es' => .ok (e' :: es')

end

/-- `AttributeSelectHydrationStrategy.apply`. -/
def attrSelectApply (docRoot : Elem) :
    List HydrationItem → Except HydErr (List HydrationItem)
  | [] => .ok []
  | it :: its =>
    match attrSelectElem docRoot it.contextNode it.element with
    | .error e => .error e
    | .ok e' =>
      match attrSelectApply docRoot its with
      | .error e => .error e
      | .ok its' => .ok ({ it with element := e' } :: its')

/-! ## vnvs service: `SelectHydrationStrategy` and `HydrationEngine`

The vnvs select strategy merges the eligible node with its resolved
reference, re-hydrates the merged subtree through the full engine and
splices the resulting items back in place.  The recursive engine entry makes
the whole set of functions mutually recursive; fuel decreases on every
cross-function call. -/

/-- Strategy tags of the vnvs service (four strategy classes). -/
inductive VStrat : Type where
  | href
  | useFunction
  | attributeSelect
  | select
deriving DecidableEq

def VStrat.name : VStrat → String
  | .href => "Href"
  | .useFunction => "UseFunction"
  | .attributeSelect => "AttributeSelect"
  | .select => "Select"

/-- Snapshot of the vnvs select loop: descendants with `select` whose
ancestors (inside the item element) do not carry a truthy `use`. -/
def eligibleSelectIds (tree : Elem) : List Nat :=
  ((descWithAttr "select" tree).filter (fun n =>
    match ancestorsOf n.eid tree with
    | some anc => !anc.any (fun a => attrTruthy a "use")
    | none => true)).map Elem.eid

/-- `replacement.attrib.pop("select", None)` plus the tail rule: the last
replacement receives the original node's tail, the others get `None`. -/
def adjustReplacement (e : Elem) (isLast : Bool) (tailText : Option String) : Elem :=
  (popAttr e "select").withTail (if isLast then tailText else none)

/-- The literal splice of the source: `parent.remove(node)` followed by
`parent.insert(insertion_index + offset, replacement)` for each enumerated
replacement. -/
def insertReplacements (ch : List Elem) (k : Nat) (tailText : Option String)
    (its : List HydrationItem) : List Elem :=
  let removed := ch.eraseIdx k
  (its.enum).foldl
    (fun acc p => acc.insertIdx (k + p.1) (adjustReplacement p.2.element
      (p.1 == its.length - 1) tailText))
    removed

mutual

/-- `HydrationEngine._apply_strategies` threading for the vnvs engine. -/
def vnvsApplyStrategies (fetch : Fetcher) (engineStrats : List VStrat) : Nat → Elem →
    List VStrat → List HydrationItem → Nat → Except HydErr (List HydrationItem × Nat)
  | 0, _, _, _, _ => .error .fuel
  | _ + 1, _, [], items, c => .ok (items, c)
  | f + 1, root, s :: ss, items, c =>
    let step : Except HydErr (List HydrationItem × Nat) :=
      match s with
      | .href => vnvsHrefApply fetch (f + 1) items c
      | .useFunction => useApply root (f + 1) items c
      | .attributeSelect =>
        match attrSelectApply root items with
        | .error e => .error e
        | .ok items' => .ok (items', c)
      | .select => vnvsSelectApply fetch engineStrats f root items c
    match step with
    | .error e => .error e
    | .ok (items', c') => vnvsApplyStrategies fetch engineStrats f root ss items' c'
termination_by structural f _ _ _ _ => f

/-- Modelled from the spec: `vnvs/app/hydration/engine.py` is not under
`src/`; per §4.2 (and the request-orchestrator `engine.py`, whose design it
shares) `hydrate_element` deep-copies the input once, wraps it as a single
item with the given context node and threads the item list through the
strategies in order. -/
def vnvsHydrateElement (fetch : Fetcher) : Nat → Elem → List VStrat → Elem →
    Option Elem → Nat → Except HydErr (List HydrationItem × Nat)
  | 0, _, _, _, _, _ => .error .fuel
  | f + 1, root, strats, element, ctx, c =>
    let (copied, c') := deepcopy c element
    vnvsApplyStrategies fetch strats f root strats
      [{ element := copied, contextNode := ctx }] c'
termination_by structural f _ _ _ _ _ => f

/-- vnvs `SelectHydrationStrategy.apply`: each item runs the
repeat-until-no-eligible-node loop. -/
def vnvsSelectApply (fetch : Fetcher) (engineStrats : List VStrat) : Nat → Elem →
    List HydrationItem → Nat → Except HydErr (List HydrationItem × Nat)
  | 0, _, _, _ => .error .fuel
  | _ + 1, _, [], c => .ok ([], c)
  | f + 1, root, it :: its, c =>
    match vnvsSelectWhile fetch engineStrats f root it.contextNode it.element c with
    | .error e => .error e
    | .ok (e', c') =>
      match vnvsSelectApply fetch engineStrats f root its c' with
      | .error e => .error e
      | .ok (its', c'') => .ok ({ it with element := e' } :: its', c'')
termination_by structural f _ _ _ => f

/-- The `while True` loop of the vnvs select strategy. -/
def vnvsSelectWhile (fetch : Fetcher) (engineStrats : List VStrat) : Nat → Elem →
    Option Elem → Elem → Nat → Except HydErr (Elem × Nat)
  | 0, _, _, _, _ => .error .fuel
  | f + 1, root, ctx, tree, c =>
    match eligibleSelectIds tree with
    | [] => .ok (tree, c)
    | snap =>
      match vnvsSelectSnap fetch engineStrats f root ctx snap tree c with
      | .error e => .error e
      | .ok (tree', c') => vnvsSelectWhile fetch engineStrats f root ctx tree' c'
termination_by structural f _ _ _ _ => f

/-- The `for node in nodes_with_select` pass over one snapshot. -/
def vnvsSelectSnap (fetch : Fetcher) (engineStrats : List VStrat) : Nat → Elem →
    Option Elem → List Nat → Elem → Nat → Except HydErr (Elem × Nat)
  | 0, _, _, _, _, _ => .error .fuel
  | _ + 1, _, _, [], tree, c => .ok (tree, c)
  | f + 1, root, ctx, i :: is, tree, c =>
    match vnvsProcessSelectNode fetch engineStrats f root ctx tree i c with
    | .error e => .error e
    | .ok (tree', c') => vnvsSelectSnap fetch engineStrats f root ctx is tree' c'
termination_by structural f _ _ _ _ _ => f

/-- Loop body for one snapshot entry: resolve, merge (ignoring local
`select`), re-hydrate the merged subtree through the engine, splice the
resulting items at the node's position.  Entries detached by earlier
replacements are no-ops. -/
def vnvsProcessSelectNode (fetch : Fetcher) (engineStrats : List VStrat) : Nat → Elem →
    Option Elem → Elem → Nat → Nat → Except HydErr (Elem × Nat)
  | 0, _, _, _, _, _ => .error .fuel
  | f + 1, root, ctx, tree, nodeId, c =>
    match findById nodeId tree with
    | none => .ok (tree, c)
    | some node =>
      match getAttr node "select" with
      | none => .error (.err "select attribute without a value")
      | some expr =>
        if expr == "" then .error (.err "select attribute without a value")
        else
          match resolveReference root ctx expr with
          | .error e => .error e
          | .ok source =>
            match ancestorsOf nodeId tree with
            | none => .ok (tree, c)
            | some [] => .error (.err "cannot hydrate element without a parent")
            | some (_ :: _) =>
              let (merged, c') := vnvsMergeElements c node source ["select"] []
              let tailText := node.tail
              match vnvsHydrateElement fetch f root engineStrats merged ctx c' with
              | .error e => .error e
              | .ok ([], _) => .error (.err "hydration produced no nodes for select")
              | .ok (reps@(_ :: _), c'') =>
                .ok (mapParentOf nodeId
                  (fun ch k => insertReplacements ch k tailText reps) tree, c'')
termination_by structural f _ _ _ _ _ => f

end

/-! ## Completion collector and request state machine (`orchestrator.py`)

`RequestOrchestrator._await_group_completion` and the group loop of
`RequestOrchestrator.run`.  The redis surface is modelled explicitly:
stream messages are a list of entries (each delivered at most once to the
`req::{requestId}` consumer group — `xreadgroup` with `'>'` never redelivers,
acknowledged or not), `xack` calls, `hset`/`set`/`xadd` calls and task
invocations are recorded in order.  `redis.get(result_key)` followed by
`etree.fromstring` is one lookup into a store of parsed documents.  The
wall-clock deadline is modelled by exhaustion of the entry list: the only
way the source loop can stop making progress is to poll an empty stream
until `time.time() > deadline` raises `TimeoutError`.

The constants module (`app/constants.py`) is not under `src/`;
`MAX_TASK_RETRIES` is therefore a parameter (the spec lists it as tunable)
and the key templates are represented structurally. -/

/-- One updates-stream message (`values` after field normalisation). -/
structure Msg where
  requestId : Option String := none
  groupIdx : Option String := none
  status : Option String := none
  taskId : Option String := none
  attempt : Option String := none
  attempts : Option String := none
  resultKey : Option String := none
deriving DecidableEq

/-- A stream entry: message id plus fields. -/
structure Entry where
  mid : Nat
  msg : Msg
deriving DecidableEq

/-- How a collector run aborts: `TimeoutError`, the
`RuntimeError(f"Group {...} failed: ...")`, or an uncaught Python-level
exception (e.g. `int()` on garbage, `None.encode()`, appending `None`). -/
inductive OErr : Type where
  | timeoutErr
  | groupFailed
  | pyError (msg : String)
deriving DecidableEq

/-- Persisted effects, in issue order. -/
inductive StateWrite : Type where
  | groupHash (gidx : Int) (field : String) (value : String)
  | requestHash (field : String) (value : String)
  | failureBlob (detail : String)
  | lifecycle (status : String)
  | responseBlob
deriving DecidableEq

/-- Collector / orchestrator state visible to the claims: counters, the
results spliced into the in-memory group element (the source appends the
deep-copied valuation to the group; the message's `taskId` is recorded
alongside purely for specification), acknowledgements, retry invocations,
persisted writes, and the identity counter. -/
structure CState where
  completed : Nat := 0
  pendingFailures : List Msg := []
  results : List (String × Elem) := []
  acks : List Nat := []
  invocations : List Msg := []
  writes : List StateWrite := []
  counter : Nat := 0
deriving DecidableEq

/-- `root.find("project/group/valuation")`: first match of the child path. -/
def findRel (e : Elem) (steps : List String) : Option Elem :=
  (steps.foldl (fun acc st => acc.flatMap (fun n => n.children.filter (fun ch => ch.tag == st)))
    [e]).head?

/-- The store of task results: `redis.get(result_key)` + `etree.fromstring`
(missing key → `None`; the payload is assumed well-formed XML, mirroring the
worker contract). -/
abbrev ResultStore := String → Option Elem

/-- The per-message body of `_await_group_completion` (orchestrator.py lines
283–321).  Returns the updated state and, when the body raises, the error;
state changes made before the raise (e.g. the `completed += 1` preceding the
payload read) are kept, as they are in Python. -/
def processEntry (rid : String) (gidx : Int) (taskIds : List String) (maxRetries : Int)
    (store : ResultStore) (st : CState) (e : Entry) : CState × Option OErr :=
  let values := e.msg
  if values.requestId != some rid then
    ({ st with acks := st.acks ++ [e.mid] }, none)
  else
    match pyInt (values.groupIdx.getD "-1") with
    | none => (st, some (.pyError "ValueError: invalid groupIdx"))
    | some g =>
      if g != gidx then (st, none)
      else
        let known := match values.taskId with
          | some t => taskIds.contains t
          | none => false
        if !known then ({ st with acks := st.acks ++ [e.mid] }, none)
        else
          let t := values.taskId.getD ""
          if values.status == some "completed" then
            let st := { st with completed := st.completed + 1 }
            match values.resultKey with
            | none => (st, some (.pyError "AttributeError: NoneType encode"))
            | some key =>
              match store key with
              | none => (st, some (.pyError "AttributeError: NoneType encode"))
              | some doc =>
                match findRel doc ["project", "group", "valuation"] with
                | none => (st, some (.pyError "TypeError: append None"))
                | some valuation =>
                  let (cp, c') := deepcopy st.counter valuation
                  let st := { st with
                    results := st.results ++ [(t, cp)]
                    counter := c'
                    writes := st.writes ++
                      [StateWrite.groupHash gidx "completed" (toString (st.completed))] }
                  ({ st with acks := st.acks ++ [e.mid] }, none)
          else if values.status == some "failed" then
            match pyInt (values.attempt.getD (values.attempts.getD "1")) with
            | none => (st, some (.pyError "ValueError: invalid attempt"))
            | some a =>
              if a < maxRetries then
                let retry := { values with attempt := some (toString (a + 1)) }
                ({ st with
                    invocations := st.invocations ++ [retry]
                    acks := st.acks ++ [e.mid] }, none)
              else
                let st := { st with
                  pendingFailures := st.pendingFailures ++ [values]
                  writes := st.writes ++
                    [StateWrite.groupHash gidx "failed" (toString (st.pendingFailures.length + 1))] }
                ({ st with acks := st.acks ++ [e.mid] }, none)
          else
            ({ st with acks := st.acks ++ [e.mid] }, none)

/-- One batch (`for message_id, raw_values in messages`). -/
def processBatch (rid : String) (gidx : Int) (taskIds : List String) (maxRetries : Int)
    (store : ResultStore) : List Entry → CState → CState × Option OErr
  | [], st => (st, none)
  | e :: es, st =>
    match processEntry rid gidx taskIds maxRetries store st e with
    | (st', some err) => (st', some err)
    | (st', none) => processBatch rid gidx taskIds maxRetries store es st'

/-- `_record_request_failure(request_id, detail)`: failure blob, request
hash `status=failed, failureAt=…`, lifecycle `failed`. -/
def recordRequestFailure (detail : String) (nowIso : String) (st : CState) : CState :=
  { st with writes := st.writes ++
      [.failureBlob detail,
       .requestHash "status" "failed",
       .requestHash "failureAt" nowIso,
       .lifecycle "failed"] }

/-- The `while completed < expected` loop of `_await_group_completion`.
Each iteration reads up to `expected` not-yet-delivered entries; an empty
read with nothing left to arrive polls until the deadline fires
(`TimeoutError`).  After each batch, accumulated `pending_failures` record a
failure and raise `RuntimeError`.  The fuel is the number of reads the
deadline allows: it running out with entries still pending models the
deadline firing mid-stream, and `awaitGroupCompletion` passes exactly enough
to drain the list. -/
def awaitLoop (rid : String) (gidx : Int) (taskIds : List String) (maxRetries : Int)
    (store : ResultStore) (expected : Nat) (nowIso : String)
    (fuel : Nat) (pending : List Entry) (st : CState) : CState × Option OErr :=
    if st.completed ≥ expected then
      ({ st with writes := st.writes ++ [.groupHash gidx "status" "completed"] }, none)
    else
      match fuel, pending with
      | _, [] => (st, some .timeoutErr)
      | 0, _ :: _ => (st, some .timeoutErr)
      | f + 1, p :: ps =>
        match processBatch rid gidx taskIds maxRetries store
            ((p :: ps).take expected) st with
        | (st', some err) => (st', some err)
        | (st', none) =>
          if st'.pendingFailures.isEmpty then
            awaitLoop rid gidx taskIds maxRetries store expected nowIso f
              ((p :: ps).drop expected) st'
          else
            (recordRequestFailure "group failures" nowIso st', some .groupFailed)

/-- `_await_group_completion` entry: descriptors give `expected` and the
known task ids; the group's valuation children have already been removed. -/
def awaitGroupCompletion (rid : String) (gidx : Int) (taskIds : List String)
    (maxRetries : Int) (store : ResultStore) (nowIso : String)
    (entries : List Entry) (st : CState) : CState × Option OErr :=
  awaitLoop rid gidx taskIds maxRetries store taskIds.length nowIso
    entries.length entries st

/-- The per-group body of `RequestOrchestrator.run`: mark running, publish
`group_started`, dispatch (modelled by the group-state initialisation write
and the given task ids), collect, publish `group_completed`. -/
def runGroup (rid : String) (maxRetries : Int) (store : ResultStore) (nowIso : String)
    (gidx : Int) (taskIds : List String) (entries : List Entry) (st : CState) :
    CState × Option OErr :=
  let st := { st with writes := st.writes ++
      [.requestHash "currentGroup" (toString gidx),
       .requestHash "status" "running",
       .lifecycle "group_started",
       .groupHash gidx "expected" (toString taskIds.length),
       .groupHash gidx "completed" "0",
       .groupHash gidx "failed" "0",
       .groupHash gidx "status" "running"] }
  match awaitGroupCompletion rid gidx taskIds maxRetries store nowIso entries st with
  | (st', some err) => (st', some err)
  | (st', none) =>
    ({ st' with writes := st'.writes ++ [.lifecycle "group_completed"] }, none)

/-- The group loop of `run` with its `try/except`: the first error records a
failure (`status=failed`) and re-raises; success serialises the response and
marks `status=succeeded`. -/
def runGroups (rid : String) (maxRetries : Int) (store : ResultStore) (nowIso : String) :
    List (Int × List String × List Entry) → CState → CState × Option OErr
  | [], st =>
    ({ st with writes := st.writes ++
        [.responseBlob,
         .requestHash "status" "succeeded",
         .requestHash "completedAt" nowIso,
         .lifecycle "completed"] }, none)
  | (gidx, taskIds, entries) :: gs, st =>
    match runGroup rid maxRetries store nowIso gidx taskIds entries st with
    | (st', some err) => (recordRequestFailure "group_processing" nowIso st', some err)
    | (st', none) => runGroups rid maxRetries store nowIso gs st'

/-- The last `status` field written to the `request:{id}` hash. -/
def lastStatusWrite (ws : List StateWrite) : Option String :=
  (ws.filterMap (fun w =>
    match w with
    | .requestHash f v => if f == "status" then some v else none
    | _ => none)).getLast?

/-! # Supporting lemmas for the claim theorems -/


/-- Assoc-list lookup on raw attribute lists (so `getAttr e k =
lookupA e.attrs k`). -/
def lookupA (a : List (String × String)) (k : String) : Option String :=
  (a.find? (fun p => p.1 == k)).map (·.2)

/-- First-defined choice on options. -/
def firstSome (x y : Option String) : Option String :=
  match x with
  | some v => some v
  | none => y

theorem lookupA_setPair (a : List (String × String)) (k v k' : String) :
    lookupA (setPair a k v) k' = if k' = k then some v else lookupA a k' := by
  induction a with
  | nil =>
    by_cases h : k' = k
    · subst h; simp [setPair, lookupA]
    · simp [setPair, lookupA, h, List.find?, show (k == k') = false by
        simpa [beq_iff_eq] using fun hc => h hc.symm]
  | cons p rest ih =>
    obtain ⟨pk, pv⟩ := p
    by_cases hpk : pk = k
    · subst hpk
      by_cases h : k' = pk
      · subst h
        simp [setPair, lookupA, List.find?]
      · simp [setPair, lookupA, List.find?, h,
          show (pk == k') = false by simpa [beq_iff_eq] using fun hc => h hc.symm]
    · by_cases h : k' = pk
      · simp only [setPair, show (pk == k) = false by simpa [beq_iff_eq] using hpk,
          Bool.false_eq_true, if_false, lookupA, List.find?,
          show (pk == k') = true by simpa [beq_iff_eq] using h.symm]
        rw [if_neg (fun hc => hpk (h ▸ hc))]
      · simp only [setPair, show (pk == k) = false by simpa [beq_iff_eq] using hpk,
          Bool.false_eq_true, if_false, lookupA, List.find?,
          show (pk == k') = false by simpa [beq_iff_eq] using fun hc => h hc.symm]
        have := ih
        simp only [lookupA] at this
        exact this

/-- Value of the last binding of `k` in `l`. -/
def lastVal (l : List (String × String)) (k : String) : Option String :=
  (l.reverse.find? (fun p => p.1 == k)).map (·.2)

theorem foldl_setPair_lookup (l : List (String × String))
    (init : List (String × String)) (k : String) :
    lookupA (l.foldl (fun a p => setPair a p.1 p.2) init) k =
      firstSome (lastVal l k) (lookupA init k) := by
  induction l generalizing init with
  | nil => simp [lastVal, firstSome]
  | cons p rest ih =>
    simp only [List.foldl_cons]
    rw [ih]
    simp only [lastVal, List.reverse_cons, List.find?_append]
    rw [lookupA_setPair]
    cases hrest : rest.reverse.find? (fun q => q.1 == k) with
    | some q => simp [hrest, firstSome, Option.orElse]
    | none =>
      by_cases hp : p.1 = k
      · simp [hrest, List.find?, show (p.1 == k) = true by simpa [beq_iff_eq] using hp,
          hp, firstSome]
      · simp [hrest, List.find?, show (p.1 == k) = false by simpa [beq_iff_eq] using hp,
          firstSome, if_neg (fun hc : k = p.1 => hp hc.symm)]

theorem foldl_setSkip_lookup (l : List (String × String)) (skip : String)
    (init : List (String × String)) (k : String) :
    lookupA (l.foldl (fun a p => if p.1 == skip then a else setPair a p.1 p.2) init) k =
      firstSome (lastVal (l.filter (fun p => p.1 != skip)) k) (lookupA init k) := by
  induction l generalizing init with
  | nil => simp [lastVal, firstSome]
  | cons p rest ih =>
    simp only [List.foldl_cons]
    by_cases hps : p.1 = skip
    · simp only [show (p.1 == skip) = true by simpa [beq_iff_eq] using hps, if_true,
        List.filter_cons, show (p.1 != skip) = false by simp [bne, beq_iff_eq, hps]]
      simpa using ih init
    · simp only [show (p.1 == skip) = false by simpa [beq_iff_eq] using hps,
        Bool.false_eq_true, if_false, List.filter_cons,
        show (p.1 != skip) = true by simp [bne, beq_iff_eq, hps], if_true]
      rw [ih]
      simp only [lastVal, List.reverse_cons, List.find?_append]
      rw [lookupA_setPair]
      cases hrest : (rest.filter (fun q => q.1 != skip)).reverse.find?
          (fun q => q.1 == k) with
      | some q => simp [hrest, firstSome, Option.orElse]
      | none =>
        by_cases hpk : p.1 = k
        · simp [hrest, List.find?,
            show (p.1 == k) = true by simpa [beq_iff_eq] using hpk, hpk, firstSome]
        · simp [hrest, List.find?,
            show (p.1 == k) = false by simpa [beq_iff_eq] using hpk,
            firstSome, if_neg (fun hc : k = p.1 => hpk hc.symm)]

/-- With unique keys the last binding is the first. -/
theorem lastVal_eq_lookupA (l : List (String × String))
    (h : (l.map Prod.fst).Nodup) (k : String) : lastVal l k = lookupA l k := by
  induction l with
  | nil => rfl
  | cons p rest ih =>
    simp only [List.map_cons, List.nodup_cons] at h
    obtain ⟨hnotin, hrest⟩ := h
    simp only [lastVal, List.reverse_cons, List.find?_append, lookupA, List.find?]
    by_cases hpk : p.1 = k
    · subst hpk
      have hnone : rest.reverse.find? (fun q => q.1 == p.1) = none := by
        rw [List.find?_eq_none]
        intro q hq hqeq
        exact hnotin (List.mem_map.mpr ⟨q, List.mem_reverse.mp hq,
          by simpa [beq_iff_eq] using hqeq⟩)
      simp [hnone]
    · have := ih hrest
      simp only [lastVal, lookupA] at this
      cases hfind : rest.reverse.find? (fun q => q.1 == k) with
      | none =>
        simp only [hfind, Option.none_orElse, List.find?,
          show (p.1 == k) = false by simpa [beq_iff_eq] using hpk]
        simpa [hfind] using this
      | some q =>
        simp only [hfind, Option.some_orElse,
          show (p.1 == k) = false by simpa [beq_iff_eq] using hpk]
        simpa [hfind] using this



theorem find?_filter_ne (l : List (String × String)) (skip k : String) (hk : k ≠ skip) :
    (l.filter (fun p => p.1 != skip)).find? (fun p => p.1 == k) =
      l.find? (fun p => p.1 == k) := by
  induction l with
  | nil => rfl
  | cons p rest ih =>
    by_cases hps : p.1 = skip
    · have h1 : (p.1 != skip) = false := by simp [bne, beq_iff_eq, hps]
      have h2 : (p.1 == k) = false := by
        simp only [beq_eq_false_iff_ne]
        intro hc
        exact hk (hc ▸ hps)
      simp [List.filter_cons, h1, List.find?, h2, ih]
    · have h1 : (p.1 != skip) = true := by simp [bne, beq_iff_eq, hps]
      by_cases hpk : p.1 = k
      · simp [List.filter_cons, h1, List.find?,
          show (p.1 == k) = true by simpa [beq_iff_eq] using hpk]
      · simp [List.filter_cons, h1, List.find?,
          show (p.1 == k) = false by simpa [beq_iff_eq] using hpk, ih]

theorem lastVal_filter_self (l : List (String × String)) (skip : String) :
    lastVal (l.filter (fun p => p.1 != skip)) skip = none := by
  have : ∀ q ∈ (l.filter (fun p => p.1 != skip)).reverse, ¬ (q.1 == skip) = true := by
    intro q hq
    have := List.of_mem_filter (List.mem_reverse.mp hq)
    simpa [bne, beq_iff_eq] using this
  rw [lastVal, List.find?_eq_none.mpr this]
  rfl

theorem nodup_keys_filter (l : List (String × String)) (skip : String)
    (h : (l.map Prod.fst).Nodup) :
    ((l.filter (fun p => p.1 != skip)).map Prod.fst).Nodup :=
  ((l.filter_sublist).map Prod.fst).nodup h


/-! # Claim C2 — the default strategy pipeline -/

/-- C2, counterexample.  The claim states the default pipeline is exactly
`Href, UseFunction, AttributeSelect, Select, Href`; the list built by
`HydrationEngine.__init__` (and by `RequestOrchestrator.__init__`) has only
four entries and no `AttributeSelect` strategy exists in the
request-orchestrator service at all. -/
theorem c2_counterexample :
    ¬ (defaultStrategies.map OStrat.name =
        ["Href", "UseFunction", "AttributeSelect", "Select", "Href"]) := by
  decide

/-- C2, amended: when no strategies are supplied, the pipeline is exactly
the ordered sequence `Href, UseFunction, Select, Href` (the first and last
entries being the same `HrefHydrationStrategy` instance). -/
theorem c2_theorem :
    defaultStrategies.map OStrat.name = ["Href", "UseFunction", "Select", "Href"] := rfl

/-! # Claim C5 — the href strategy's merge -/

/-- C5, counterexample.  The claim says the merged element's attributes are
the remote's overlaid by the local's "with `href` always dropped"; but
`_merge_nodes` only skips the LOCAL `href` — merging a local without `href`
against a remote carrying `href="u"` yields a merged element that still
carries `href="u"` (the strategy pops it afterwards only on the top-level
merged node, never in recursive child merges). -/
theorem c5_counterexample :
    ¬ (getAttr (mergeNodes 0 (Elem.mk 1 "m" [("name", "x")] [] none none [])
        (Elem.mk 2 "m" [("href", "u")] [] none none [])).1 "href" = none) := by
  decide

/-- C5, amended.  For every local/remote pair merged by
`HrefHydrationStrategy._merge_nodes` (with well-formed, duplicate-free
attribute lists): the merged element has the remote's tag and namespace map;
its text is the local text when non-blank and the remote text otherwise; its
tail is the local tail; its attributes are the remote's overlaid by the
local's with the LOCAL `href` dropped, while the remote's `href` is
retained by the merge itself (it is removed separately, and only for the
top-level merged node, by `_hydrate_single_node`). -/
theorem c5_theorem (c : Nat) (lo re : Elem)
    (hl : (lo.attrs.map Prod.fst).Nodup) (hr : (re.attrs.map Prod.fst).Nodup) :
    ((mergeNodes c lo re).1.tag = re.tag) ∧
    ((mergeNodes c lo re).1.nsmap = re.nsmap) ∧
    ((mergeNodes c lo re).1.tail = lo.tail) ∧
    ((mergeNodes c lo re).1.text = (if nonBlankText lo.text then lo.text else re.text)) ∧
    (getAttr (mergeNodes c lo re).1 "href" = getAttr re "href") ∧
    (∀ k, k ≠ "href" →
      getAttr (mergeNodes c lo re).1 k = firstSome (getAttr lo k) (getAttr re k)) := by
  have hm : (mergeNodes c lo re).1 =
      Elem.mk c re.tag
        (lo.attrs.foldl (fun a p => if p.1 == "href" then a else setPair a p.1 p.2)
          (re.attrs.foldl (fun a p => setPair a p.1 p.2) []))
        re.nsmap (if nonBlankText lo.text then lo.text else re.text) lo.tail
        ((mergeChildrenF (4 * nodeCount lo + 3) (c + 1) re.children 0 lo.children).1 ++
          (mergeExtras (mergeChildrenF (4 * nodeCount lo + 3) (c + 1) re.children 0 lo.children).2.2
            (mergeChildrenF (4 * nodeCount lo + 3) (c + 1) re.children 0 lo.children).2.1
            (lo.children.map childSig) re.children.enum).1) := by
    rfl
  refine ⟨by rw [hm]; rfl, by rw [hm]; rfl, by rw [hm]; rfl, by rw [hm]; rfl, ?_, ?_⟩
  · rw [hm]
    show lookupA (lo.attrs.foldl (fun a p => if p.1 == "href" then a else setPair a p.1 p.2)
      (re.attrs.foldl (fun a p => setPair a p.1 p.2) [])) "href" = getAttr re "href"
    rw [foldl_setSkip_lookup, lastVal_filter_self, foldl_setPair_lookup,
      lastVal_eq_lookupA re.attrs hr]
    simp only [firstSome, lookupA, getAttr]
    cases re.attrs.find? (fun p => p.1 == "href") <;> rfl
  · intro k hk
    rw [hm]
    show lookupA (lo.attrs.foldl (fun a p => if p.1 == "href" then a else setPair a p.1 p.2)
      (re.attrs.foldl (fun a p => setPair a p.1 p.2) [])) k =
      firstSome (getAttr lo k) (getAttr re k)
    rw [foldl_setSkip_lookup, foldl_setPair_lookup, lastVal_eq_lookupA re.attrs hr]
    have h1 : lastVal (lo.attrs.filter (fun p => p.1 != "href")) k =
        lookupA (lo.attrs.filter (fun p => p.1 != "href")) k :=
      lastVal_eq_lookupA _ (nodup_keys_filter lo.attrs "href" hl) k
    rw [h1]
    have h2 : lookupA (lo.attrs.filter (fun p => p.1 != "href")) k = getAttr lo k := by
      simp only [lookupA, getAttr, find?_filter_ne lo.attrs "href" k hk]
    rw [h2]
    cases getAttr lo k with
    | none =>
      simp only [firstSome, getAttr, lookupA]
      cases re.attrs.find? (fun p => p.1 == k) <;> rfl
    | some v => rfl

/-- Concrete inputs for the C5 witness. -/
def c5wLo : Elem :=
  Elem.mk 1 "m" [("href", "u"), ("name", "Loc"), ("date", "d")] [] (some "  ") none []

def c5wRe : Elem :=
  Elem.mk 2 "mq" [("name", "Rem"), ("attr", "rem")] [("v", "urn:v")] (some "rt") (some "tl") []

/-- C5, witness: the characterisation applied to concrete elements. -/
theorem c5_theorem_witness :
    ((c5wLo.attrs.map Prod.fst).Nodup) ∧ ((c5wRe.attrs.map Prod.fst).Nodup) ∧
    (((mergeNodes 0 c5wLo c5wRe).1.tag = c5wRe.tag) ∧
     ((mergeNodes 0 c5wLo c5wRe).1.nsmap = c5wRe.nsmap) ∧
     ((mergeNodes 0 c5wLo c5wRe).1.tail = c5wLo.tail) ∧
     ((mergeNodes 0 c5wLo c5wRe).1.text =
        (if nonBlankText c5wLo.text then c5wLo.text else c5wRe.text)) ∧
     (getAttr (mergeNodes 0 c5wLo c5wRe).1 "href" = getAttr c5wRe "href") ∧
     (∀ k, k ≠ "href" →
        getAttr (mergeNodes 0 c5wLo c5wRe).1 k =
          firstSome (getAttr c5wLo k) (getAttr c5wRe k))) :=
  ⟨by decide, by decide, c5_theorem 0 c5wLo c5wRe (by decide) (by decide)⟩

/-! # Claim C6 — collector message filtering -/

/-- C6.  For every message read from the updates stream: a message whose
`requestId` differs from the current request is acknowledged and dropped
without touching any counter; a message whose (parsed) `groupIdx` differs
from the current group is left untouched and unacknowledged; a message for
the current request and group whose `taskId` is not among the dispatched
ids (or missing) is acknowledged and dropped. -/
theorem c6_theorem (rid : String) (gidx : Int) (taskIds : List String)
    (maxRetries : Int) (store : ResultStore) (st : CState) (e : Entry) :
    (e.msg.requestId ≠ some rid →
      processEntry rid gidx taskIds maxRetries store st e =
        ({ st with acks := st.acks ++ [e.mid] }, none)) ∧
    (e.msg.requestId = some rid →
      ∀ g, pyInt (e.msg.groupIdx.getD "-1") = some g → g ≠ gidx →
      processEntry rid gidx taskIds maxRetries store st e = (st, none)) ∧
    (e.msg.requestId = some rid →
      pyInt (e.msg.groupIdx.getD "-1") = some gidx →
      (∀ t, e.msg.taskId = some t → taskIds.contains t = false) →
      processEntry rid gidx taskIds maxRetries store st e =
        ({ st with acks := st.acks ++ [e.mid] }, none)) := by
  refine ⟨?_, ?_, ?_⟩
  · intro h
    simp [processEntry, bne_iff_ne, h]
  · intro h g hg hne
    simp [processEntry, bne_iff_ne, h, hg, hne]
  · intro h hg hunknown
    cases ht : e.msg.taskId with
    | none => simp [processEntry, bne_iff_ne, h, hg, ht]
    | some t =>
      have hni : t ∉ taskIds := by simpa using hunknown t ht
      simp [processEntry, bne_iff_ne, h, hg, ht, hni]

/-- Concrete entries for the C6 witness. -/
def c6eOther : Entry := ⟨7, { requestId := some "other" }⟩

def c6eGroup : Entry :=
  ⟨8, { requestId := some "req", groupIdx := some "3", status := some "completed",
        taskId := some "1" }⟩

def c6eUnknown : Entry :=
  ⟨9, { requestId := some "req", groupIdx := some "0", status := some "completed",
        taskId := some "9" }⟩

/-- C6, witness: the three filters applied to concrete messages. -/
theorem c6_theorem_witness :
    (processEntry "req" 0 ["1", "2"] 3 (fun _ => none) {} c6eOther =
      ({ acks := [7] }, none)) ∧
    (processEntry "req" 0 ["1", "2"] 3 (fun _ => none) {} c6eGroup = ({}, none)) ∧
    (processEntry "req" 0 ["1", "2"] 3 (fun _ => none) {} c6eUnknown =
      ({ acks := [9] }, none)) :=
  ⟨( c6_theorem "req" 0 ["1", "2"] 3 (fun _ => none) {} c6eOther).1 (by decide),
   ( c6_theorem "req" 0 ["1", "2"] 3 (fun _ => none) {} c6eGroup).2.1 (by decide) 3
     (by decide) (by decide),
   ( c6_theorem "req" 0 ["1", "2"] 3 (fun _ => none) {} c6eUnknown).2.2 (by decide)
     (by decide) (by decide)⟩

/-! # Claim C7 — failed updates: retry below MAX_TASK_RETRIES, else fatal -/

/-- Result store and entries for the C7 retry-then-success scenario. -/
def c7doc : Elem :=
  Elem.mk 500 "vnml" [] [] none none
    [Elem.mk 501 "project" [] [] none none
      [Elem.mk 502 "group" [] [] none none
        [Elem.mk 503 "valuation" [("name", "v1")] [] none none []]]]

def c7store : ResultStore := fun k => if k == "rk1" then some c7doc else none

def c7failMsg : Msg :=
  { requestId := some "req", groupIdx := some "0", status := some "failed",
    taskId := some "1", attempt := some "1", resultKey := some "rk1" }

def c7okMsg : Msg :=
  { requestId := some "req", groupIdx := some "0", status := some "completed",
    taskId := some "1", attempt := some "2", resultKey := some "rk1" }

/-- C7.  For every `failed` update for a known task, with
`attempt = int(values.get("attempt", values.get("attempts", "1")))`:
(1) when `attempt < MAX_TASK_RETRIES` the task is re-invoked with the same
payload and `attempt+1`, nothing is added to `pendingFailures`, and the
message is acknowledged; (2) otherwise the message is appended to
`pendingFailures` and the group hash's `failed` field is updated;
(3) a batch that ends with non-empty `pendingFailures` records the failure
detail (`status=failed` included) and aborts with the fatal `RuntimeError`;
(4) concretely, a task that fails on attempt 1 with `MAX_TASK_RETRIES = 2`
and then completes still produces a successful run with exactly one result
for that task. -/
theorem c7_theorem (rid : String) (gidx : Int) (taskIds : List String)
    (maxRetries : Int) (store : ResultStore) (st : CState) (e : Entry) :
    (∀ t a, e.msg.requestId = some rid →
      pyInt (e.msg.groupIdx.getD "-1") = some gidx →
      e.msg.taskId = some t → taskIds.contains t = true →
      e.msg.status = some "failed" →
      pyInt (e.msg.attempt.getD (e.msg.attempts.getD "1")) = some a →
      a < maxRetries →
      processEntry rid gidx taskIds maxRetries store st e =
        ({ st with
            invocations := st.invocations ++ [{ e.msg with attempt := some (toString (a + 1)) }]
            acks := st.acks ++ [e.mid] }, none)) ∧
    (∀ t a, e.msg.requestId = some rid →
      pyInt (e.msg.groupIdx.getD "-1") = some gidx →
      e.msg.taskId = some t → taskIds.contains t = true →
      e.msg.status = some "failed" →
      pyInt (e.msg.attempt.getD (e.msg.attempts.getD "1")) = some a →
      ¬ a < maxRetries →
      processEntry rid gidx taskIds maxRetries store st e =
        ({ st with
            pendingFailures := st.pendingFailures ++ [e.msg]
            writes := st.writes ++
              [.groupHash gidx "failed" (toString (st.pendingFailures.length + 1))]
            acks := st.acks ++ [e.mid] }, none)) ∧
    (∀ (expected : Nat) (nowIso : String) (f : Nat) (p : Entry) (ps : List Entry)
        (st' : CState),
      st.completed < expected →
      processBatch rid gidx taskIds maxRetries store ((p :: ps).take expected) st =
        (st', none) →
      st'.pendingFailures ≠ [] →
      awaitLoop rid gidx taskIds maxRetries store expected nowIso (f + 1) (p :: ps) st =
        (recordRequestFailure "group failures" nowIso st', some .groupFailed)) ∧
    (((awaitGroupCompletion "req" 0 ["1"] 2 c7store "now"
        [⟨1, c7failMsg⟩, ⟨2, c7okMsg⟩] {}).2 = none) ∧
     ((awaitGroupCompletion "req" 0 ["1"] 2 c7store "now"
        [⟨1, c7failMsg⟩, ⟨2, c7okMsg⟩] {}).1.results.map Prod.fst = ["1"]) ∧
     ((awaitGroupCompletion "req" 0 ["1"] 2 c7store "now"
        [⟨1, c7failMsg⟩, ⟨2, c7okMsg⟩] {}).1.invocations.map Msg.attempt =
          [some "2"])) := by
  refine ⟨?_, ?_, ?_, by decide, by decide, by decide⟩
  · intro t a h hg ht hk hs ha hlt
    have hm : t ∈ taskIds := by simpa using hk
    simp [processEntry, bne_iff_ne, h, hg, ht, hm, hs, ha, hlt]
  · intro t a h hg ht hk hs ha hge
    have hm : t ∈ taskIds := by simpa using hk
    simp [processEntry, bne_iff_ne, h, hg, ht, hm, hs, ha, hge]
  · intro expected nowIso f p ps st' hlt hbatch hpf
    rw [awaitLoop, if_neg (not_le.mpr hlt)]
    show (match processBatch rid gidx taskIds maxRetries store ((p :: ps).take expected) st with
        | (st', some err) => (st', some err)
        | (st', none) =>
          if st'.pendingFailures.isEmpty then
            awaitLoop rid gidx taskIds maxRetries store expected nowIso f
              ((p :: ps).drop expected) st'
          else
            (recordRequestFailure "group failures" nowIso st', some .groupFailed)) = _
    rw [hbatch]
    simp [List.isEmpty_iff, hpf]

/-- C7, witness: the retry branch and the fatal branch applied to concrete
failed messages, plus the closed scenario conjuncts. -/
theorem c7_theorem_witness :
    (processEntry "req" 0 ["1"] 2 c7store {} ⟨1, c7failMsg⟩ =
      ({ invocations := [{ c7failMsg with attempt := some "2" }], acks := [1] }, none)) ∧
    (processEntry "req" 0 ["1"] 1 c7store {} ⟨1, c7failMsg⟩ =
      ({ pendingFailures := [c7failMsg],
         writes := [.groupHash 0 "failed" "1"], acks := [1] }, none)) :=
  ⟨( c7_theorem "req" 0 ["1"] 2 c7store {} ⟨1, c7failMsg⟩).1 "1" 1 (by decide) (by decide)
      (by decide) (by decide) (by decide) (by decide) (by decide),
   ( c7_theorem "req" 0 ["1"] 1 c7store {} ⟨1, c7failMsg⟩).2.1 "1" 1 (by decide) (by decide)
      (by decide) (by decide) (by decide) (by decide) (by decide)⟩

/-! # Claim C8 — group deadline: TimeoutError and status=failed -/

/-- A stream entry the collector filters out without counting: another
request's, another (parseable) group's, or an unknown/missing task id. -/
def noiseEntry (rid : String) (gidx : Int) (taskIds : List String) (e : Entry) : Prop :=
  e.msg.requestId ≠ some rid ∨
  (∃ g, pyInt (e.msg.groupIdx.getD "-1") = some g ∧ g ≠ gidx) ∨
  (pyInt (e.msg.groupIdx.getD "-1") = some gidx ∧
    ∀ t, e.msg.taskId = some t → taskIds.contains t = false)

theorem processEntry_noise (rid : String) (gidx : Int) (taskIds : List String)
    (maxRetries : Int) (store : ResultStore) (st : CState) (e : Entry)
    (h : noiseEntry rid gidx taskIds e) :
    (processEntry rid gidx taskIds maxRetries store st e).2 = none ∧
    (processEntry rid gidx taskIds maxRetries store st e).1.completed = st.completed ∧
    (processEntry rid gidx taskIds maxRetries store st e).1.pendingFailures =
      st.pendingFailures ∧
    (processEntry rid gidx taskIds maxRetries store st e).1.results = st.results := by
  by_cases hr : e.msg.requestId = some rid
  · rcases h with h1 | ⟨g, hg, hne⟩ | ⟨hg, hunk⟩
    · exact absurd hr h1
    · simp [processEntry, bne_iff_ne, hr, hg, hne]
    · cases ht : e.msg.taskId with
      | none => simp [processEntry, bne_iff_ne, hr, hg, ht]
      | some t =>
        have hni : t ∉ taskIds := by simpa using hunk t ht
        simp [processEntry, bne_iff_ne, hr, hg, ht, hni]
  · simp [processEntry, bne_iff_ne, hr]

theorem processBatch_noise (rid : String) (gidx : Int) (taskIds : List String)
    (maxRetries : Int) (store : ResultStore) :
    ∀ (batch : List Entry) (st : CState),
    (∀ e ∈ batch, noiseEntry rid gidx taskIds e) →
    (processBatch rid gidx taskIds maxRetries store batch st).2 = none ∧
    (processBatch rid gidx taskIds maxRetries store batch st).1.completed = st.completed ∧
    (processBatch rid gidx taskIds maxRetries store batch st).1.pendingFailures =
      st.pendingFailures ∧
    (processBatch rid gidx taskIds maxRetries store batch st).1.results = st.results := by
  intro batch
  induction batch with
  | nil => intro st _; simp [processBatch]
  | cons e es ih =>
    intro st hno
    have he := processEntry_noise rid gidx taskIds maxRetries store st e
      (hno e (List.mem_cons_self e es))
    have heq : processEntry rid gidx taskIds maxRetries store st e =
        ((processEntry rid gidx taskIds maxRetries store st e).1, none) := by
      rw [← he.1]
    rw [processBatch, heq]
    have hrest := ih ((processEntry rid gidx taskIds maxRetries store st e).1)
      (fun e' he' => hno e' (List.mem_cons_of_mem e he'))
    exact ⟨hrest.1, by rw [hrest.2.1, he.2.1], by rw [hrest.2.2.1, he.2.2.1],
      by rw [hrest.2.2.2, he.2.2.2]⟩

theorem awaitLoop_noise (rid : String) (gidx : Int) (taskIds : List String)
    (maxRetries : Int) (store : ResultStore) (expected : Nat) (nowIso : String) :
    ∀ (fuel : Nat) (pending : List Entry) (st : CState),
    (∀ e ∈ pending, noiseEntry rid gidx taskIds e) →
    st.completed < expected →
    st.pendingFailures = [] →
    (awaitLoop rid gidx taskIds maxRetries store expected nowIso fuel pending st).2 =
      some .timeoutErr := by
  intro fuel
  induction fuel with
  | zero =>
    intro pending st _ hc _
    rw [awaitLoop.eq_def, if_neg (not_le.mpr hc)]
    cases pending <;> rfl
  | succ f ih =>
    intro pending st hno hc hp
    rw [awaitLoop.eq_def, if_neg (not_le.mpr hc)]
    cases pending with
    | nil => rfl
    | cons p ps =>
      have hb := processBatch_noise rid gidx taskIds maxRetries store
        ((p :: ps).take expected) st
        (fun e he => hno e (List.take_subset expected (p :: ps) he))
      have heq : processBatch rid gidx taskIds maxRetries store ((p :: ps).take expected) st =
          ((processBatch rid gidx taskIds maxRetries store ((p :: ps).take expected) st).1,
            none) := by
        rw [← hb.1]
      show (match processBatch rid gidx taskIds maxRetries store ((p :: ps).take expected) st with
          | (st', some err) => (st', some err)
          | (st', none) =>
            if st'.pendingFailures.isEmpty then
              awaitLoop rid gidx taskIds maxRetries store expected nowIso f
                ((p :: ps).drop expected) st'
            else
              (recordRequestFailure "group failures" nowIso st', some .groupFailed)).2 =
        some .timeoutErr
      rw [heq]
      have hempty :
          (processBatch rid gidx taskIds maxRetries store
            ((p :: ps).take expected) st).1.pendingFailures.isEmpty = true := by
        rw [hb.2.2.1, hp]; rfl
      simp only [hempty, if_true]
      exact ih ((p :: ps).drop expected)
        (processBatch rid gidx taskIds maxRetries store ((p :: ps).take expected) st).1
        (fun e he => hno e (List.drop_subset expected (p :: ps) he))
        (by rw [hb.2.1]; exact hc) (by rw [hb.2.2.1]; exact hp)

theorem lastStatusWrite_record (d nowIso : String) (st : CState) :
    lastStatusWrite (recordRequestFailure d nowIso st).writes = some "failed" := by
  simp [lastStatusWrite, recordRequestFailure, List.filterMap_append]

/-- C8.  If the per-group deadline elapses before all expected `completed`
events are consumed — in particular when only filtered-out noise (or
nothing) ever arrives for a group with at least one dispatched task — the
run fails with `TimeoutError` and the last `status` written to the
`request:{id}` hash is `failed`. -/
theorem c8_theorem (rid nowIso : String) (maxRetries : Int) (store : ResultStore)
    (gidx : Int) (taskIds : List String) (entries : List Entry)
    (gs : List (Int × List String × List Entry)) (st : CState)
    (hne : taskIds ≠ [])
    (hc : st.completed = 0)
    (hp : st.pendingFailures = [])
    (hnoise : ∀ e ∈ entries, noiseEntry rid gidx taskIds e) :
    (runGroups rid maxRetries store nowIso ((gidx, taskIds, entries) :: gs) st).2 =
      some .timeoutErr ∧
    lastStatusWrite
      (runGroups rid maxRetries store nowIso ((gidx, taskIds, entries) :: gs) st).1.writes =
      some "failed" := by
  have hexp : 0 < taskIds.length := List.length_pos.mpr hne
  have hav := awaitLoop_noise rid gidx taskIds maxRetries store taskIds.length nowIso
    entries.length entries
    { st with writes := st.writes ++
        [.requestHash "currentGroup" (toString gidx),
         .requestHash "status" "running",
         .lifecycle "group_started",
         .groupHash gidx "expected" (toString taskIds.length),
         .groupHash gidx "completed" "0",
         .groupHash gidx "failed" "0",
         .groupHash gidx "status" "running"] }
    hnoise (by simpa [hc] using hexp) (by simpa using hp)
  rw [runGroups, runGroup]
  unfold awaitGroupCompletion at hav
  set stIn : CState := { st with writes := st.writes ++
      [.requestHash "currentGroup" (toString gidx),
       .requestHash "status" "running",
       .lifecycle "group_started",
       .groupHash gidx "expected" (toString taskIds.length),
       .groupHash gidx "completed" "0",
       .groupHash gidx "failed" "0",
       .groupHash gidx "status" "running"] } with hstIn
  have heq : awaitGroupCompletion rid gidx taskIds maxRetries store nowIso entries stIn =
      ((awaitGroupCompletion rid gidx taskIds maxRetries store nowIso entries stIn).1,
        some .timeoutErr) := by
    unfold awaitGroupCompletion
    rw [← hav]
  rw [heq]
  exact ⟨rfl, lastStatusWrite_record _ _ _⟩

/-- C8, witness: a one-task group with an empty updates stream. -/
theorem c8_theorem_witness :
    ((runGroups "req" 3 (fun _ => none) "now" [(0, ["1"], [])] {}).2 =
      some .timeoutErr) ∧
    (lastStatusWrite (runGroups "req" 3 (fun _ => none) "now" [(0, ["1"], [])] {}).1.writes =
      some "failed") :=
  c8_theorem "req" "now" 3 (fun _ => none) 0 ["1"] [] [] {}
    (by decide) (by decide) (by decide)
    (fun e he => absurd he (List.not_mem_nil e))

/-! # Claim C3 — at-most-one completed result per task -/

/-- A stream entry the collector counts as a completed result for task `t`. -/
def completedForTask (rid : String) (gidx : Int) (t : String) (e : Entry) : Bool :=
  e.msg.requestId == some rid &&
  pyInt (e.msg.groupIdx.getD "-1") == some gidx &&
  e.msg.status == some "completed" &&
  e.msg.taskId == some t

theorem processEntry_results (rid : String) (gidx : Int) (taskIds : List String)
    (maxRetries : Int) (store : ResultStore) (st : CState) (e : Entry) :
    (processEntry rid gidx taskIds maxRetries store st e).1.results = st.results ∨
    (∃ el t0, (processEntry rid gidx taskIds maxRetries store st e).1.results =
        st.results ++ [(t0, el)] ∧ completedForTask rid gidx t0 e = true) := by
  by_cases hr : e.msg.requestId = some rid
  · cases hpi : pyInt (e.msg.groupIdx.getD "-1") with
    | none => left; simp [processEntry, bne_iff_ne, hr, hpi]
    | some g =>
      by_cases hgg : g = gidx
      · subst hgg
        cases ht : e.msg.taskId with
        | none => left; simp [processEntry, bne_iff_ne, hr, hpi, ht]
        | some t =>
          by_cases hmem : t ∈ taskIds
          · by_cases hst : e.msg.status = some "completed"
            · cases hrk : e.msg.resultKey with
              | none => left; simp [processEntry, bne_iff_ne, hr, hpi, ht, hmem, hst, hrk]
              | some key =>
                cases hsk : store key with
                | none =>
                  left; simp [processEntry, bne_iff_ne, hr, hpi, ht, hmem, hst, hrk, hsk]
                | some doc =>
                  cases hfr : findRel doc ["project", "group", "valuation"] with
                  | none =>
                    left
                    simp [processEntry, bne_iff_ne, hr, hpi, ht, hmem, hst, hrk, hsk, hfr]
                  | some v =>
                    right
                    refine ⟨(deepcopy st.counter v).1, t, ?_, ?_⟩
                    · simp [processEntry, bne_iff_ne, hr, hpi, ht, hmem, hst, hrk, hsk, hfr]
                    · simp [completedForTask, hr, hpi, hst, ht]
            · by_cases hsf : e.msg.status = some "failed"
              · cases hpa : pyInt (e.msg.attempt.getD (e.msg.attempts.getD "1")) with
                | none =>
                  left
                  simp [processEntry, bne_iff_ne, hr, hpi, ht, hmem, hst, hsf, hpa]
                | some a =>
                  by_cases hlt : a < maxRetries
                  · left
                    simp [processEntry, bne_iff_ne, hr, hpi, ht, hmem, hst, hsf, hpa, hlt]
                  · left
                    simp [processEntry, bne_iff_ne, hr, hpi, ht, hmem, hst, hsf, hpa, hlt]
              · left; simp [processEntry, bne_iff_ne, hr, hpi, ht, hmem, hst, hsf]
          · left; simp [processEntry, bne_iff_ne, hr, hpi, ht, hmem]
      · left; simp [processEntry, bne_iff_ne, hr, hpi, hgg]
  · left; simp [processEntry, bne_iff_ne, hr]

theorem processEntry_count (rid : String) (gidx : Int) (taskIds : List String)
    (maxRetries : Int) (store : ResultStore) (st : CState) (e : Entry) (t : String) :
    ((processEntry rid gidx taskIds maxRetries store st e).1.results.map Prod.fst).count t ≤
      (st.results.map Prod.fst).count t +
        (if completedForTask rid gidx t e then 1 else 0) := by
  rcases processEntry_results rid gidx taskIds maxRetries store st e with h | ⟨el, t0, heq, hcf⟩
  · rw [h]; split <;> omega
  · rw [heq]
    simp only [List.map_append, List.count_append, List.map_cons, List.map_nil]
    by_cases hteq : t = t0
    · subst hteq
      rw [if_pos hcf]
      simp [List.count_singleton]
    · have : ([t0].count t) = 0 := by
        simp [List.count_singleton, hteq]
      rw [this]
      split <;> omega

theorem processBatch_count (rid : String) (gidx : Int) (taskIds : List String)
    (maxRetries : Int) (store : ResultStore) (t : String) :
    ∀ (batch : List Entry) (st : CState),
    ((processBatch rid gidx taskIds maxRetries store batch st).1.results.map Prod.fst).count t ≤
      (st.results.map Prod.fst).count t +
        batch.countP (completedForTask rid gidx t) := by
  intro batch
  induction batch with
  | nil => intro st; simp [processBatch]
  | cons e es ih =>
    intro st
    have he := processEntry_count rid gidx taskIds maxRetries store st e t
    rw [List.countP_cons]
    cases hpe : processEntry rid gidx taskIds maxRetries store st e with
    | mk st' oerr =>
      rw [hpe] at he
      cases oerr with
      | some err =>
        have hproj : ((st', some err).1 : CState) = st' := rfl
        rw [hproj] at he
        simp only [processBatch, hpe]
        omega
      | none =>
        have hproj : ((st', (none : Option OErr)).1 : CState) = st' := rfl
        rw [hproj] at he
        simp only [processBatch, hpe]
        have := ih st'
        omega

theorem awaitLoop_count (rid : String) (gidx : Int) (taskIds : List String)
    (maxRetries : Int) (store : ResultStore) (expected : Nat) (nowIso : String) (t : String) :
    ∀ (fuel : Nat) (pending : List Entry) (st : CState),
    ((awaitLoop rid gidx taskIds maxRetries store expected nowIso fuel
        pending st).1.results.map Prod.fst).count t ≤
      (st.results.map Prod.fst).count t +
        pending.countP (completedForTask rid gidx t) := by
  intro fuel
  induction fuel with
  | zero =>
    intro pending st
    rw [awaitLoop.eq_def]
    by_cases hc : st.completed ≥ expected
    · rw [if_pos hc]; simp
    · rw [if_neg hc]
      cases pending <;> simp
  | succ f ih =>
    intro pending st
    rw [awaitLoop.eq_def]
    by_cases hc : st.completed ≥ expected
    · rw [if_pos hc]; simp
    · rw [if_neg hc]
      cases pending with
      | nil => simp
      | cons p ps =>
        have hsplit : (p :: ps).countP (completedForTask rid gidx t) =
            ((p :: ps).take expected).countP (completedForTask rid gidx t) +
            ((p :: ps).drop expected).countP (completedForTask rid gidx t) := by
          conv_lhs => rw [← List.take_append_drop expected (p :: ps)]
          rw [List.countP_append]
        have hb := processBatch_count rid gidx taskIds maxRetries store t
          ((p :: ps).take expected) st
        cases hpb : processBatch rid gidx taskIds maxRetries store
            ((p :: ps).take expected) st with
        | mk st' oerr =>
          rw [hpb] at hb
          cases oerr with
          | some err =>
            have hproj : ((st', some err).1 : CState) = st' := rfl
            rw [hproj] at hb
            simp only [hpb]
            omega
          | none =>
            have hproj : ((st', (none : Option OErr)).1 : CState) = st' := rfl
            rw [hproj] at hb
            simp only [hpb]
            by_cases hpf : st'.pendingFailures.isEmpty
            · rw [if_pos hpf]
              have := ih ((p :: ps).drop expected) st'
              omega
            · rw [if_neg hpf]
              simp only [recordRequestFailure]
              omega

/-- C3, counterexample.  The collector has no per-task dedup: two `completed`
deliveries for the same `(requestId, groupIndex, taskId)` triple — here task
"1" of a two-task group — are both consumed, both counted, and both results
are appended, so the run "completes" with task 1's valuation twice and task
2's never. -/
theorem c3_counterexample :
    ((awaitGroupCompletion "req" 0 ["1", "2"] 3 c7store "now"
        [⟨1, { requestId := some "req", groupIdx := some "0", status := some "completed",
               taskId := some "1", resultKey := some "rk1" }⟩,
         ⟨2, { requestId := some "req", groupIdx := some "0", status := some "completed",
               taskId := some "1", resultKey := some "rk1" }⟩] {}).2 = none) ∧
    (((awaitGroupCompletion "req" 0 ["1", "2"] 3 c7store "now"
        [⟨1, { requestId := some "req", groupIdx := some "0", status := some "completed",
               taskId := some "1", resultKey := some "rk1" }⟩,
         ⟨2, { requestId := some "req", groupIdx := some "0", status := some "completed",
               taskId := some "1", resultKey := some "rk1" }⟩] {}).1.results.map
        Prod.fst).count "1" = 2) := by
  exact ⟨by decide, by decide⟩

/-- C3, amended.  A `(requestId, groupIndex, taskId)` triple contributes at
most one completed result to the assembled group element PROVIDED the
updates stream delivers at most one countable `completed` entry for that
triple; the collector itself performs no deduplication, so duplicate
deliveries or double completions are counted and appended twice. -/
theorem c3_theorem (rid : String) (gidx : Int) (taskIds : List String)
    (maxRetries : Int) (store : ResultStore) (nowIso : String)
    (entries : List Entry) (st : CState)
    (hinit : st.results = [])
    (hdup : ∀ t, entries.countP (completedForTask rid gidx t) ≤ 1) :
    ∀ t, (((awaitGroupCompletion rid gidx taskIds maxRetries store nowIso entries
        st).1.results.map Prod.fst).count t) ≤ 1 := by
  intro t
  have h := awaitLoop_count rid gidx taskIds maxRetries store taskIds.length nowIso t
    entries.length entries st
  rw [hinit] at h
  simp only [List.map_nil, List.count_nil, Nat.zero_add] at h
  exact le_trans h (hdup t)

/-- C3, witness: a clean two-task run, one completed entry per task. -/
theorem c3_theorem_witness :
    (({} : CState).results = []) ∧
    (∀ t, ([⟨1, { requestId := some "req", groupIdx := some "0",
                  status := some "completed", taskId := some "1",
                  resultKey := some "rk1" }⟩] : List Entry).countP
        (completedForTask "req" 0 t) ≤ 1) ∧
    (∀ t, (((awaitGroupCompletion "req" 0 ["1"] 3 c7store "now"
        [⟨1, { requestId := some "req", groupIdx := some "0",
               status := some "completed", taskId := some "1",
               resultKey := some "rk1" }⟩] {}).1.results.map Prod.fst).count t) ≤ 1) :=
  ⟨rfl,
   fun t => by
     simp only [List.countP_cons, List.countP_nil]
     split <;> omega,
   c3_theorem "req" 0 ["1"] 3 c7store "now"
     [⟨1, { requestId := some "req", groupIdx := some "0",
            status := some "completed", taskId := some "1",
            resultKey := some "rk1" }⟩] {} rfl
     (fun t => by
       simp only [List.countP_cons, List.countP_nil]
       split <;> omega)⟩


/-! ## Claim C1: post-hydration cleanliness of the default pipeline -/

/-- Document root for the C1 scenario. -/
def c1root : Elem := Elem.mk 0 "r" [] [] none none [Elem.mk 1 "x" [] [] none none []]

/-- C1 input: a `$\x7bselect(...)\x7d` placeholder attribute on one child, a
`use` attribute on another child (below the item root, so the use strategy
never inspects it), and a `select` attribute beneath that use-carrying
child (so the select strategy skips it). -/
def c1elem : Elem :=
  Elem.mk 10 "a" [] [] none none
    [Elem.mk 11 "b" [("attr", placeholderPre ++ "/r/x" ++ placeholderSuf)] [] none none [],
     Elem.mk 12 "d" [("use", "vn:link(/r/x, .)")] [] none none
       [Elem.mk 13 "e" [("select", "/r/x")] [] none none []]]

/-- C1, counterexample.  Hydrating `c1elem` through the default pipeline
SUCCEEDS, yet the returned item still has a descendant with `use`, a
descendant with `select`, and a descendant attribute value of the form
`$\x7bselect(...)\x7d`: no strategy of this service removes a `use` below
the item root, a `select` under a use-carrying ancestor, or attribute
placeholders (no AttributeSelect strategy exists). -/
theorem c1_counterexample :
    ((hydrateElement (fun _ => none) 5 defaultStrategies c1elem c1root none 100).toOption.map
        (fun p => p.1.all (fun it => (descWithAttr "use" it.element).isEmpty)) = some false) ∧
    ((hydrateElement (fun _ => none) 5 defaultStrategies c1elem c1root none 100).toOption.map
        (fun p => p.1.all (fun it => (descWithAttr "select" it.element).isEmpty)) = some false) ∧
    ((hydrateElement (fun _ => none) 5 defaultStrategies c1elem c1root none 100).toOption.map
        (fun p => p.1.all (fun it =>
          (descWhere (fun d => d.attrs.any (fun q =>
            strStarts q.2 placeholderPre && strEnds q.2 placeholderSuf)) it.element).isEmpty))
      = some false) := by
  refine ⟨by decide, by decide, by decide⟩

/-- A successful `_hydrate_href_nodes` run leaves no descendant `href`: the
loop only returns when the `.//*[@href]` snapshot is empty. -/
theorem hydrateHrefNodes_ok (fetch : Fetcher) :
    ∀ (fuel : Nat) (tree : Elem) (c : Nat) (r : Elem) (c' : Nat),
      hydrateHrefNodes fetch fuel tree c = .ok (r, c') → descWithAttr "href" r = [] := by
  intro fuel
  induction fuel with
  | zero =>
    intro tree c r c' h
    exact absurd h (by simp [hydrateHrefNodes])
  | succ f ih =>
    intro tree c r c' h
    rw [hydrateHrefNodes] at h
    cases hsnap : (descWithAttr "href" tree).map Elem.eid with
    | nil =>
      rw [hsnap] at h
      simp only [] at h
      injection h with h1
      injection h1 with h2 h3
      rw [← h2]
      exact List.map_eq_nil_iff.mp hsnap
    | cons i is =>
      rw [hsnap] at h
      simp only [] at h
      cases hsn : hydrateSnapshot fetch (i :: is) tree c with
      | error e => rw [hsn] at h; exact absurd h (by simp)
      | ok p =>
        obtain ⟨tree', c2⟩ := p
        rw [hsn] at h
        exact ih tree' c2 r c' h

/-- A successful `HrefHydrationStrategy.apply` leaves every item's element
free of descendant `href` attributes. -/
theorem hrefApply_ok (fetch : Fetcher) (fuel : Nat) :
    ∀ (items : List HydrationItem) (c : Nat) (its' : List HydrationItem) (c' : Nat),
      hrefApply fetch fuel items c = .ok (its', c') →
      ∀ it ∈ its', descWithAttr "href" it.element = [] := by
  intro items
  induction items with
  | nil =>
    intro c its' c' h it hit
    simp only [hrefApply] at h
    injection h with h1
    injection h1 with h2 h3
    rw [← h2] at hit
    exact absurd hit (by simp)
  | cons a as ih =>
    intro c its' c' h it hit
    simp only [hrefApply] at h
    cases hhn : hydrateHrefNodes fetch fuel a.element c with
    | error e => simp only [hhn] at h; exact absurd h (by simp)
    | ok p =>
      obtain ⟨e', c2⟩ := p
      simp only [hhn] at h
      cases hrec : hrefApply fetch fuel as c2 with
      | error e => simp only [hrec] at h; exact absurd h (by simp)
      | ok q =>
        obtain ⟨its2, c3⟩ := q
        simp only [hrec] at h
        injection h with h1
        injection h1 with h2 h3
        rw [← h2] at hit
        rcases List.mem_cons.mp hit with hhead | htail
        · rw [hhead]
          exact hydrateHrefNodes_ok fetch fuel a.element c e' c2 hhn
        · exact ih c2 its2 c3 hrec it htail

/-- C1, amended.  The part of the claim that holds: the default pipeline
ends with an Href pass, so when `hydrate_element` (with its default
strategies) succeeds, no returned item has a descendant carrying `href`.
The `use`/`select`/placeholder parts are refuted by the counterexample. -/
theorem c1_theorem (fetch : Fetcher) (fuel : Nat) (e root : Elem) (ctx : Option Elem)
    (c : Nat) (items : List HydrationItem) (c' : Nat)
    (h : hydrateElement fetch fuel defaultStrategies e root ctx c = .ok (items, c')) :
    ∀ it ∈ items, descWithAttr "href" it.element = [] := by
  simp only [hydrateElement, defaultStrategies] at h
  simp only [applyStrategies, applyOStrat] at h
  cases h1 : hrefApply fetch fuel [{ element := (deepcopy c e).1, contextNode := ctx }]
      (deepcopy c e).2 with
  | error er => simp only [h1] at h; exact absurd h (by simp)
  | ok p1 =>
    obtain ⟨i1, c1⟩ := p1
    simp only [h1] at h
    cases h2 : useApply root fuel i1 c1 with
    | error er => simp only [h2] at h; exact absurd h (by simp)
    | ok p2 =>
      obtain ⟨i2, c2⟩ := p2
      simp only [h2] at h
      cases h3 : selectApply root i2 c2 with
      | error er => simp only [h3] at h; exact absurd h (by simp)
      | ok p3 =>
        obtain ⟨i3, c3⟩ := p3
        simp only [h3] at h
        cases h4 : hrefApply fetch fuel i3 c3 with
        | error er => simp only [h4] at h; exact absurd h (by simp)
        | ok p4 =>
          obtain ⟨i4, c4⟩ := p4
          simp only [h4] at h
          injection h with h5
          injection h5 with h6 h7
          rw [← h6]
          exact hrefApply_ok fetch fuel i3 c3 i4 c4 h4

/-- C1, witness: a childless element hydrates to a single clean item. -/
theorem c1_theorem_witness :
    (hydrateElement (fun _ => none) 2 defaultStrategies (Elem.mk 0 "a" [] [] none none [])
        (Elem.mk 1 "r" [] [] none none []) none 5 =
      .ok ([{ element := Elem.mk 5 "a" [] [] none none [], contextNode := none }], 6)) ∧
    (∀ it ∈ [(⟨Elem.mk 5 "a" [] [] none none [], none⟩ : HydrationItem)],
      descWithAttr "href" it.element = []) :=
  ⟨rfl, c1_theorem (fun _ => none) 2 (Elem.mk 0 "a" [] [] none none [])
    (Elem.mk 1 "r" [] [] none none []) none 5 _ 6 rfl⟩

/-! ## Claim C9: identity freshness of hydrated output -/

theorem elemIds_withAttrs (e : Elem) (a : List (String × String)) :
    elemIds (e.withAttrs a) = elemIds e := by
  cases e; rfl

theorem elemIds_withTail (e : Elem) (t : Option String) :
    elemIds (e.withTail t) = elemIds e := by
  cases e; rfl

theorem elemIds_popAttr (e : Elem) (k : String) :
    elemIds (popAttr e k) = elemIds e := by
  cases e; rfl

theorem nodeCount_pos (e : Elem) : 1 ≤ nodeCount e := by
  cases e; simp [nodeCount]

theorem elemIdsList_append (xs ys : List Elem) :
    elemIdsList (xs ++ ys) = elemIdsList xs ++ elemIdsList ys := by
  induction xs with
  | nil => simp [elemIdsList]
  | cons x xs ih => simp [elemIdsList, ih]

/-- Fresh identities: everything `deepcopy` builds is at or above the
counter, and the counter never decreases. -/
theorem deepcopy_ge_main : ∀ (n : Nat),
    (∀ (e : Elem), nodeCount e ≤ n → ∀ (c : Nat), c ≤ (deepcopy c e).2 ∧
      ∀ i ∈ elemIds (deepcopy c e).1, c ≤ i) ∧
    (∀ (es : List Elem), nodeCountList es ≤ n → ∀ (c : Nat),
      c ≤ (deepcopyList c es).2 ∧
      ∀ i ∈ elemIdsList (deepcopyList c es).1, c ≤ i) := by
  intro n
  induction n with
  | zero =>
    constructor
    · intro e hle
      have := nodeCount_pos e
      omega
    · intro es hle c
      cases es with
      | nil => simp [deepcopyList, elemIdsList]
      | cons e es =>
        have := nodeCount_pos e
        simp [nodeCountList] at hle
        omega
  | succ n ih =>
    have helem : ∀ (e : Elem), nodeCount e ≤ n + 1 → ∀ (c : Nat),
        c ≤ (deepcopy c e).2 ∧ ∀ i ∈ elemIds (deepcopy c e).1, c ≤ i := by
      intro e hle c
      cases e with
      | mk j t a nm tx tl ch =>
        have hch : nodeCountList ch ≤ n := by
          simp [nodeCount] at hle; omega
        obtain ⟨hmono, hids⟩ := ih.2 ch hch (c + 1)
        rcases hdc : deepcopyList (c + 1) ch with ⟨chs, c2⟩
        rw [hdc] at hmono hids
        simp only [deepcopy, hdc, elemIds]
        refine ⟨by omega, ?_⟩
        intro i hi
        rcases List.mem_cons.mp hi with h | h
        · omega
        · have := hids i h; omega
    refine ⟨helem, ?_⟩
    intro es hle c
    cases es with
    | nil => simp [deepcopyList, elemIdsList]
    | cons e es =>
      have h1 : nodeCount e ≤ n + 1 := by
        have := nodeCount_pos e
        simp [nodeCountList] at hle
        omega
      have h2 : nodeCountList es ≤ n := by
        have := nodeCount_pos e
        simp [nodeCountList] at hle
        omega
      obtain ⟨hm1, hi1⟩ := helem e h1 c
      rcases hdc : deepcopy c e with ⟨e', c1⟩
      rw [hdc] at hm1 hi1
      obtain ⟨hm2, hi2⟩ := ih.2 es h2 c1
      rcases hdl : deepcopyList c1 es with ⟨es', c2⟩
      rw [hdl] at hm2 hi2
      simp only [deepcopyList, hdc, hdl, elemIdsList]
      refine ⟨by omega, ?_⟩
      intro i hi
      rcases List.mem_append.mp hi with h | h
      · exact hi1 i h
      · have := hi2 i h; omega

theorem deepcopy_ge (e : Elem) (c : Nat) : c ≤ (deepcopy c e).2 ∧
    ∀ i ∈ elemIds (deepcopy c e).1, c ≤ i :=
  (deepcopy_ge_main (nodeCount e)).1 e (Nat.le_refl _) c

/-- Identities after `replaceById` come from the original tree or from the
inserted subtree. -/
theorem replaceById_mem_main : ∀ (n : Nat),
    (∀ (t : Elem), nodeCount t ≤ n → ∀ (i : Nat) (new : Elem) (j : Nat),
      j ∈ elemIds (replaceById i new t) → j ∈ elemIds t ∨ j ∈ elemIds new) ∧
    (∀ (ts : List Elem), nodeCountList ts ≤ n → ∀ (i : Nat) (new : Elem) (j : Nat),
      j ∈ elemIdsList (replaceByIdList i new ts) →
        j ∈ elemIdsList ts ∨ j ∈ elemIds new) := by
  intro n
  induction n with
  | zero =>
    constructor
    · intro t hle
      have := nodeCount_pos t
      omega
    · intro ts hle i new j hj
      cases ts with
      | nil => simp [replaceByIdList, elemIdsList] at hj
      | cons e es =>
        have := nodeCount_pos e
        simp [nodeCountList] at hle
        omega
  | succ n ih =>
    have helem : ∀ (t : Elem), nodeCount t ≤ n + 1 → ∀ (i : Nat) (new : Elem) (j : Nat),
        j ∈ elemIds (replaceById i new t) → j ∈ elemIds t ∨ j ∈ elemIds new := by
      intro t hle i new j hj
      cases t with
      | mk k tg a nm tx tl ch =>
        have hch : nodeCountList ch ≤ n := by
          simp [nodeCount] at hle; omega
        simp only [replaceById] at hj
        by_cases hk : (k == i) = true
        · rw [if_pos hk] at hj
          exact Or.inr hj
        · rw [if_neg hk] at hj
          simp only [elemIds] at hj ⊢
          rcases List.mem_cons.mp hj with h | h
          · exact Or.inl (List.mem_cons.mpr (Or.inl h))
          · rcases ih.2 ch hch i new j h with h' | h'
            · exact Or.inl (List.mem_cons.mpr (Or.inr h'))
            · exact Or.inr h'
    refine ⟨helem, ?_⟩
    intro ts hle i new j hj
    cases ts with
    | nil => simp [replaceByIdList, elemIdsList] at hj
    | cons e es =>
      have h1 : nodeCount e ≤ n + 1 := by
        have := nodeCount_pos e
        simp [nodeCountList] at hle
        omega
      have h2 : nodeCountList es ≤ n := by
        have := nodeCount_pos e
        simp [nodeCountList] at hle
        omega
      simp only [replaceByIdList] at hj
      by_cases hf : (findById i e).isSome
      · rw [if_pos hf] at hj
        simp only [elemIdsList] at hj ⊢
        rcases List.mem_append.mp hj with h | h
        · rcases helem e h1 i new j h with h' | h'
          · exact Or.inl (List.mem_append.mpr (Or.inl h'))
          · exact Or.inr h'
        · exact Or.inl (List.mem_append.mpr (Or.inr h))
      · rw [if_neg hf] at hj
        simp only [elemIdsList] at hj ⊢
        rcases List.mem_append.mp hj with h | h
        · exact Or.inl (List.mem_append.mpr (Or.inl h))
        · rcases ih.2 es h2 i new j h with h' | h'
          · exact Or.inl (List.mem_append.mpr (Or.inr h'))
          · exact Or.inr h'

theorem replaceById_mem (t : Elem) (i : Nat) (new : Elem) (j : Nat)
    (hj : j ∈ elemIds (replaceById i new t)) : j ∈ elemIds t ∨ j ∈ elemIds new :=
  (replaceById_mem_main (nodeCount t)).1 t (Nat.le_refl _) i new j hj

/-- `mergeExtras` allocates only at or above the counter. -/
theorem mergeExtras_ge : ∀ (l : List (Nat × Elem)) (c : Nat) (ks : List ChildKey)
    (sigs : List ChildSig), c ≤ (mergeExtras c ks sigs l).2 ∧
    ∀ i ∈ elemIdsList (mergeExtras c ks sigs l).1, c ≤ i := by
  intro l
  induction l with
  | nil => intro c ks sigs; simp [mergeExtras, elemIdsList]
  | cons p rest ih =>
    intro c ks sigs
    obtain ⟨idx, rc⟩ := p
    simp only [mergeExtras]
    by_cases h1 : childKey rc idx ∈ ks
    · rw [if_pos h1]
      exact ih c ks sigs
    · rw [if_neg h1]
      by_cases h2 : childSig rc ∈ sigs
      · rw [if_pos h2]
        exact ih c ks sigs
      · rw [if_neg h2]
        obtain ⟨hm1, hi1⟩ := deepcopy_ge rc c
        rcases hdc : deepcopy c rc with ⟨cp, c1⟩
        rw [hdc] at hm1 hi1
        obtain ⟨hm2, hi2⟩ := ih c1 ks sigs
        rcases hme : mergeExtras c1 ks sigs rest with ⟨ms, c2⟩
        rw [hme] at hm2 hi2
        simp only [hdc, hme, elemIdsList]
        refine ⟨by omega, ?_⟩
        intro i hi
        rcases List.mem_append.mp hi with h | h
        · exact hi1 i h
        · have := hi2 i h; omega

/-- `_merge_nodes` allocates only at or above the counter. -/
theorem mergeNodesF_ge_main : ∀ (f : Nat),
    (∀ (c : Nat) (lo re : Elem), c ≤ (mergeNodesF f c lo re).2 ∧
      ∀ i ∈ elemIds (mergeNodesF f c lo re).1, c ≤ i) ∧
    (∀ (c : Nat) (rch : List Elem) (idx : Nat) (lcs : List Elem),
      c ≤ (mergeChildrenF f c rch idx lcs).2.2 ∧
      ∀ i ∈ elemIdsList (mergeChildrenF f c rch idx lcs).1, c ≤ i) := by
  intro f
  induction f with
  | zero =>
    constructor
    · intro c lo re
      simp [mergeNodesF, elemIds, elemIdsList]
    · intro c rch idx lcs
      simp [mergeChildrenF, elemIdsList]
  | succ f ih =>
    constructor
    · intro c lo re
      obtain ⟨hm1, hi1⟩ := ih.2 (c + 1) re.children 0 lo.children
      rcases hmc : mergeChildrenF f (c + 1) re.children 0 lo.children with ⟨mch, ks, c1⟩
      rw [hmc] at hm1 hi1
      replace hm1 : c + 1 ≤ c1 := hm1
      replace hi1 : ∀ i ∈ elemIdsList mch, c + 1 ≤ i := hi1
      obtain ⟨hm2, hi2⟩ := mergeExtras_ge re.children.enum c1 ks (lo.children.map childSig)
      rcases hme : mergeExtras c1 ks (lo.children.map childSig) re.children.enum
        with ⟨ext, c2⟩
      rw [hme] at hm2 hi2
      simp only [mergeNodesF, hmc, hme, elemIds, elemIdsList_append]
      refine ⟨by omega, ?_⟩
      intro i hi
      rcases List.mem_cons.mp hi with h | h
      · omega
      · rcases List.mem_append.mp h with h' | h'
        · have := hi1 i h'; omega
        · have := hi2 i h'; omega
    · intro c rch idx lcs
      cases lcs with
      | nil => simp [mergeChildrenF, elemIdsList]
      | cons lc rest =>
        simp only [mergeChildrenF]
        cases hlk : lookupChild rch (childKey lc idx) with
        | some rc =>
          obtain ⟨hm1, hi1⟩ := ih.1 c lc rc
          rcases hmn : mergeNodesF f c lc rc with ⟨m, c1⟩
          rw [hmn] at hm1 hi1
          obtain ⟨hm2, hi2⟩ := ih.2 c1 rch (idx + 1) rest
          rcases hmc : mergeChildrenF f c1 rch (idx + 1) rest with ⟨ms, ks, c2⟩
          rw [hmc] at hm2 hi2
          replace hm2 : c1 ≤ c2 := hm2
          replace hi2 : ∀ i ∈ elemIdsList ms, c1 ≤ i := hi2
          simp only [hmn, hmc, elemIdsList]
          refine ⟨by omega, ?_⟩
          intro i hi
          rcases List.mem_append.mp hi with h | h
          · exact hi1 i h
          · have := hi2 i h; omega
        | none =>
          obtain ⟨hm1, hi1⟩ := deepcopy_ge lc c
          rcases hdc : deepcopy c lc with ⟨cp, c1⟩
          rw [hdc] at hm1 hi1
          obtain ⟨hm2, hi2⟩ := ih.2 c1 rch (idx + 1) rest
          rcases hmc : mergeChildrenF f c1 rch (idx + 1) rest with ⟨ms, ks, c2⟩
          rw [hmc] at hm2 hi2
          replace hm2 : c1 ≤ c2 := hm2
          replace hi2 : ∀ i ∈ elemIdsList ms, c1 ≤ i := hi2
          simp only [hdc, hmc, elemIdsList]
          refine ⟨by omega, ?_⟩
          intro i hi
          rcases List.mem_append.mp hi with h | h
          · exact hi1 i h
          · have := hi2 i h; omega

theorem mergeNodes_ge (c : Nat) (lo re : Elem) : c ≤ (mergeNodes c lo re).2 ∧
    ∀ i ∈ elemIds (mergeNodes c lo re).1, c ≤ i :=
  (mergeNodesF_ge_main (4 * nodeCount lo + 4)).1 c lo re


/-- `_hydrate_single_node` keeps all identities at or above any bound the
tree and counter already satisfy. -/
theorem hydrateSingleNode_ge (c0 : Nat) (fetch : Fetcher) (tree : Elem)
    (nodeId : Nat) (c : Nat) (tree' : Elem) (c' : Nat)
    (htree : ∀ j ∈ elemIds tree, c0 ≤ j) (hc : c0 ≤ c)
    (h : hydrateSingleNode fetch tree nodeId c = .ok (tree', c')) :
    (∀ j ∈ elemIds tree', c0 ≤ j) ∧ c0 ≤ c' := by
  simp only [hydrateSingleNode] at h
  cases hfd : findById nodeId tree with
  | none =>
    simp only [hfd] at h
    injection h with h1
    injection h1 with h2 h3
    rw [← h2, ← h3]
    exact ⟨htree, hc⟩
  | some node =>
    simp only [hfd] at h
    cases hga : getAttr node "href" with
    | none =>
      simp only [hga] at h
      injection h with h1
      injection h1 with h2 h3
      rw [← h2, ← h3]
      exact ⟨htree, hc⟩
    | some hrefValue =>
      simp only [hga] at h
      by_cases hemp : (hrefValue == "") = true
      · simp only [hemp, if_true] at h
        exact absurd h (by simp)
      · simp only [hemp, Bool.false_eq_true, if_false] at h
        cases hpath : pathToId nodeId tree with
        | none =>
          simp only [hpath] at h
          injection h with h1
          injection h1 with h2 h3
          rw [← h2, ← h3]
          exact ⟨htree, hc⟩
        | some path =>
          simp only [hpath] at h
          cases hfe : fetch hrefValue with
          | none => simp only [hfe] at h; exact absurd h (by simp)
          | some remoteRoot =>
            simp only [hfe] at h
            cases hloc : locateRemoteNode node remoteRoot path with
            | error e => simp only [hloc] at h; exact absurd h (by simp)
            | ok remoteNode =>
              simp only [hloc] at h
              obtain ⟨hmono, hids⟩ := mergeNodes_ge c node remoteNode
              rcases hmn : mergeNodes c node remoteNode with ⟨merged, c2⟩
              rw [hmn] at hmono hids h
              simp only [] at h
              injection h with h1
              injection h1 with h2 h3
              rw [← h2, ← h3]
              constructor
              · intro j hj
                rcases replaceById_mem tree nodeId _ j hj with hin | hnew
                · exact htree j hin
                · rw [elemIds_withTail, elemIds_popAttr] at hnew
                  have := hids j hnew
                  omega
              · omega

/-- One href snapshot pass preserves the identity lower bound. -/
theorem hydrateSnapshot_ge (c0 : Nat) (fetch : Fetcher) :
    ∀ (ids : List Nat) (tree : Elem) (c : Nat) (tree' : Elem) (c' : Nat),
      (∀ j ∈ elemIds tree, c0 ≤ j) → c0 ≤ c →
      hydrateSnapshot fetch ids tree c = .ok (tree', c') →
      (∀ j ∈ elemIds tree', c0 ≤ j) ∧ c0 ≤ c' := by
  intro ids
  induction ids with
  | nil =>
    intro tree c tree' c' htree hc h
    simp only [hydrateSnapshot] at h
    injection h with h1
    injection h1 with h2 h3
    rw [← h2, ← h3]
    exact ⟨htree, hc⟩
  | cons i is ih =>
    intro tree c tree' c' htree hc h
    simp only [hydrateSnapshot] at h
    cases hs : hydrateSingleNode fetch tree i c with
    | error e => simp only [hs] at h; exact absurd h (by simp)
    | ok p =>
      obtain ⟨t2, c2⟩ := p
      simp only [hs] at h
      obtain ⟨ht2, hc2⟩ := hydrateSingleNode_ge c0 fetch tree i c t2 c2 htree hc hs
      exact ih t2 c2 tree' c' ht2 hc2 h

/-- `_hydrate_href_nodes` preserves the identity lower bound. -/
theorem hydrateHrefNodes_ge (c0 : Nat) (fetch : Fetcher) :
    ∀ (fuel : Nat) (tree : Elem) (c : Nat) (tree' : Elem) (c' : Nat),
      (∀ j ∈ elemIds tree, c0 ≤ j) → c0 ≤ c →
      hydrateHrefNodes fetch fuel tree c = .ok (tree', c') →
      (∀ j ∈ elemIds tree', c0 ≤ j) ∧ c0 ≤ c' := by
  intro fuel
  induction fuel with
  | zero =>
    intro tree c tree' c' htree hc h
    exact absurd h (by simp [hydrateHrefNodes])
  | succ f ih =>
    intro tree c tree' c' htree hc h
    rw [hydrateHrefNodes] at h
    cases hsnap : (descWithAttr "href" tree).map Elem.eid with
    | nil =>
      rw [hsnap] at h
      simp only [] at h
      injection h with h1
      injection h1 with h2 h3
      rw [← h2, ← h3]
      exact ⟨htree, hc⟩
    | cons i is =>
      rw [hsnap] at h
      simp only [] at h
      cases hsn : hydrateSnapshot fetch (i :: is) tree c with
      | error e => rw [hsn] at h; exact absurd h (by simp)
      | ok p =>
        obtain ⟨t2, c2⟩ := p
        rw [hsn] at h
        obtain ⟨ht2, hc2⟩ := hydrateSnapshot_ge c0 fetch (i :: is) tree c t2 c2 htree hc hsn
        exact ih t2 c2 tree' c' ht2 hc2 h

/-- `HrefHydrationStrategy.apply` preserves the identity lower bound across
the item list. -/
theorem hrefApply_ge (c0 : Nat) (fetch : Fetcher) (fuel : Nat) :
    ∀ (items : List HydrationItem) (c : Nat) (its' : List HydrationItem) (c' : Nat),
      (∀ it ∈ items, ∀ j ∈ elemIds it.element, c0 ≤ j) → c0 ≤ c →
      hrefApply fetch fuel items c = .ok (its', c') →
      (∀ it ∈ its', ∀ j ∈ elemIds it.element, c0 ≤ j) ∧ c0 ≤ c' := by
  intro items
  induction items with
  | nil =>
    intro c its' c' hitems hc h
    simp only [hrefApply] at h
    injection h with h1
    injection h1 with h2 h3
    rw [← h2, ← h3]
    exact ⟨by simp, hc⟩
  | cons a as ih =>
    intro c its' c' hitems hc h
    simp only [hrefApply] at h
    cases hhn : hydrateHrefNodes fetch fuel a.element c with
    | error e => simp only [hhn] at h; exact absurd h (by simp)
    | ok p =>
      obtain ⟨e', c2⟩ := p
      simp only [hhn] at h
      cases hrec : hrefApply fetch fuel as c2 with
      | error e => simp only [hrec] at h; exact absurd h (by simp)
      | ok q =>
        obtain ⟨its2, c3⟩ := q
        simp only [hrec] at h
        obtain ⟨he', hc2⟩ := hydrateHrefNodes_ge c0 fetch fuel a.element c e' c2
          (hitems a (List.mem_cons_self a as)) hc hhn
        obtain ⟨hits2, hc3⟩ := ih c2 its2 c3
          (fun it hit => hitems it (List.mem_cons_of_mem a hit)) hc2 hrec
        injection h with h1
        injection h1 with h2 h3
        rw [← h2, ← h3]
        refine ⟨?_, hc3⟩
        intro it hit
        rcases List.mem_cons.mp hit with hh | ht
        · rw [hh]
          exact he'
        · exact hits2 it ht


/-- The `_execute_link` clone loop allocates only at or above the counter. -/
theorem usePerChild_ge (it : HydrationItem) :
    ∀ (cs : List Elem) (c : Nat), c ≤ (usePerChild it cs c).2 ∧
      ∀ o ∈ (usePerChild it cs c).1, ∀ j ∈ elemIds o.element, c ≤ j := by
  intro cs
  induction cs with
  | nil => intro c; simp [usePerChild]
  | cons child rest ih =>
    intro c
    obtain ⟨hm1, hi1⟩ := deepcopy_ge it.element c
    rcases hdc : deepcopy c it.element with ⟨clone, c1⟩
    rw [hdc] at hm1 hi1
    obtain ⟨hm2, hi2⟩ := ih c1
    rcases hpc : usePerChild it rest c1 with ⟨rest', c2⟩
    rw [hpc] at hm2 hi2
    simp only [usePerChild, hdc, hpc]
    refine ⟨by omega, ?_⟩
    intro o ho j hj
    rcases List.mem_cons.mp ho with hh | ht
    · rw [hh] at hj
      simp only [elemIds_popAttr] at hj
      exact hi1 j hj
    · have := hi2 o ht j hj; omega

/-- The fold over `vn:link` source matches preserves the bound. -/
theorem executeLink_fold_ge (c0 : Nat) (it : HydrationItem) (childName : String) :
    ∀ (ms : List Elem) (acc : List HydrationItem × Nat),
      (∀ o ∈ acc.1, ∀ j ∈ elemIds o.element, c0 ≤ j) → c0 ≤ acc.2 →
      (∀ o ∈ (ms.foldl
        (fun (acc : List HydrationItem × Nat) m =>
          (acc.1 ++ (usePerChild it (xpath m ("./" ++ childName)) acc.2).1,
            (usePerChild it (xpath m ("./" ++ childName)) acc.2).2)) acc).1,
        ∀ j ∈ elemIds o.element, c0 ≤ j) ∧
      c0 ≤ (ms.foldl
        (fun (acc : List HydrationItem × Nat) m =>
          (acc.1 ++ (usePerChild it (xpath m ("./" ++ childName)) acc.2).1,
            (usePerChild it (xpath m ("./" ++ childName)) acc.2).2)) acc).2 := by
  intro ms
  induction ms with
  | nil => intro acc h1 h2; exact ⟨h1, h2⟩
  | cons m rest ih =>
    intro acc h1 h2
    simp only [List.foldl_cons]
    obtain ⟨hm, hi⟩ := usePerChild_ge it (xpath m ("./" ++ childName)) acc.2
    refine ih _ ?_ ?_
    · intro o ho j hj
      have ho' : o ∈ acc.1 ++ (usePerChild it (xpath m ("./" ++ childName)) acc.2).1 := ho
      rcases List.mem_append.mp ho' with hh | ht
      · exact h1 o hh j hj
      · have := hi o ht j hj; omega
    · show c0 ≤ (usePerChild it (xpath m ("./" ++ childName)) acc.2).2
      omega

/-- `_execute_link` preserves the identity lower bound. -/
theorem executeLink_ge (c0 : Nat) (docRoot : Elem) (it : HydrationItem)
    (srcXPath childName : String) (c : Nat) (outs : List HydrationItem) (c' : Nat)
    (hc : c0 ≤ c)
    (h : executeLink docRoot it srcXPath childName c = .ok (outs, c')) :
    (∀ o ∈ outs, ∀ j ∈ elemIds o.element, c0 ≤ j) ∧ c0 ≤ c' := by
  simp only [executeLink] at h
  cases hxp : xpath docRoot srcXPath with
  | nil => simp only [hxp] at h; exact absurd h (by simp)
  | cons m ms =>
    simp only [hxp] at h
    obtain ⟨hids, hcnt⟩ := executeLink_fold_ge c0 it childName (m :: ms) ([], c)
      (by simp) hc
    injection h with h1
    rw [h1] at hids hcnt
    exact ⟨hids, hcnt⟩

/-- `_expand_use` preserves the identity lower bound. -/
theorem expandUse_ge (c0 : Nat) (docRoot : Elem) (it : HydrationItem)
    (useAttr : String) (c : Nat) (outs : List HydrationItem) (c' : Nat)
    (hc : c0 ≤ c)
    (h : expandUse docRoot it useAttr c = .ok (outs, c')) :
    (∀ o ∈ outs, ∀ j ∈ elemIds o.element, c0 ≤ j) ∧ c0 ≤ c' := by
  simp only [expandUse] at h
  cases hsn : stripNamespace ((splitFirst useAttr '(').headD useAttr) with
  | error e => simp only [hsn] at h; exact absurd h (by simp)
  | ok p =>
    obtain ⟨pfx, rest⟩ := p
    simp only [hsn] at h
    by_cases hp : (pfx != "vn") = true
    · simp only [hp, if_true] at h
      exact absurd h (by simp)
    · simp only [hp, Bool.false_eq_true, if_false] at h
      cases hpu : parseUseExpression useAttr with
      | error e => simp only [hpu] at h; exact absurd h (by simp)
      | ok q =>
        obtain ⟨func, a, b⟩ := q
        simp only [hpu] at h
        by_cases hf : (func != "link") = true
        · simp only [hf, if_true] at h
          exact absurd h (by simp)
        · simp only [hf, Bool.false_eq_true, if_false] at h
          exact executeLink_ge c0 docRoot it a b c outs c' hc h

/-- The use-strategy work queue preserves the identity lower bound. -/
theorem useQueue_ge (c0 : Nat) (docRoot : Elem) :
    ∀ (f : Nat) (queue output : List HydrationItem) (c : Nat)
      (out : List HydrationItem) (c' : Nat),
      (∀ it ∈ queue, ∀ j ∈ elemIds it.element, c0 ≤ j) →
      (∀ it ∈ output, ∀ j ∈ elemIds it.element, c0 ≤ j) → c0 ≤ c →
      useQueue docRoot f queue output c = .ok (out, c') →
      (∀ it ∈ out, ∀ j ∈ elemIds it.element, c0 ≤ j) ∧ c0 ≤ c' := by
  intro f
  induction f with
  | zero =>
    intro queue output c out c' hq ho hc h
    by_cases he : queue.isEmpty
    · simp only [useQueue, he, if_true] at h
      exact absurd h (by simp)
    · simp only [useQueue, he, Bool.false_eq_true, if_false] at h
      exact absurd h (by simp)
  | succ f ih =>
    intro queue output c out c' hq ho hc h
    cases queue with
    | nil =>
      simp only [useQueue] at h
      injection h with h1
      injection h1 with h2 h3
      rw [← h2, ← h3]
      exact ⟨ho, hc⟩
    | cons current rest =>
      simp only [useQueue] at h
      have hcur : ∀ j ∈ elemIds current.element, c0 ≤ j :=
        hq current (List.mem_cons_self current rest)
      have hrest : ∀ it ∈ rest, ∀ j ∈ elemIds it.element, c0 ≤ j :=
        fun it hit => hq it (List.mem_cons_of_mem current hit)
      cases hga : getAttr current.element "use" with
      | none =>
        simp only [hga] at h
        refine ih rest (output ++ [current]) c out c' hrest ?_ hc h
        intro it hit
        rcases List.mem_append.mp hit with hh | ht
        · exact ho it hh
        · rw [List.mem_singleton.mp ht]
          exact hcur
      | some useAttr =>
        simp only [hga] at h
        by_cases hemp : (useAttr == "") = true
        · simp only [hemp, if_true] at h
          refine ih rest (output ++ [current]) c out c' hrest ?_ hc h
          intro it hit
          rcases List.mem_append.mp hit with hh | ht
          · exact ho it hh
          · rw [List.mem_singleton.mp ht]
            exact hcur
        · simp only [hemp, Bool.false_eq_true, if_false] at h
          cases hex : expandUse docRoot current useAttr c with
          | error e => simp only [hex] at h; exact absurd h (by simp)
          | ok p =>
            obtain ⟨clones, c2⟩ := p
            simp only [hex] at h
            obtain ⟨hcl, hc2⟩ := expandUse_ge c0 docRoot current useAttr c clones c2 hc hex
            by_cases hce : clones.isEmpty
            · simp only [hce, if_true] at h
              exact absurd h (by simp)
            · simp only [hce, Bool.false_eq_true, if_false] at h
              refine ih (rest ++ clones) output c2 out c' ?_ ho hc2 h
              intro it hit
              rcases List.mem_append.mp hit with hh | ht
              · exact hrest it hh
              · exact hcl it ht

/-- `UseFunctionHydrationStrategy.apply` preserves the identity lower
bound. -/
theorem useApply_ge (c0 : Nat) (docRoot : Elem) (fuel : Nat) :
    ∀ (items : List HydrationItem) (c : Nat) (its' : List HydrationItem) (c' : Nat),
      (∀ it ∈ items, ∀ j ∈ elemIds it.element, c0 ≤ j) → c0 ≤ c →
      useApply docRoot fuel items c = .ok (its', c') →
      (∀ it ∈ its', ∀ j ∈ elemIds it.element, c0 ≤ j) ∧ c0 ≤ c' := by
  intro items
  induction items with
  | nil =>
    intro c its' c' hitems hc h
    simp only [useApply] at h
    injection h with h1
    injection h1 with h2 h3
    rw [← h2, ← h3]
    exact ⟨by simp, hc⟩
  | cons a as ih =>
    intro c its' c' hitems hc h
    simp only [useApply] at h
    cases hqu : useQueue docRoot fuel [a] [] c with
    | error e => simp only [hqu] at h; exact absurd h (by simp)
    | ok p =>
      obtain ⟨out1, c2⟩ := p
      simp only [hqu] at h
      cases hrec : useApply docRoot fuel as c2 with
      | error e => simp only [hrec] at h; exact absurd h (by simp)
      | ok q =>
        obtain ⟨outs2, c3⟩ := q
        simp only [hrec] at h
        obtain ⟨hout1, hc2⟩ := useQueue_ge c0 docRoot fuel [a] [] c out1 c2
          (by intro it hit
              rw [List.mem_singleton.mp hit]
              exact hitems a (List.mem_cons_self a as))
          (by simp) hc hqu
        obtain ⟨houts2, hc3⟩ := ih c2 outs2 c3
          (fun it hit => hitems it (List.mem_cons_of_mem a hit)) hc2 hrec
        injection h with h1
        injection h1 with h2 h3
        rw [← h2, ← h3]
        refine ⟨?_, hc3⟩
        intro it hit
        rcases List.mem_append.mp hit with hh | ht
        · exact hout1 it hh
        · exact houts2 it ht


/-- One select-snapshot entry preserves the identity lower bound. -/
theorem selectProcessNode_ge (c0 : Nat) (docRoot : Elem) (ctx : Option Elem)
    (tree : Elem) (nodeId : Nat) (c : Nat) (tree' : Elem) (c' : Nat)
    (htree : ∀ j ∈ elemIds tree, c0 ≤ j) (hc : c0 ≤ c)
    (h : selectProcessNode docRoot ctx tree nodeId c = .ok (tree', c')) :
    (∀ j ∈ elemIds tree', c0 ≤ j) ∧ c0 ≤ c' := by
  simp only [selectProcessNode] at h
  cases hfd : findById nodeId tree with
  | none =>
    simp only [hfd] at h
    injection h with h1
    injection h1 with h2 h3
    rw [← h2, ← h3]
    exact ⟨htree, hc⟩
  | some node =>
    simp only [hfd] at h
    cases han : ancestorsOf nodeId tree with
    | none =>
      simp only [han] at h
      injection h with h1
      injection h1 with h2 h3
      rw [← h2, ← h3]
      exact ⟨htree, hc⟩
    | some ancestors =>
      simp only [han] at h
      by_cases hu : (ancestors.any (fun a => attrTruthy a "use")) = true
      · simp only [hu, if_true] at h
        injection h with h1
        injection h1 with h2 h3
        rw [← h2, ← h3]
        exact ⟨htree, hc⟩
      · simp only [hu, Bool.false_eq_true, if_false] at h
        cases hga : getAttr node "select" with
        | none =>
          simp only [hga] at h
          injection h with h1
          injection h1 with h2 h3
          rw [← h2, ← h3]
          exact ⟨htree, hc⟩
        | some expr =>
          simp only [hga] at h
          by_cases hemp : (expr == "") = true
          · simp only [hemp, if_true] at h
            exact absurd h (by simp)
          · simp only [hemp, Bool.false_eq_true, if_false] at h
            cases hrr : resolveReference docRoot ctx expr with
            | error e => simp only [hrr] at h; exact absurd h (by simp)
            | ok source =>
              simp only [hrr] at h
              obtain ⟨hm, hi⟩ := deepcopy_ge source c
              rcases hdc : deepcopy c source with ⟨repl, c2⟩
              rw [hdc] at hm hi
              simp only [hdc] at h
              injection h with h1
              injection h1 with h2 h3
              rw [← h2, ← h3]
              constructor
              · intro j hj
                rcases replaceById_mem tree nodeId repl j hj with hin | hnew
                · exact htree j hin
                · have := hi j hnew; omega
              · omega

/-- One pass over a select snapshot preserves the identity lower bound. -/
theorem selectSnapshot_ge (c0 : Nat) (docRoot : Elem) (ctx : Option Elem) :
    ∀ (ids : List Nat) (tree : Elem) (c : Nat) (tree' : Elem) (c' : Nat),
      (∀ j ∈ elemIds tree, c0 ≤ j) → c0 ≤ c →
      selectSnapshot docRoot ctx ids tree c = .ok (tree', c') →
      (∀ j ∈ elemIds tree', c0 ≤ j) ∧ c0 ≤ c' := by
  intro ids
  induction ids with
  | nil =>
    intro tree c tree' c' htree hc h
    simp only [selectSnapshot] at h
    injection h with h1
    injection h1 with h2 h3
    rw [← h2, ← h3]
    exact ⟨htree, hc⟩
  | cons i is ih =>
    intro tree c tree' c' htree hc h
    simp only [selectSnapshot] at h
    cases hs : selectProcessNode docRoot ctx tree i c with
    | error e => simp only [hs] at h; exact absurd h (by simp)
    | ok p =>
      obtain ⟨t2, c2⟩ := p
      simp only [hs] at h
      obtain ⟨ht2, hc2⟩ := selectProcessNode_ge c0 docRoot ctx tree i c t2 c2 htree hc hs
      exact ih t2 c2 tree' c' ht2 hc2 h

/-- `SelectHydrationStrategy.apply` (orchestrator) preserves the identity
lower bound. -/
theorem selectApply_ge (c0 : Nat) (docRoot : Elem) :
    ∀ (items : List HydrationItem) (c : Nat) (its' : List HydrationItem) (c' : Nat),
      (∀ it ∈ items, ∀ j ∈ elemIds it.element, c0 ≤ j) → c0 ≤ c →
      selectApply docRoot items c = .ok (its', c') →
      (∀ it ∈ its', ∀ j ∈ elemIds it.element, c0 ≤ j) ∧ c0 ≤ c' := by
  intro items
  induction items with
  | nil =>
    intro c its' c' hitems hc h
    simp only [selectApply] at h
    injection h with h1
    injection h1 with h2 h3
    rw [← h2, ← h3]
    exact ⟨by simp, hc⟩
  | cons a as ih =>
    intro c its' c' hitems hc h
    simp only [selectApply] at h
    cases hs : selectSnapshot docRoot a.contextNode
        ((descWithAttr "select" a.element).map Elem.eid) a.element c with
    | error e => simp only [hs] at h; exact absurd h (by simp)
    | ok p =>
      obtain ⟨e', c2⟩ := p
      simp only [hs] at h
      cases hrec : selectApply docRoot as c2 with
      | error e => simp only [hrec] at h; exact absurd h (by simp)
      | ok q =>
        obtain ⟨its2, c3⟩ := q
        simp only [hrec] at h
        obtain ⟨he', hc2⟩ := selectSnapshot_ge c0 docRoot a.contextNode
          ((descWithAttr "select" a.element).map Elem.eid) a.element c e' c2
          (hitems a (List.mem_cons_self a as)) hc hs
        obtain ⟨hits2, hc3⟩ := ih c2 its2 c3
          (fun it hit => hitems it (List.mem_cons_of_mem a hit)) hc2 hrec
        injection h with h1
        injection h1 with h2 h3
        rw [← h2, ← h3]
        refine ⟨?_, hc3⟩
        intro it hit
        rcases List.mem_cons.mp hit with hh | ht
        · rw [hh]
          exact he'
        · exact hits2 it ht

/-- `_apply_strategies` preserves the identity lower bound for any strategy
pipeline. -/
theorem applyStrategies_ge (c0 : Nat) (fetch : Fetcher) (fuel : Nat) (docRoot : Elem) :
    ∀ (ss : List OStrat) (items : List HydrationItem) (c : Nat)
      (its' : List HydrationItem) (c' : Nat),
      (∀ it ∈ items, ∀ j ∈ elemIds it.element, c0 ≤ j) → c0 ≤ c →
      applyStrategies fetch fuel docRoot ss items c = .ok (its', c') →
      (∀ it ∈ its', ∀ j ∈ elemIds it.element, c0 ≤ j) ∧ c0 ≤ c' := by
  intro ss
  induction ss with
  | nil =>
    intro items c its' c' hitems hc h
    simp only [applyStrategies] at h
    injection h with h1
    injection h1 with h2 h3
    rw [← h2, ← h3]
    exact ⟨hitems, hc⟩
  | cons s rest ih =>
    intro items c its' c' hitems hc h
    simp only [applyStrategies] at h
    cases hs : applyOStrat fetch fuel docRoot s items c with
    | error e => simp only [hs] at h; exact absurd h (by simp)
    | ok p =>
      obtain ⟨i2, c2⟩ := p
      simp only [hs] at h
      have hstep : (∀ it ∈ i2, ∀ j ∈ elemIds it.element, c0 ≤ j) ∧ c0 ≤ c2 := by
        cases s with
        | href => exact hrefApply_ge c0 fetch fuel items c i2 c2 hitems hc hs
        | useFunction => exact useApply_ge c0 docRoot fuel items c i2 c2 hitems hc hs
        | select => exact selectApply_ge c0 docRoot items c i2 c2 hitems hc hs
      exact ih i2 c2 its' c' hstep.1 hstep.2 h

/-- C9.  `hydrate_element` deep-copies its input before running any
strategy, and every element a strategy builds afterwards takes a fresh
identity from the counter, so no node of any returned item is a node of the
original input element: mutating hydrated output cannot mutate the input. -/
theorem c9_theorem (fetch : Fetcher) (fuel : Nat) (strategies : List OStrat)
    (e root : Elem) (ctx : Option Elem) (c : Nat) (items : List HydrationItem)
    (c' : Nat)
    (hin : ∀ i ∈ elemIds e, i < c)
    (h : hydrateElement fetch fuel strategies e root ctx c = .ok (items, c')) :
    ∀ it ∈ items, ∀ j ∈ elemIds it.element, j ∉ elemIds e := by
  simp only [hydrateElement] at h
  obtain ⟨hm, hi⟩ := deepcopy_ge e c
  rcases hdc : deepcopy c e with ⟨copied, c1⟩
  rw [hdc] at hm hi
  simp only [hdc] at h
  obtain ⟨hout, _⟩ := applyStrategies_ge c fetch fuel root strategies
    [{ element := copied, contextNode := ctx }] c1 items c'
    (by intro it hit
        rw [List.mem_singleton.mp hit]
        exact hi)
    hm h
  intro it hit j hj hmem
  have h1 := hout it hit j hj
  have h2 := hin j hmem
  omega

/-- C9, witness: hydrating a childless element with the default pipeline
from counter 3 yields an item whose only identity, 3, is not an identity of
the input. -/
theorem c9_theorem_witness :
    (∀ i ∈ elemIds (Elem.mk 0 "a" [] [] none none []), i < 3) ∧
    (hydrateElement (fun _ => none) 2 defaultStrategies (Elem.mk 0 "a" [] [] none none [])
        (Elem.mk 1 "r" [] [] none none []) none 3 =
      .ok ([{ element := Elem.mk 3 "a" [] [] none none [], contextNode := none }], 4)) ∧
    (∀ it ∈ [(⟨Elem.mk 3 "a" [] [] none none [], none⟩ : HydrationItem)],
      ∀ j ∈ elemIds it.element, j ∉ elemIds (Elem.mk 0 "a" [] [] none none [])) :=
  ⟨by decide, rfl,
   c9_theorem (fun _ => none) 2 defaultStrategies (Elem.mk 0 "a" [] [] none none [])
     (Elem.mk 1 "r" [] [] none none []) none 3 _ 4 (by decide) rfl⟩

/-! ## Claim C4: the select-by-reference processing step -/

/-- Defined from the SPEC's words (§4.6): the recursive call's items are
inserted "in order at the original node's position, preserving the last
item's tail" — the siblings before the node, then the adjusted replacements
in order, then the siblings after the node.  Compared below with the
source's remove-and-insert loop (`insertReplacements`). -/
def specSpliceReplacements (ch : List Elem) (k : Nat) (tailText : Option String)
    (reps : List HydrationItem) : List Elem :=
  ch.take k ++
    reps.enum.map (fun p => adjustReplacement p.2.element (p.1 == reps.length - 1) tailText)
    ++ ch.drop (k + 1)

theorem insertIdx_append_self {α : Type} (pre post : List α) (x : α) :
    List.insertIdx pre.length x (pre ++ post) = pre ++ x :: post := by
  induction pre with
  | nil => simp
  | cons a as ih => simp [List.insertIdx_succ_cons, ih]

theorem foldl_insertIdx_enumFrom (t : Option String) (total k : Nat) :
    ∀ (its : List HydrationItem) (m : Nat) (pre post : List Elem),
      pre.length = k + m →
      (List.enumFrom m its).foldl
        (fun acc p => acc.insertIdx (k + p.1)
          (adjustReplacement p.2.element (p.1 == total - 1) t)) (pre ++ post) =
      pre ++ (List.enumFrom m its).map
        (fun p => adjustReplacement p.2.element (p.1 == total - 1) t) ++ post := by
  intro its
  induction its with
  | nil => intro m pre post hlen; simp
  | cons it rest ih =>
    intro m pre post hlen
    simp only [List.enumFrom_cons, List.foldl_cons, List.map_cons]
    have hstep : List.insertIdx (k + m)
        (adjustReplacement it.element (m == total - 1) t) (pre ++ post) =
        (pre ++ [adjustReplacement it.element (m == total - 1) t]) ++ post := by
      rw [← hlen, insertIdx_append_self]
      simp
    rw [hstep, ih (m + 1) (pre ++ [adjustReplacement it.element (m == total - 1) t]) post
      (by simp [hlen]; omega)]
    simp

/-- The source's splice (erase, then insert each enumerated replacement)
equals the spec's take/append/drop formulation. -/
theorem insertReplacements_eq (ch : List Elem) (k : Nat) (t : Option String)
    (its : List HydrationItem) (hk : k < ch.length) :
    insertReplacements ch k t its = specSpliceReplacements ch k t its := by
  simp only [insertReplacements, specSpliceReplacements, List.enum,
    List.eraseIdx_eq_take_drop_succ]
  exact foldl_insertIdx_enumFrom t its.length k its 0 (ch.take k) (ch.drop (k + 1))
    (by simp; omega)

theorem mapParentOf_congr_main (i : Nat) (f g : List Elem → Nat → List Elem)
    (hfg : ∀ ch k, ch.findIdx? (fun c => c.eid == i) = some k → f ch k = g ch k) :
    ∀ (n : Nat),
      (∀ t, nodeCount t ≤ n → mapParentOf i f t = mapParentOf i g t) ∧
      (∀ ts, nodeCountList ts ≤ n → mapParentOfList i f ts = mapParentOfList i g ts) := by
  intro n
  induction n with
  | zero =>
    constructor
    · intro t hle
      have := nodeCount_pos t
      omega
    · intro ts hle
      cases ts with
      | nil => rfl
      | cons e es =>
        have := nodeCount_pos e
        simp [nodeCountList] at hle
        omega
  | succ n ih =>
    have helem : ∀ t, nodeCount t ≤ n + 1 → mapParentOf i f t = mapParentOf i g t := by
      intro t hle
      cases t with
      | mk j tg a nm tx tl ch =>
        have hch : nodeCountList ch ≤ n := by
          simp [nodeCount] at hle; omega
        simp only [mapParentOf]
        cases hfi : ch.findIdx? (fun c => c.eid == i) with
        | some k => exact congrArg (fun l => Elem.mk j tg a nm tx tl l) (hfg ch k hfi)
        | none => exact congrArg (fun l => Elem.mk j tg a nm tx tl l) (ih.2 ch hch)
    refine ⟨helem, ?_⟩
    intro ts hle
    cases ts with
    | nil => rfl
    | cons e es =>
      have h1 : nodeCount e ≤ n + 1 := by
        have := nodeCount_pos e
        simp [nodeCountList] at hle
        omega
      have h2 : nodeCountList es ≤ n := by
        have := nodeCount_pos e
        simp [nodeCountList] at hle
        omega
      simp only [mapParentOfList]
      by_cases hf : (findById i e).isSome
      · rw [if_pos hf, if_pos hf, helem e h1]
      · rw [if_neg hf, if_neg hf, ih.2 es h2]

theorem mapParentOf_congr (i : Nat) (f g : List Elem → Nat → List Elem)
    (hfg : ∀ ch k, ch.findIdx? (fun c => c.eid == i) = some k → f ch k = g ch k)
    (t : Elem) : mapParentOf i f t = mapParentOf i g t :=
  (mapParentOf_congr_main i f g hfg (nodeCount t)).1 t (Nat.le_refl _)

/-- C4, amended (vnvs side).  One eligible select node is processed exactly
as the spec describes: the node is merged with the uniquely resolved element
by the §4.3 merge algorithm ignoring the local `select` (hypothesis h6 feeds
that merge to the engine), the merged subtree is re-hydrated through the
full engine, and the non-empty result list is spliced in order at the
node's position among its siblings, the last item receiving the node's
tail. -/
theorem c4_theorem (fetch : Fetcher) (engineStrats : List VStrat) (f : Nat)
    (root : Elem) (ctx : Option Elem) (tree node source : Elem) (nodeId c : Nat)
    (expr : String) (reps : List HydrationItem) (c'' : Nat) (p : Elem)
    (anc : List Elem)
    (h1 : findById nodeId tree = some node)
    (h2 : getAttr node "select" = some expr)
    (h3 : (expr == "") = false)
    (h4 : resolveReference root ctx expr = .ok source)
    (h5 : ancestorsOf nodeId tree = some (p :: anc))
    (h6 : vnvsHydrateElement fetch f root engineStrats
        (vnvsMergeElements c node source ["select"] []).1 ctx
        (vnvsMergeElements c node source ["select"] []).2 = .ok (reps, c''))
    (h7 : reps ≠ []) :
    vnvsProcessSelectNode fetch engineStrats (f + 1) root ctx tree nodeId c =
      .ok (mapParentOf nodeId
        (fun ch k => specSpliceReplacements ch k node.tail reps) tree, c'') := by
  rw [vnvsProcessSelectNode]
  simp only [h1, h2, h3, Bool.false_eq_true, if_false, h4, h5]
  rcases hme : vnvsMergeElements c node source ["select"] [] with ⟨merged, c1⟩
  rw [hme] at h6
  replace h6 : vnvsHydrateElement fetch f root engineStrats merged ctx c1 =
      .ok (reps, c'') := h6
  cases reps with
  | nil => exact absurd rfl h7
  | cons r rs =>
    simp only [h6]
    exact congrArg (fun m => (Except.ok (m, c'') : Except HydErr (Elem × Nat)))
      (mapParentOf_congr nodeId _ _ (fun ch k hfi =>
        insertReplacements_eq ch k node.tail (r :: rs)
          (List.findIdx?_eq_some_iff_findIdx_eq.mp hfi).1) tree)

/-- Input for the C4 counterexample: document root with a remote `m` node
carrying `name`/`attr` and a `rate` child. -/
def c4root : Elem :=
  Elem.mk 0 "r" [] [] none none
    [Elem.mk 1 "m" [("name","x"),("attr","rem")] [] none none
      [Elem.mk 2 "rate" [] [] (some "0.02") none []]]

/-- Item element whose `select` child carries a local `date` attribute, a
tail and a local child of its own. -/
def c4elem : Elem :=
  Elem.mk 10 "v" [] [] none none
    [Elem.mk 11 "m" [("select","/r/m"),("date","2024")] [] none (some "T")
      [Elem.mk 12 "desc" [] [] (some "local") none []]]

/-- The local select node and the resolved element of the scenario. -/
def c4node : Elem := c4elem.children.getD 0 c4elem

def c4source : Elem := c4root.children.getD 0 c4root

/-- The element the orchestrator's select strategy actually returns for the
scenario: a plain deep copy of the resolved element in the node's place. -/
def c4out : Elem :=
  Elem.mk 10 "v" [] [] none none
    [Elem.mk 100 "m" [("name","x"),("attr","rem")] [] none none
      [Elem.mk 101 "rate" [] [] (some "0.02") none []]]

/-- C4, counterexample.  The claim also names the request-orchestrator's
`SelectHydrationStrategy.apply` as its source, but that variant replaces the
node with a plain deep copy of the resolved element: the run below SUCCEEDS
and its full output shows the local `date` attribute, the local child and
the node's tail all discarded and a single item returned (no merge, no
recursive re-hydration, no multi-item splice), whereas the §4.3 merge the
claim prescribes keeps the local `date`. -/
theorem c4_counterexample :
    (selectApply c4root [{ element := c4elem, contextNode := none }] 100 =
      .ok ([{ element := c4out, contextNode := none }], 102)) ∧
    (getAttr (vnvsMergeElements 200 c4node c4source ["select"] []).1 "date" =
      some "2024") ∧
    ((selectApply c4root [{ element := c4elem, contextNode := none }] 100).toOption.map
      (fun pr => pr.1.all (fun it =>
        (descWhere (fun d => (getAttr d "date").isSome) it.element).isEmpty)) =
      some true) :=
  ⟨rfl, by decide, by decide⟩

/-- Witness scenario for C4: a vnvs document whose `valuation` holds a
`select` node referring to `/root/market`. -/
def c4wRoot : Elem :=
  Elem.mk 0 "root" [] [] none none
    [Elem.mk 1 "market" [("name","Market1")] [] none none
      [Elem.mk 2 "rate" [] [] (some "0.02") none []],
     Elem.mk 3 "valuation" [] [] none none
      [Elem.mk 4 "market" [("name","LocalMarket"),("select","/root/market")] [] none
        (some "TAIL")
        [Elem.mk 5 "rate" [] [] (some "0.03") none []]]]

def c4wTree : Elem :=
  Elem.mk 3 "valuation" [] [] none none
    [Elem.mk 4 "market" [("name","LocalMarket"),("select","/root/market")] [] none
      (some "TAIL")
      [Elem.mk 5 "rate" [] [] (some "0.03") none []]]

def c4wNode : Elem :=
  Elem.mk 4 "market" [("name","LocalMarket"),("select","/root/market")] [] none
    (some "TAIL") [Elem.mk 5 "rate" [] [] (some "0.03") none []]

def c4wSource : Elem :=
  Elem.mk 1 "market" [("name","Market1")] [] none none
    [Elem.mk 2 "rate" [] [] (some "0.02") none []]

/-- The engine's re-hydration result for the merged subtree of the witness
scenario. -/
def c4wReps : List HydrationItem :=
  [⟨Elem.mk 102 "market" [("name","LocalMarket")] [] none (some "TAIL")
      [Elem.mk 103 "rate" [] [] (some "0.03") none []], none⟩]

/-- C4, witness: the hypotheses of the theorem hold for the concrete vnvs
scenario and the select step produces the spec-side splice. -/
theorem c4_theorem_witness :
    (findById 4 c4wTree = some c4wNode) ∧
    (getAttr c4wNode "select" = some "/root/market") ∧
    (("/root/market" == "") = false) ∧
    (resolveReference c4wRoot none "/root/market" = .ok c4wSource) ∧
    (ancestorsOf 4 c4wTree = some (c4wTree :: [])) ∧
    (vnvsHydrateElement (fun _ => none) 20 c4wRoot [VStrat.select]
        (vnvsMergeElements 100 c4wNode c4wSource ["select"] []).1 none
        (vnvsMergeElements 100 c4wNode c4wSource ["select"] []).2 =
      .ok (c4wReps, 104)) ∧
    (c4wReps ≠ []) ∧
    (vnvsProcessSelectNode (fun _ => none) [VStrat.select] 21 c4wRoot none
        c4wTree 4 100 =
      .ok (mapParentOf 4
        (fun ch k => specSpliceReplacements ch k c4wNode.tail c4wReps) c4wTree, 104)) :=
  ⟨rfl, rfl, rfl, rfl, rfl, rfl, by simp [c4wReps],
   c4_theorem (fun _ => none) [VStrat.select] 20 c4wRoot none c4wTree c4wNode
     c4wSource 4 100 "/root/market" c4wReps 104 c4wTree [] rfl rfl rfl rfl rfl rfl
     (by simp [c4wReps])⟩



/-! ## Claim C10: the cyclic-fetch counterexample -/

/-- Remote document served for URI `u`: its `b` node pulls in a `c` child
that refers back to URI `v`. -/
def docU2 : Elem :=
  Elem.mk 60 "r" [] [] none none
    [Elem.mk 61 "b" [] [] none none
      [Elem.mk 62 "c" [("href","v")] [] none none []]]

/-- Remote document served for URI `v`: its `c` node pulls in a `b` child
that refers back to URI `u`. -/
def docV2 : Elem :=
  Elem.mk 70 "s" [] [] none none
    [Elem.mk 71 "c" [] [] none none
      [Elem.mk 72 "b" [("href","u")] [] none none []]]

/-- A fetcher with two mutually referring documents. -/
def fetch2 : Fetcher := fun u =>
  if u == "u" then some docU2 else if u == "v" then some docV2 else none

def leafB (i : Nat) : Elem := Elem.mk i "b" [("href","u")] [] none none []

def leafC (i : Nat) : Elem := Elem.mk i "c" [("href","v")] [] none none []

/-- Input element for the counterexample: a single `href` pointing into the
cycle. -/
def cyc0 : Elem := Elem.mk 80 "a" [] [] none none [leafB 81]

/-- The remote node `_locate_remote_node` resolves for a `b` leaf (the
unique `b` inside `docU2`). -/
def remB : Elem :=
  Elem.mk 61 "b" [] [] none none [Elem.mk 62 "c" [("href","v")] [] none none []]

/-- The remote node resolved for a `c` leaf (the unique `c` inside
`docV2`). -/
def remC : Elem :=
  Elem.mk 71 "c" [] [] none none [Elem.mk 72 "b" [("href","u")] [] none none []]

theorem merge_leafB (j c : Nat) :
    mergeNodes c (leafB j) remB =
      (Elem.mk c "b" [] [] none none [leafC (c + 1)], c + 2) := rfl

theorem merge_leafC (j c : Nat) :
    mergeNodes c (leafC j) remC =
      (Elem.mk c "c" [] [] none none [leafB (c + 1)], c + 2) := rfl

theorem iterTag_b_docU2 (j : Nat) : iterTag (leafB j).tag docU2 = [remB] := rfl

theorem iterTag_c_docV2 (j : Nat) : iterTag (leafC j).tag docV2 = [remC] := rfl

/-- The family of single-branch trees the cyclic documents keep producing:
a path of attribute-free `b`/`c` nodes ending in exactly one leaf that
carries the next `href` of the cycle. -/
inductive Chain : Elem → Prop where
  | lb (i : Nat) : Chain (leafB i)
  | lc (i : Nat) : Chain (leafC i)
  | nb (i : Nat) (c : Elem) : Chain c → Chain (Elem.mk i "b" [] [] none none [c])
  | nc (i : Nat) (c : Elem) : Chain c → Chain (Elem.mk i "c" [] [] none none [c])

/-- Loop invariant of `_hydrate_href_nodes` on the cyclic input: the tree is
an attribute-free root (whose tag is neither remote root tag) over one
chain. -/
def InvTree (T : Elem) : Prop :=
  ∃ i t ch, T = Elem.mk i t [] [] none none [ch] ∧ Chain ch ∧ t ≠ "r" ∧ t ≠ "s"

theorem chain_replace (ch : Elem) (hch : Chain ch) (i : Nat) (new : Elem)
    (hnew : Chain new) : Chain (replaceById i new ch) := by
  induction hch with
  | lb j =>
    simp only [leafB, replaceById, replaceByIdList]
    by_cases hj : (j == i) = true
    · rw [if_pos hj]; exact hnew
    · rw [if_neg hj]; exact Chain.lb j
  | lc j =>
    simp only [leafC, replaceById, replaceByIdList]
    by_cases hj : (j == i) = true
    · rw [if_pos hj]; exact hnew
    · rw [if_neg hj]; exact Chain.lc j
  | nb j c hc ih =>
    simp only [replaceById]
    by_cases hj : (j == i) = true
    · rw [if_pos hj]; exact hnew
    · rw [if_neg hj]
      simp only [replaceByIdList]
      by_cases hf : (findById i c).isSome
      · rw [if_pos hf]; exact Chain.nb j _ ih
      · rw [if_neg hf]; exact Chain.nb j c hc
  | nc j c hc ih =>
    simp only [replaceById]
    by_cases hj : (j == i) = true
    · rw [if_pos hj]; exact hnew
    · rw [if_neg hj]
      simp only [replaceByIdList]
      by_cases hf : (findById i c).isSome
      · rw [if_pos hf]; exact Chain.nc j _ ih
      · rw [if_neg hf]; exact Chain.nc j c hc

theorem chain_find (ch : Elem) (hch : Chain ch) :
    ∀ (i : Nat) (node : Elem), findById i ch = some node →
      (∃ j, node = leafB j) ∨ (∃ j, node = leafC j) ∨
      (∃ j c', Chain c' ∧ (node = Elem.mk j "b" [] [] none none [c'] ∨
        node = Elem.mk j "c" [] [] none none [c'])) := by
  induction hch with
  | lb j =>
    intro i node h
    simp only [leafB, findById] at h
    by_cases hj : (j == i) = true
    · rw [if_pos hj] at h
      injection h with h1
      exact Or.inl ⟨j, h1.symm⟩
    · rw [if_neg hj] at h
      simp [findByIdList] at h
  | lc j =>
    intro i node h
    simp only [leafC, findById] at h
    by_cases hj : (j == i) = true
    · rw [if_pos hj] at h
      injection h with h1
      exact Or.inr (Or.inl ⟨j, h1.symm⟩)
    · rw [if_neg hj] at h
      simp [findByIdList] at h
  | nb j c hc ih =>
    intro i node h
    simp only [findById] at h
    by_cases hj : (j == i) = true
    · rw [if_pos hj] at h
      injection h with h1
      exact Or.inr (Or.inr ⟨j, c, hc, Or.inl h1.symm⟩)
    · rw [if_neg hj] at h
      simp only [findByIdList] at h
      cases hf : findById i c with
      | some r =>
        rw [hf] at h
        injection h with h1
        exact h1 ▸ ih i r hf
      | none =>
        rw [hf] at h
        simp [findByIdList] at h
  | nc j c hc ih =>
    intro i node h
    simp only [findById] at h
    by_cases hj : (j == i) = true
    · rw [if_pos hj] at h
      injection h with h1
      exact Or.inr (Or.inr ⟨j, c, hc, Or.inr h1.symm⟩)
    · rw [if_neg hj] at h
      simp only [findByIdList] at h
      cases hf : findById i c with
      | some r =>
        rw [hf] at h
        injection h with h1
        exact h1 ▸ ih i r hf
      | none =>
        rw [hf] at h
        simp [findByIdList] at h

theorem chain_desc (ch : Elem) (hch : Chain ch) :
    ((if (getAttr ch "href").isSome then [ch] else []) ++
      descWhere (fun d => (getAttr d "href").isSome) ch) ≠ [] := by
  induction hch with
  | lb j =>
    have h : (getAttr (leafB j) "href").isSome = true := rfl
    rw [if_pos h]
    simp
  | lc j =>
    have h : (getAttr (leafC j) "href").isSome = true := rfl
    rw [if_pos h]
    simp
  | nb j c hc ih =>
    have h : ¬((getAttr (Elem.mk j "b" [] [] none none [c]) "href").isSome = true) := by
      intro hcontra
      simp [getAttr, Elem.attrs] at hcontra
    rw [if_neg h]
    simp only [List.nil_append, descWhere, descWhereList, List.append_nil]
    exact ih
  | nc j c hc ih =>
    have h : ¬((getAttr (Elem.mk j "c" [] [] none none [c]) "href").isSome = true) := by
      intro hcontra
      simp [getAttr, Elem.attrs] at hcontra
    rw [if_neg h]
    simp only [List.nil_append, descWhere, descWhereList, List.append_nil]
    exact ih

theorem invTree_desc_ne (T : Elem) (hT : InvTree T) :
    (descWithAttr "href" T).map Elem.eid ≠ [] := by
  obtain ⟨rid, t, ch, rfl, hch, _, _⟩ := hT
  intro hcontra
  rw [List.map_eq_nil_iff] at hcontra
  simp only [descWithAttr, descWhere, descWhereList, List.append_nil] at hcontra
  exact chain_desc ch hch hcontra


theorem pathToId_head (i j : Nat) (tg : String) (a n : List (String × String))
    (tx tl : Option String) (ch : List Elem) (p : List PathStep)
    (h : pathToId i (Elem.mk j tg a n tx tl ch) = some p) :
    ∃ rest, p = (tg, none) :: rest := by
  simp only [pathToId] at h
  by_cases hj : (j == i) = true
  · rw [if_pos hj] at h
    injection h with h1
    exact ⟨[], h1.symm⟩
  · rw [if_neg hj] at h
    cases hc : pathToIdChildren i ch ch with
    | some rest =>
      simp only [hc] at h
      injection h with h1
      exact ⟨rest, h1.symm⟩
    | none => simp only [hc] at h; exact absurd h (by simp)

theorem resolvePath_neRoot (root : Elem) (t : String) (o : Option Nat)
    (rest : List PathStep) (h : (root.tag == t) = false) :
    resolvePath root ((t, o) :: rest) = [] := by
  simp only [resolvePath, h, Bool.false_eq_true, if_false]

theorem locate_leafB (j : Nat) (t : String) (o : Option Nat)
    (rest : List PathStep) (ht : t ≠ "r") :
    locateRemoteNode (leafB j) docU2 ((t, o) :: rest) = .ok remB := by
  have hbeq : (docU2.tag == t) = false := by
    simp only [docU2, Elem.tag, beq_eq_false_iff_ne]
    exact fun hc => ht hc.symm
  simp only [locateRemoteNode, resolvePath_neRoot docU2 t o rest hbeq]
  rfl

theorem locate_leafC (j : Nat) (t : String) (o : Option Nat)
    (rest : List PathStep) (ht : t ≠ "s") :
    locateRemoteNode (leafC j) docV2 ((t, o) :: rest) = .ok remC := by
  have hbeq : (docV2.tag == t) = false := by
    simp only [docV2, Elem.tag, beq_eq_false_iff_ne]
    exact fun hc => ht hc.symm
  simp only [locateRemoteNode, resolvePath_neRoot docV2 t o rest hbeq]
  rfl

theorem invTree_replace (rid : Nat) (t : String) (ch : Elem) (i c2 : Nat)
    (tg : String) (sub : Elem) (hch : Chain ch) (htr : t ≠ "r") (hts : t ≠ "s")
    (htg : tg = "b" ∨ tg = "c") (hsub : Chain sub) :
    InvTree (replaceById i (Elem.mk c2 tg [] [] none none [sub])
      (Elem.mk rid t [] [] none none [ch])) := by
  have hnew : Chain (Elem.mk c2 tg [] [] none none [sub]) := by
    rcases htg with h | h
    · rw [h]; exact Chain.nb c2 sub hsub
    · rw [h]; exact Chain.nc c2 sub hsub
  simp only [replaceById]
  by_cases hri : (rid == i) = true
  · rw [if_pos hri]
    refine ⟨c2, tg, sub, rfl, hsub, ?_, ?_⟩
    · rcases htg with h | h <;> rw [h] <;> decide
    · rcases htg with h | h <;> rw [h] <;> decide
  · rw [if_neg hri]
    simp only [replaceByIdList]
    by_cases hf : (findById i ch).isSome
    · rw [if_pos hf]
      exact ⟨rid, t, _, rfl, chain_replace ch hch i _ hnew, htr, hts⟩
    · rw [if_neg hf]
      exact ⟨rid, t, ch, rfl, hch, htr, hts⟩


theorem c10_single (T : Elem) (i c : Nat) (hT : InvTree T) :
    ∃ T' c', hydrateSingleNode fetch2 T i c = .ok (T', c') ∧ InvTree T' := by
  obtain ⟨rid, t, ch, hTeq, hch, htr, hts⟩ := hT
  subst hTeq
  simp only [hydrateSingleNode]
  by_cases hri : (rid == i) = true
  · have hfind : findById i (Elem.mk rid t [] [] none none [ch]) =
        some (Elem.mk rid t [] [] none none [ch]) := by
      simp only [findById, hri, if_true]
    refine ⟨Elem.mk rid t [] [] none none [ch], c, ?_, ⟨rid, t, ch, rfl, hch, htr, hts⟩⟩
    have hattr : getAttr (Elem.mk rid t [] [] none none [ch]) "href" = none := rfl
    simp only [hfind, hattr]
  · cases hf : findById i ch with
    | none =>
      have hfind : findById i (Elem.mk rid t [] [] none none [ch]) = none := by
        simp only [findById, hri, Bool.false_eq_true, if_false, findByIdList, hf]
      refine ⟨Elem.mk rid t [] [] none none [ch], c, ?_, ⟨rid, t, ch, rfl, hch, htr, hts⟩⟩
      simp only [hfind]
    | some node =>
      have hfind : findById i (Elem.mk rid t [] [] none none [ch]) = some node := by
        simp only [findById, hri, Bool.false_eq_true, if_false, findByIdList, hf]
      simp only [hfind]
      rcases chain_find ch hch i node hf with ⟨j, rfl⟩ | ⟨j, rfl⟩ | ⟨j, c', hc', hor⟩
      · have hattr : getAttr (leafB j) "href" = some "u" := rfl
        have hemp : (("u" : String) == "") = false := rfl
        simp only [hattr, hemp, Bool.false_eq_true, if_false]
        cases hpath : pathToId i (Elem.mk rid t [] [] none none [ch]) with
        | none =>
          simp only [hpath]
          exact ⟨Elem.mk rid t [] [] none none [ch], c, rfl,
            ⟨rid, t, ch, rfl, hch, htr, hts⟩⟩
        | some path =>
          obtain ⟨rest, hrest⟩ := pathToId_head i rid t [] [] none none [ch] path hpath
          subst hrest
          have hfetch : fetch2 "u" = some docU2 := rfl
          simp only [hpath, hfetch, locate_leafB j t none rest htr, merge_leafB]
          exact ⟨_, c + 2, rfl,
            invTree_replace rid t ch i c "b" (leafC (c + 1)) hch htr hts (Or.inl rfl)
              (Chain.lc (c + 1))⟩
      · have hattr : getAttr (leafC j) "href" = some "v" := rfl
        have hemp : (("v" : String) == "") = false := rfl
        simp only [hattr, hemp, Bool.false_eq_true, if_false]
        cases hpath : pathToId i (Elem.mk rid t [] [] none none [ch]) with
        | none =>
          simp only [hpath]
          exact ⟨Elem.mk rid t [] [] none none [ch], c, rfl,
            ⟨rid, t, ch, rfl, hch, htr, hts⟩⟩
        | some path =>
          obtain ⟨rest, hrest⟩ := pathToId_head i rid t [] [] none none [ch] path hpath
          subst hrest
          have hfetch : fetch2 "v" = some docV2 := rfl
          simp only [hpath, hfetch, locate_leafC j t none rest hts, merge_leafC]
          exact ⟨_, c + 2, rfl,
            invTree_replace rid t ch i c "c" (leafB (c + 1)) hch htr hts (Or.inr rfl)
              (Chain.lb (c + 1))⟩
      · rcases hor with hnode | hnode <;> subst hnode
        · have hattr : getAttr (Elem.mk j "b" [] [] none none [c']) "href" = none := rfl
          simp only [hattr]
          exact ⟨Elem.mk rid t [] [] none none [ch], c, rfl,
            ⟨rid, t, ch, rfl, hch, htr, hts⟩⟩
        · have hattr : getAttr (Elem.mk j "c" [] [] none none [c']) "href" = none := rfl
          simp only [hattr]
          exact ⟨Elem.mk rid t [] [] none none [ch], c, rfl,
            ⟨rid, t, ch, rfl, hch, htr, hts⟩⟩

theorem c10_snap : ∀ (L : List Nat) (T : Elem) (c : Nat), InvTree T →
    ∃ T' c', hydrateSnapshot fetch2 L T c = .ok (T', c') ∧ InvTree T' := by
  intro L
  induction L with
  | nil =>
    intro T c hT
    exact ⟨T, c, rfl, hT⟩
  | cons i is ih =>
    intro T c hT
    obtain ⟨T2, c2, hstep, hT2⟩ := c10_single T i c hT
    simp only [hydrateSnapshot, hstep]
    exact ih T2 c2 hT2

/-- `_hydrate_href_nodes` on this input runs forever: the fuel-indexed
embedding exhausts EVERY fuel bound (each bound is spent without the loop
exiting), which is exactly non-termination of the Python `while True`
loop. -/
def divergesOn (fetch : Fetcher) (e : Elem) (c : Nat) : Prop :=
  ∀ fuel : Nat, hydrateHrefNodes fetch fuel e c = .error .fuel

/-- C10, counterexample.  With two remote documents that refer back to each
other, `_hydrate_href_nodes` never reaches an `href`-free state: every
snapshot pass succeeds but leaves exactly one new `href` in the tree, so the
`while True` loop on the concrete cyclic input runs forever. -/
theorem c10_counterexample : divergesOn fetch2 cyc0 0 := by
  have main : ∀ (fuel : Nat) (T : Elem) (c : Nat), InvTree T →
      hydrateHrefNodes fetch2 fuel T c = .error .fuel := by
    intro fuel
    induction fuel with
    | zero => intro T c hT; rfl
    | succ f ih =>
      intro T c hT
      rw [hydrateHrefNodes]
      cases hsnap : (descWithAttr "href" T).map Elem.eid with
      | nil => exact absurd hsnap (invTree_desc_ne T hT)
      | cons n ns =>
        obtain ⟨T2, c2, hpass, hT2⟩ := c10_snap (n :: ns) T c hT
        simp only [hpass]
        exact ih T2 c2 hT2
  intro fuel
  exact main fuel cyc0 0 ⟨80, "a", leafB 81, rfl, Chain.lb 81, by decide, by decide⟩



/-! ## C10 amended: counting lemmas for the href-free-fetch case -/

theorem hrefCountList_append (xs ys : List Elem) :
    hrefCountList (xs ++ ys) = hrefCountList xs + hrefCountList ys := by
  induction xs with
  | nil => simp [hrefCountList]
  | cons x xs ih => simp [hrefCountList, ih]; omega

theorem hrefCount_withTail (e : Elem) (t : Option String) :
    hrefCount (e.withTail t) = hrefCount e := by
  cases e; rfl

theorem elemIds_eq (e : Elem) : elemIds e = e.eid :: elemIdsList e.children := by
  cases e; rfl

theorem find?_filter_self (l : List (String × String)) (k : String) :
    (l.filter (fun p => p.1 != k)).find? (fun p => p.1 == k) = none := by
  rw [List.find?_eq_none]
  intro p hp
  have := List.of_mem_filter hp
  simpa [bne, beq_iff_eq] using this

theorem hrefCount_popAttr_href (e : Elem) :
    hrefCount (popAttr e "href") = hrefCountList e.children := by
  cases e with
  | mk j tg a n tx tl ch =>
    simp only [popAttr, Elem.withAttrs, Elem.attrs, Elem.eid, Elem.tag, Elem.nsmap,
      Elem.text, Elem.tail, Elem.children, hrefCount, find?_filter_self]
    simp

theorem hrefCountList_children_le (e : Elem) :
    hrefCountList e.children ≤ hrefCount e := by
  cases e with
  | mk j tg a n tx tl ch =>
    simp only [Elem.children, hrefCount]
    omega

theorem hrefCount_zero_children (e : Elem) (h : hrefCount e = 0) :
    hrefCountList e.children = 0 := by
  have := hrefCountList_children_le e
  omega

theorem hrefCountList_zero_mem (es : List Elem) (h : hrefCountList es = 0) :
    ∀ e ∈ es, hrefCount e = 0 := by
  induction es with
  | nil => intro e he; simp at he
  | cons a as ih =>
    intro e he
    simp only [hrefCountList] at h
    rcases List.mem_cons.mp he with hh | ht
    · rw [hh]; omega
    · exact ih (by omega) e ht

theorem hrefCount_zero_find (e : Elem) (h : hrefCount e = 0) :
    e.attrs.find? (fun p => p.1 == "href") = none := by
  cases e with
  | mk j tg a n tx tl ch =>
    simp only [hrefCount, Elem.attrs] at h ⊢
    cases hfd : a.find? (fun p => p.1 == "href") with
    | none => rfl
    | some p => rw [hfd] at h; simp at h

theorem getAttr_href_of_zero (e : Elem) (h : hrefCount e = 0) :
    getAttr e "href" = none := by
  simp only [getAttr, hrefCount_zero_find e h, Option.map_none']

theorem hrefCount_of_getAttr (e : Elem) (v : String)
    (h : getAttr e "href" = some v) :
    hrefCount e = 1 + hrefCountList e.children := by
  cases e with
  | mk j tg a n tx tl ch =>
    simp only [getAttr, Elem.attrs, Option.map_eq_some'] at h
    obtain ⟨p, hp, _⟩ := h
    simp [hrefCount, Elem.children, hp, Option.isSome]

/-- Every node `iter(tag)` returns inside an href-free tree is href-free. -/
theorem iterTag_hf_main (tg : String) : ∀ (n : Nat),
    (∀ e, nodeCount e ≤ n → hrefCount e = 0 → ∀ m ∈ iterTag tg e, hrefCount m = 0) ∧
    (∀ es, nodeCountList es ≤ n → hrefCountList es = 0 →
      ∀ m ∈ iterTagList tg es, hrefCount m = 0) := by
  intro n
  induction n with
  | zero =>
    constructor
    · intro e hle
      have := nodeCount_pos e
      omega
    · intro es hle h0 m hm
      cases es with
      | nil => simp [iterTagList] at hm
      | cons e es =>
        have := nodeCount_pos e
        simp [nodeCountList] at hle
        omega
  | succ n ih =>
    have helem : ∀ e, nodeCount e ≤ n + 1 → hrefCount e = 0 →
        ∀ m ∈ iterTag tg e, hrefCount m = 0 := by
      intro e hle h0 m hm
      cases e with
      | mk j tg' a nm tx tl ch =>
        have hch : nodeCountList ch ≤ n := by
          simp [nodeCount] at hle; omega
        simp only [iterTag] at hm
        rcases List.mem_append.mp hm with hh | ht
        · have : m = Elem.mk j tg' a nm tx tl ch := by
            by_cases htag : (tg' == tg) = true
            · rw [if_pos htag] at hh
              simpa using hh
            · rw [if_neg htag] at hh
              simp at hh
          rw [this]
          exact h0
        · have hch0 : hrefCountList ch = 0 := by
            simp only [hrefCount] at h0
            omega
          exact ih.2 ch hch hch0 m ht
    refine ⟨helem, ?_⟩
    intro es hle h0 m hm
    cases es with
    | nil => simp [iterTagList] at hm
    | cons e es =>
      have h1 : nodeCount e ≤ n + 1 := by
        have := nodeCount_pos e
        simp [nodeCountList] at hle
        omega
      have h2 : nodeCountList es ≤ n := by
        have := nodeCount_pos e
        simp [nodeCountList] at hle
        omega
      simp only [iterTagList] at hm
      simp only [hrefCountList] at h0
      rcases List.mem_append.mp hm with hh | ht
      · exact helem e h1 (by omega) m hh
      · exact ih.2 es h2 (by omega) m ht

theorem iterTag_hf (tg : String) (e : Elem) (h : hrefCount e = 0) :
    ∀ m ∈ iterTag tg e, hrefCount m = 0 :=
  (iterTag_hf_main tg (nodeCount e)).1 e (Nat.le_refl _) h

theorem stepChildren_subset (e : Elem) (s : PathStep) :
    ∀ m ∈ stepChildren e s, m ∈ e.children := by
  obtain ⟨t0, o0⟩ := s
  intro m hm
  simp only [stepChildren] at hm
  cases o0 with
  | none => exact List.mem_of_mem_filter hm
  | some k =>
    exact List.mem_of_mem_filter
      (List.drop_subset _ _ (List.take_subset _ _ hm))

theorem resolvePath_hf (root : Elem) (p : List PathStep) (h : hrefCount root = 0) :
    ∀ m ∈ resolvePath root p, hrefCount m = 0 := by
  have hfold : ∀ (steps : List PathStep) (acc : List Elem),
      (∀ m ∈ acc, hrefCount m = 0) →
      ∀ m ∈ steps.foldl (fun acc s => acc.flatMap (fun e => stepChildren e s)) acc,
        hrefCount m = 0 := by
    intro steps
    induction steps with
    | nil => intro acc hacc m hm; exact hacc m hm
    | cons s rest ih =>
      intro acc hacc m hm
      simp only [List.foldl_cons] at hm
      refine ih _ ?_ m hm
      intro m' hm'
      rcases List.mem_flatMap.mp hm' with ⟨e, he, hstep⟩
      have he0 := hacc e he
      have hch0 := hrefCount_zero_children e he0
      exact hrefCountList_zero_mem e.children hch0 m' (stepChildren_subset e s m' hstep)
  intro m hm
  cases p with
  | nil => simp [resolvePath] at hm
  | cons st rest =>
    obtain ⟨t, o⟩ := st
    simp only [resolvePath] at hm
    by_cases htag : (root.tag == t) = true
    · rw [if_pos htag] at hm
      exact hfold rest [root] (by intro m' hm'; simpa using (List.mem_singleton.mp hm') ▸ h) m hm
    · rw [if_neg htag] at hm
      simp at hm

theorem tryAttrFn_mem (lo remoteRoot : Elem) (attr : String) (m : Elem)
    (h : tryAttrFn lo remoteRoot attr = some m) : m ∈ iterTag lo.tag remoteRoot := by
  simp only [tryAttrFn] at h
  by_cases hat : attrTruthy lo attr = true
  · rw [if_pos hat] at h
    cases hfil : (iterTag lo.tag remoteRoot).filter
        (fun e => getAttr e attr == getAttr lo attr) with
    | nil => simp only [hfil] at h; exact absurd h (by simp)
    | cons a rest =>
      cases rest with
      | nil =>
        simp only [hfil] at h
        injection h with h1
        have : a ∈ (iterTag lo.tag remoteRoot).filter
            (fun e => getAttr e attr == getAttr lo attr) := by
          rw [hfil]; exact List.mem_singleton_self a
        exact h1 ▸ List.mem_of_mem_filter this
      | cons b r2 => simp only [hfil] at h; exact absurd h (by simp)
  · rw [if_neg hat] at h
    exact absurd h (by simp)

theorem locateRemoteNode_cases (lo remoteRoot : Elem) (p : List PathStep) (m : Elem)
    (h : locateRemoteNode lo remoteRoot p = .ok m) :
    m ∈ resolvePath remoteRoot p ∨ m ∈ iterTag lo.tag remoteRoot := by
  have fallback : (match tryAttrFn lo remoteRoot "name" with
      | some m' => (.ok m' : Except HydErr Elem)
      | none =>
        match tryAttrFn lo remoteRoot "id" with
        | some m' => .ok m'
        | none =>
          match iterTag lo.tag remoteRoot with
          | [m'] => .ok m'
          | _ => .error (.err "Remote document does not contain a single match")) = .ok m →
      m ∈ iterTag lo.tag remoteRoot := by
    intro h'
    cases hn : tryAttrFn lo remoteRoot "name" with
    | some m' =>
      simp only [hn] at h'
      injection h' with h1
      exact h1 ▸ tryAttrFn_mem lo remoteRoot "name" m' hn
    | none =>
      simp only [hn] at h'
      cases hi : tryAttrFn lo remoteRoot "id" with
      | some m' =>
        simp only [hi] at h'
        injection h' with h1
        exact h1 ▸ tryAttrFn_mem lo remoteRoot "id" m' hi
      | none =>
        simp only [hi] at h'
        cases hit : iterTag lo.tag remoteRoot with
        | nil => simp only [hit] at h'; exact absurd h' (by simp)
        | cons a rest =>
          cases rest with
          | nil =>
            simp only [hit] at h'
            injection h' with h1
            rw [← h1]
            exact List.mem_singleton_self a
          | cons b r2 =>
            simp only [hit] at h'
            exact absurd h' (by simp)
  simp only [locateRemoteNode] at h
  cases hres : resolvePath remoteRoot p with
  | nil =>
    simp only [hres] at h
    exact Or.inr (fallback h)
  | cons m1 rest =>
    cases rest with
    | nil =>
      simp only [hres] at h
      injection h with h1
      refine Or.inl ?_
      rw [← h1]
      exact List.mem_singleton_self m1
    | cons m2 r2 =>
      simp only [hres] at h
      exact Or.inr (fallback h)

theorem locateRemoteNode_hf (lo remoteRoot : Elem) (p : List PathStep) (m : Elem)
    (hroot : hrefCount remoteRoot = 0)
    (h : locateRemoteNode lo remoteRoot p = .ok m) : hrefCount m = 0 := by
  rcases locateRemoteNode_cases lo remoteRoot p m h with hm | hm
  · exact resolvePath_hf remoteRoot p hroot m hm
  · exact iterTag_hf lo.tag remoteRoot hroot m hm


theorem deepcopy_hrefCount_main : ∀ (n : Nat),
    (∀ e, nodeCount e ≤ n → ∀ c, hrefCount (deepcopy c e).1 = hrefCount e) ∧
    (∀ es, nodeCountList es ≤ n → ∀ c,
      hrefCountList (deepcopyList c es).1 = hrefCountList es) := by
  intro n
  induction n with
  | zero =>
    constructor
    · intro e hle
      have := nodeCount_pos e
      omega
    · intro es hle c
      cases es with
      | nil => rfl
      | cons e es =>
        have := nodeCount_pos e
        simp [nodeCountList] at hle
        omega
  | succ n ih =>
    have helem : ∀ e, nodeCount e ≤ n + 1 → ∀ c,
        hrefCount (deepcopy c e).1 = hrefCount e := by
      intro e hle c
      cases e with
      | mk j tg a nm tx tl ch =>
        have hch : nodeCountList ch ≤ n := by
          simp [nodeCount] at hle; omega
        have hrec := ih.2 ch hch (c + 1)
        rcases hdc : deepcopyList (c + 1) ch with ⟨chs, c2⟩
        rw [hdc] at hrec
        replace hrec : hrefCountList chs = hrefCountList ch := hrec
        simp only [deepcopy, hdc, hrefCount]
        omega
    refine ⟨helem, ?_⟩
    intro es hle c
    cases es with
    | nil => rfl
    | cons e es =>
      have h1 : nodeCount e ≤ n + 1 := by
        have := nodeCount_pos e
        simp [nodeCountList] at hle
        omega
      have h2 : nodeCountList es ≤ n := by
        have := nodeCount_pos e
        simp [nodeCountList] at hle
        omega
      have he := helem e h1 c
      rcases hdc : deepcopy c e with ⟨e2, c1⟩
      rw [hdc] at he
      replace he : hrefCount e2 = hrefCount e := he
      have hes := ih.2 es h2 c1
      rcases hdl : deepcopyList c1 es with ⟨es2, c2⟩
      rw [hdl] at hes
      replace hes : hrefCountList es2 = hrefCountList es := hes
      simp only [deepcopyList, hdc, hdl, hrefCountList]
      omega

theorem deepcopy_hrefCount (e : Elem) (c : Nat) :
    hrefCount (deepcopy c e).1 = hrefCount e :=
  (deepcopy_hrefCount_main (nodeCount e)).1 e (Nat.le_refl _) c

theorem mergeExtras_hf (l : List (Nat × Elem)) :
    ∀ (c : Nat) (ks : List ChildKey) (sigs : List ChildSig),
      (∀ p ∈ l, hrefCount p.2 = 0) →
      hrefCountList (mergeExtras c ks sigs l).1 = 0 := by
  induction l with
  | nil => intro c ks sigs h; rfl
  | cons p rest ih =>
    intro c ks sigs h
    obtain ⟨idx, rc⟩ := p
    have hrc : hrefCount rc = 0 := h (idx, rc) (List.mem_cons_self _ _)
    have hrest : ∀ q ∈ rest, hrefCount q.2 = 0 :=
      fun q hq => h q (List.mem_cons_of_mem _ hq)
    simp only [mergeExtras]
    by_cases h1 : childKey rc idx ∈ ks
    · rw [if_pos h1]
      exact ih c ks sigs hrest
    · rw [if_neg h1]
      by_cases h2 : childSig rc ∈ sigs
      · rw [if_pos h2]
        exact ih c ks sigs hrest
      · rw [if_neg h2]
        have hcp := deepcopy_hrefCount rc c
        rcases hdc : deepcopy c rc with ⟨cp, c1⟩
        rw [hdc] at hcp
        replace hcp : hrefCount cp = hrefCount rc := hcp
        have hrec := ih c1 ks sigs hrest
        rcases hme : mergeExtras c1 ks sigs rest with ⟨ms, c2⟩
        rw [hme] at hrec
        replace hrec : hrefCountList ms = 0 := hrec
        simp only [hdc, hme, hrefCountList]
        omega

theorem enumFrom_snd_mem {α : Type} : ∀ (l : List α) (n : Nat) (p : Nat × α),
    p ∈ List.enumFrom n l → p.2 ∈ l := by
  intro l
  induction l with
  | nil => intro n p hp; simp at hp
  | cons a as ih =>
    intro n p hp
    simp only [List.enumFrom_cons] at hp
    rcases List.mem_cons.mp hp with hh | ht
    · rw [hh]
      exact List.mem_cons_self a as
    · exact List.mem_cons_of_mem a (ih (n + 1) p ht)

theorem lookupChild_mem (rch : List Elem) (k : ChildKey) (rc : Elem)
    (h : lookupChild rch k = some rc) : rc ∈ rch := by
  simp only [lookupChild, Option.map_eq_some'] at h
  obtain ⟨p, hp, hp2⟩ := h
  have hmem := List.mem_of_getLast?_eq_some hp
  have := List.mem_of_mem_filter hmem
  rw [← hp2]
  exact enumFrom_snd_mem rch 0 p this

theorem merge_attr_href_none (loAttrs reAttrs : List (String × String))
    (hre : reAttrs.find? (fun p => p.1 == "href") = none) :
    ((loAttrs.foldl (fun a p => if p.1 == "href" then a else setPair a p.1 p.2)
      (reAttrs.foldl (fun a p => setPair a p.1 p.2) [])).find?
        (fun p => p.1 == "href")) = none := by
  have h1 : lookupA (loAttrs.foldl
      (fun a p => if p.1 == "href" then a else setPair a p.1 p.2)
      (reAttrs.foldl (fun a p => setPair a p.1 p.2) [])) "href" = none := by
    rw [foldl_setSkip_lookup, lastVal_filter_self, foldl_setPair_lookup]
    have h3 : reAttrs.reverse.find? (fun p => p.1 == "href") = none := by
      rw [List.find?_eq_none]
      intro p hp
      exact List.find?_eq_none.mp hre p (List.mem_reverse.mp hp)
    have h2 : lastVal reAttrs "href" = none := by
      rw [lastVal, h3]
      rfl
    rw [h2]
    rfl
  simpa [lookupA, Option.map_eq_none'] using h1

theorem mergeNodesF_count_main : ∀ (f : Nat),
    (∀ c lo re, hrefCount re = 0 →
      hrefCount (mergeNodesF f c lo re).1 ≤ hrefCountList lo.children) ∧
    (∀ c rch idx lcs, hrefCountList rch = 0 →
      hrefCountList (mergeChildrenF f c rch idx lcs).1 ≤ hrefCountList lcs) := by
  intro f
  induction f with
  | zero =>
    constructor
    · intro c lo re hre
      simp [mergeNodesF, hrefCount, hrefCountList]
    · intro c rch idx lcs hrch
      simp [mergeChildrenF, hrefCountList]
  | succ f ih =>
    constructor
    · intro c lo re hre
      have hrch : hrefCountList re.children = 0 := hrefCount_zero_children re hre
      have hchild := ih.2 (c + 1) re.children 0 lo.children hrch
      rcases hmc : mergeChildrenF f (c + 1) re.children 0 lo.children with ⟨mch, ks, c1⟩
      rw [hmc] at hchild
      replace hchild : hrefCountList mch ≤ hrefCountList lo.children := hchild
      have hext : hrefCountList (mergeExtras c1 ks (lo.children.map childSig)
          re.children.enum).1 = 0 := by
        refine mergeExtras_hf re.children.enum c1 ks (lo.children.map childSig) ?_
        intro p hp
        exact hrefCountList_zero_mem re.children hrch p.2 (enumFrom_snd_mem _ _ p hp)
      rcases hme : mergeExtras c1 ks (lo.children.map childSig) re.children.enum
        with ⟨ext, c2⟩
      rw [hme] at hext
      replace hext : hrefCountList ext = 0 := hext
      have hroot : ((lo.attrs.foldl
          (fun a p => if p.1 == "href" then a else setPair a p.1 p.2)
          (re.attrs.foldl (fun a p => setPair a p.1 p.2) [])).find?
            (fun p => p.1 == "href")) = none :=
        merge_attr_href_none lo.attrs re.attrs (hrefCount_zero_find re hre)
      simp only [mergeNodesF, hmc, hme, hrefCount, hroot, hrefCountList_append,
        Option.isSome_none, Bool.false_eq_true, if_false]
      omega
    · intro c rch idx lcs hrch
      cases lcs with
      | nil => simp [mergeChildrenF, hrefCountList]
      | cons lc rest =>
        simp only [mergeChildrenF]
        cases hlk : lookupChild rch (childKey lc idx) with
        | some rc =>
          have hrc : hrefCount rc = 0 :=
            hrefCountList_zero_mem rch hrch rc (lookupChild_mem rch _ rc hlk)
          have hm := ih.1 c lc rc hrc
          rcases hmn : mergeNodesF f c lc rc with ⟨m, c1⟩
          rw [hmn] at hm
          replace hm : hrefCount m ≤ hrefCountList lc.children := hm
          have hrest := ih.2 c1 rch (idx + 1) rest hrch
          rcases hmc : mergeChildrenF f c1 rch (idx + 1) rest with ⟨ms, ks, c2⟩
          rw [hmc] at hrest
          replace hrest : hrefCountList ms ≤ hrefCountList rest := hrest
          have hlc := hrefCountList_children_le lc
          simp only [hmn, hmc, hrefCountList]
          omega
        | none =>
          have hcp := deepcopy_hrefCount lc c
          rcases hdc : deepcopy c lc with ⟨cp, c1⟩
          rw [hdc] at hcp
          replace hcp : hrefCount cp = hrefCount lc := hcp
          have hrest := ih.2 c1 rch (idx + 1) rest hrch
          rcases hmc : mergeChildrenF f c1 rch (idx + 1) rest with ⟨ms, ks, c2⟩
          rw [hmc] at hrest
          replace hrest : hrefCountList ms ≤ hrefCountList rest := hrest
          have hlc := hrefCountList_children_le lc
          simp only [hdc, hmc, hrefCountList]
          omega

theorem mergeNodes_count (c : Nat) (lo re : Elem) (hre : hrefCount re = 0) :
    hrefCount (mergeNodes c lo re).1 ≤ hrefCountList lo.children :=
  (mergeNodesF_count_main (4 * nodeCount lo + 4)).1 c lo re hre



theorem hrefCountList_eq_sum (ts : List Elem) :
    hrefCountList ts = (ts.map hrefCount).sum := by
  induction ts with
  | nil => rfl
  | cons e es ih => simp [hrefCountList, ih]

theorem elemIdsList_count_eq_sum (x : Nat) (ts : List Elem) :
    (elemIdsList ts).count x = (ts.map (fun e => (elemIds e).count x)).sum := by
  induction ts with
  | nil => rfl
  | cons e es ih => simp [elemIdsList, List.count_append, ih]

/-- Because `findById` and `replaceById` walk the tree in the same order,
replacing the found node swaps its weight for the new node's weight, for any
per-node weight that adds up over children. -/
theorem replaceById_weight_main (w : Elem → Nat)
    (hw : ∀ (j : Nat) (tg : String) (a n : List (String × String))
      (tx tl : Option String) (ch : List Elem),
      w (Elem.mk j tg a n tx tl ch) =
        w (Elem.mk j tg a n tx tl []) + (ch.map w).sum) :
    ∀ (N : Nat),
      (∀ t, nodeCount t ≤ N → ∀ (i : Nat) (new node : Elem),
        findById i t = some node →
        w (replaceById i new t) + w node = w t + w new) ∧
      (∀ ts, nodeCountList ts ≤ N → ∀ (i : Nat) (new node : Elem),
        findByIdList i ts = some node →
        ((replaceByIdList i new ts).map w).sum + w node = (ts.map w).sum + w new) := by
  intro N
  induction N with
  | zero =>
    constructor
    · intro t hle
      have := nodeCount_pos t
      omega
    · intro ts hle i new node h
      cases ts with
      | nil => simp [findByIdList] at h
      | cons e es =>
        have := nodeCount_pos e
        simp [nodeCountList] at hle
        omega
  | succ N ih =>
    have helem : ∀ t, nodeCount t ≤ N + 1 → ∀ (i : Nat) (new node : Elem),
        findById i t = some node →
        w (replaceById i new t) + w node = w t + w new := by
      intro t hle i new node h
      cases t with
      | mk j tg a nm tx tl ch =>
        have hch : nodeCountList ch ≤ N := by
          simp [nodeCount] at hle; omega
        simp only [findById] at h
        simp only [replaceById]
        by_cases hj : (j == i) = true
        · rw [if_pos hj] at h
          rw [if_pos hj]
          injection h with h1
          rw [← h1]
          omega
        · rw [if_neg hj] at h
          rw [if_neg hj]
          have hlist := ih.2 ch hch i new node h
          rw [hw j tg a nm tx tl (replaceByIdList i new ch), hw j tg a nm tx tl ch]
          omega
    refine ⟨helem, ?_⟩
    intro ts hle i new node h
    cases ts with
    | nil => simp [findByIdList] at h
    | cons e es =>
      have h1 : nodeCount e ≤ N + 1 := by
        have := nodeCount_pos e
        simp [nodeCountList] at hle
        omega
      have h2 : nodeCountList es ≤ N := by
        have := nodeCount_pos e
        simp [nodeCountList] at hle
        omega
      simp only [findByIdList] at h
      simp only [replaceByIdList]
      cases hf : findById i e with
      | some r =>
        rw [hf] at h
        injection h with hnode
        rw [if_pos (show ((some r : Option Elem)).isSome = true from rfl)]
        have := helem e h1 i new r hf
        simp only [List.map_cons, List.sum_cons]
        rw [← hnode]
        omega
      | none =>
        rw [hf] at h
        rw [if_neg (show ¬(((none : Option Elem)).isSome = true) from by simp)]
        have := ih.2 es h2 i new node h
        simp only [List.map_cons, List.sum_cons]
        omega

theorem replaceById_hrefCount (t : Elem) (i : Nat) (new node : Elem)
    (h : findById i t = some node) :
    hrefCount (replaceById i new t) + hrefCount node = hrefCount t + hrefCount new := by
  refine (replaceById_weight_main hrefCount ?_ (nodeCount t)).1 t (Nat.le_refl _)
    i new node h
  intro j tg a n tx tl ch
  show (if (a.find? (fun p => p.1 == "href")).isSome then 1 else 0) + hrefCountList ch = _
  rw [hrefCountList_eq_sum]
  show _ = (if (a.find? (fun p => p.1 == "href")).isSome then 1 else 0) +
    hrefCountList ([] : List Elem) + (ch.map hrefCount).sum
  simp [hrefCountList]

theorem replaceById_occ (x : Nat) (t : Elem) (i : Nat) (new node : Elem)
    (h : findById i t = some node) :
    (elemIds (replaceById i new t)).count x + (elemIds node).count x =
      (elemIds t).count x + (elemIds new).count x := by
  refine (replaceById_weight_main (fun e => (elemIds e).count x) ?_
    (nodeCount t)).1 t (Nat.le_refl _) i new node h
  intro j tg a n tx tl ch
  show (elemIds (Elem.mk j tg a n tx tl ch)).count x =
      (elemIds (Elem.mk j tg a n tx tl [])).count x +
        (ch.map (fun e => (elemIds e).count x)).sum
  rw [elemIds_eq (Elem.mk j tg a n tx tl ch), elemIds_eq (Elem.mk j tg a n tx tl [])]
  simp only [Elem.eid, Elem.children, List.count_cons, elemIdsList, List.count_nil]
  rw [elemIdsList_count_eq_sum]
  omega

/-! Fresh-allocation ranges: every identity a copy or merge creates lies in
the consumed counter interval, without repetition. -/

def Alloc (c c' : Nat) (ids : List Nat) : Prop :=
  (∀ i ∈ ids, c ≤ i ∧ i < c') ∧ ids.Nodup

theorem allocAppend (c c1 c2 : Nat) (ids1 ids2 : List Nat)
    (h1 : Alloc c c1 ids1) (h2 : Alloc c1 c2 ids2) (hc01 : c ≤ c1) (hc12 : c1 ≤ c2) :
    Alloc c c2 (ids1 ++ ids2) := by
  obtain ⟨hb1, hn1⟩ := h1
  obtain ⟨hb2, hn2⟩ := h2
  refine ⟨?_, ?_⟩
  · intro i hi
    rcases List.mem_append.mp hi with hh | ht
    · have := hb1 i hh; omega
    · have := hb2 i ht; omega
  · refine hn1.append hn2 ?_
    intro a ha1 ha2
    have := hb1 a ha1
    have := hb2 a ha2
    omega

theorem allocWeaken (c c' c0 c1 : Nat) (ids : List Nat) (h : Alloc c c' ids)
    (h0 : c0 ≤ c) (h1 : c' ≤ c1) : Alloc c0 c1 ids := by
  obtain ⟨hb, hn⟩ := h
  refine ⟨?_, hn⟩
  intro i hi
  have := hb i hi
  omega

theorem deepcopy_alloc_main : ∀ (N : Nat),
    (∀ e, nodeCount e ≤ N → ∀ c,
      Alloc c (deepcopy c e).2 (elemIds (deepcopy c e).1) ∧ c < (deepcopy c e).2) ∧
    (∀ es, nodeCountList es ≤ N → ∀ c,
      Alloc c (deepcopyList c es).2 (elemIdsList (deepcopyList c es).1) ∧
        c ≤ (deepcopyList c es).2) := by
  intro N
  induction N with
  | zero =>
    constructor
    · intro e hle
      have := nodeCount_pos e
      omega
    · intro es hle c
      cases es with
      | nil => exact ⟨⟨by intro i hi; simp [deepcopyList, elemIdsList] at hi, by
          simp [deepcopyList, elemIdsList]⟩, by simp [deepcopyList]⟩
      | cons e es =>
        have := nodeCount_pos e
        simp [nodeCountList] at hle
        omega
  | succ N ih =>
    have helem : ∀ e, nodeCount e ≤ N + 1 → ∀ c,
        Alloc c (deepcopy c e).2 (elemIds (deepcopy c e).1) ∧ c < (deepcopy c e).2 := by
      intro e hle c
      cases e with
      | mk j tg a nm tx tl ch =>
        have hch : nodeCountList ch ≤ N := by
          simp [nodeCount] at hle; omega
        obtain ⟨⟨hb, hn⟩, hlt⟩ := ih.2 ch hch (c + 1)
        rcases hdc : deepcopyList (c + 1) ch with ⟨chs, c2⟩
        rw [hdc] at hb hn hlt
        replace hb : ∀ i ∈ elemIdsList chs, c + 1 ≤ i ∧ i < c2 := hb
        replace hn : (elemIdsList chs).Nodup := hn
        replace hlt : c + 1 ≤ c2 := hlt
        simp only [deepcopy, hdc, elemIds_eq, Elem.eid, Elem.children]
        refine ⟨⟨?_, ?_⟩, by omega⟩
        · intro i hi
          rcases List.mem_cons.mp hi with hh | ht
          · omega
          · have := hb i ht; omega
        · rw [List.nodup_cons]
          refine ⟨?_, hn⟩
          intro hmem
          have := hb c hmem
          omega
    refine ⟨helem, ?_⟩
    intro es hle c
    cases es with
    | nil => exact ⟨⟨by intro i hi; simp [deepcopyList, elemIdsList] at hi, by
        simp [deepcopyList, elemIdsList]⟩, by simp [deepcopyList]⟩
    | cons e es =>
      have h1 : nodeCount e ≤ N + 1 := by
        have := nodeCount_pos e
        simp [nodeCountList] at hle
        omega
      have h2 : nodeCountList es ≤ N := by
        have := nodeCount_pos e
        simp [nodeCountList] at hle
        omega
      obtain ⟨ha1, hlt1⟩ := helem e h1 c
      rcases hdc : deepcopy c e with ⟨e2, c1⟩
      rw [hdc] at ha1 hlt1
      replace ha1 : Alloc c c1 (elemIds e2) := ha1
      replace hlt1 : c < c1 := hlt1
      obtain ⟨ha2, hlt2⟩ := ih.2 es h2 c1
      rcases hdl : deepcopyList c1 es with ⟨es2, c2⟩
      rw [hdl] at ha2 hlt2
      replace ha2 : Alloc c1 c2 (elemIdsList es2) := ha2
      replace hlt2 : c1 ≤ c2 := hlt2
      simp only [deepcopyList, hdc, hdl, elemIdsList]
      exact ⟨allocAppend c c1 c2 _ _ ha1 ha2 (by omega) hlt2, by omega⟩

theorem deepcopy_alloc (e : Elem) (c : Nat) :
    Alloc c (deepcopy c e).2 (elemIds (deepcopy c e).1) ∧ c < (deepcopy c e).2 :=
  (deepcopy_alloc_main (nodeCount e)).1 e (Nat.le_refl _) c

theorem mergeExtras_alloc (l : List (Nat × Elem)) :
    ∀ (c : Nat) (ks : List ChildKey) (sigs : List ChildSig),
      Alloc c (mergeExtras c ks sigs l).2 (elemIdsList (mergeExtras c ks sigs l).1) ∧
        c ≤ (mergeExtras c ks sigs l).2 := by
  induction l with
  | nil =>
    intro c ks sigs
    exact ⟨⟨by intro i hi; simp [mergeExtras, elemIdsList] at hi, by
      simp [mergeExtras, elemIdsList]⟩, by simp [mergeExtras]⟩
  | cons p rest ih =>
    intro c ks sigs
    obtain ⟨idx, rc⟩ := p
    simp only [mergeExtras]
    by_cases h1 : childKey rc idx ∈ ks
    · rw [if_pos h1]
      exact ih c ks sigs
    · rw [if_neg h1]
      by_cases h2 : childSig rc ∈ sigs
      · rw [if_pos h2]
        exact ih c ks sigs
      · rw [if_neg h2]
        obtain ⟨ha1, hlt1⟩ := deepcopy_alloc rc c
        rcases hdc : deepcopy c rc with ⟨cp, c1⟩
        rw [hdc] at ha1 hlt1
        replace ha1 : Alloc c c1 (elemIds cp) := ha1
        replace hlt1 : c < c1 := hlt1
        obtain ⟨ha2, hle2⟩ := ih c1 ks sigs
        rcases hme : mergeExtras c1 ks sigs rest with ⟨ms, c2⟩
        rw [hme] at ha2 hle2
        replace ha2 : Alloc c1 c2 (elemIdsList ms) := ha2
        replace hle2 : c1 ≤ c2 := hle2
        simp only [hdc, hme, elemIdsList]
        exact ⟨allocAppend c c1 c2 _ _ ha1 ha2 (by omega) hle2, by omega⟩

theorem mergeNodesF_alloc_main : ∀ (f : Nat),
    (∀ c lo re,
      Alloc c (mergeNodesF f c lo re).2 (elemIds (mergeNodesF f c lo re).1) ∧
        c < (mergeNodesF f c lo re).2) ∧
    (∀ c rch idx lcs,
      Alloc c (mergeChildrenF f c rch idx lcs).2.2
          (elemIdsList (mergeChildrenF f c rch idx lcs).1) ∧
        c ≤ (mergeChildrenF f c rch idx lcs).2.2) := by
  intro f
  induction f with
  | zero =>
    constructor
    · intro c lo re
      simp only [mergeNodesF, elemIds_eq, Elem.eid, Elem.children, elemIdsList]
      refine ⟨⟨?_, ?_⟩, by omega⟩
      · intro i hi
        simp at hi
        omega
      · simp
    · intro c rch idx lcs
      exact ⟨⟨by intro i hi; simp [mergeChildrenF, elemIdsList] at hi, by
        simp [mergeChildrenF, elemIdsList]⟩, by simp [mergeChildrenF]⟩
  | succ f ih =>
    constructor
    · intro c lo re
      cases lo with
      | mk lid ltg lat lns ltx ltl lch =>
        cases re with
        | mk rid2 rtg rat rns rtx rtl rch =>
          obtain ⟨ha1, hle1⟩ := ih.2 (c + 1) rch 0 lch
          rcases hmc : mergeChildrenF f (c + 1) rch 0 lch with ⟨mch, ks, c1⟩
          rw [hmc] at ha1 hle1
          replace ha1 : Alloc (c + 1) c1 (elemIdsList mch) := ha1
          replace hle1 : c + 1 ≤ c1 := hle1
          obtain ⟨ha2, hle2⟩ := mergeExtras_alloc rch.enum c1 ks (lch.map childSig)
          rcases hme : mergeExtras c1 ks (lch.map childSig) rch.enum with ⟨ext, c2⟩
          rw [hme] at ha2 hle2
          replace ha2 : Alloc c1 c2 (elemIdsList ext) := ha2
          replace hle2 : c1 ≤ c2 := hle2
          simp only [mergeNodesF, Elem.children, Elem.attrs, Elem.text, Elem.tag,
            Elem.nsmap, Elem.tail, hmc, hme, elemIds_eq, Elem.eid, elemIdsList_append]
          have happ : Alloc (c + 1) c2 (elemIdsList mch ++ elemIdsList ext) :=
            allocAppend (c + 1) c1 c2 _ _ ha1 ha2 hle1 hle2
          obtain ⟨hb, hn⟩ := happ
          refine ⟨⟨?_, ?_⟩, by omega⟩
          · intro i hi
            rcases List.mem_cons.mp hi with hh | ht
            · omega
            · have := hb i ht; omega
          · rw [List.nodup_cons]
            refine ⟨?_, hn⟩
            intro hmem
            have := hb c hmem
            omega
    · intro c rch idx lcs
      cases lcs with
      | nil =>
        exact ⟨⟨by intro i hi; simp [mergeChildrenF, elemIdsList] at hi, by
          simp [mergeChildrenF, elemIdsList]⟩, by simp [mergeChildrenF]⟩
      | cons lc rest =>
        simp only [mergeChildrenF]
        cases hlk : lookupChild rch (childKey lc idx) with
        | some rc =>
          obtain ⟨ha1, hlt1⟩ := ih.1 c lc rc
          rcases hmn : mergeNodesF f c lc rc with ⟨m, c1⟩
          rw [hmn] at ha1 hlt1
          replace ha1 : Alloc c c1 (elemIds m) := ha1
          replace hlt1 : c < c1 := hlt1
          obtain ⟨ha2, hle2⟩ := ih.2 c1 rch (idx + 1) rest
          rcases hmc : mergeChildrenF f c1 rch (idx + 1) rest with ⟨ms, ks, c2⟩
          rw [hmc] at ha2 hle2
          replace ha2 : Alloc c1 c2 (elemIdsList ms) := ha2
          replace hle2 : c1 ≤ c2 := hle2
          simp only [hmn, hmc, elemIdsList]
          exact ⟨allocAppend c c1 c2 _ _ ha1 ha2 (by omega) hle2, by omega⟩
        | none =>
          obtain ⟨ha1, hlt1⟩ := deepcopy_alloc lc c
          rcases hdc : deepcopy c lc with ⟨cp, c1⟩
          rw [hdc] at ha1 hlt1
          replace ha1 : Alloc c c1 (elemIds cp) := ha1
          replace hlt1 : c < c1 := hlt1
          obtain ⟨ha2, hle2⟩ := ih.2 c1 rch (idx + 1) rest
          rcases hmc : mergeChildrenF f c1 rch (idx + 1) rest with ⟨ms, ks, c2⟩
          rw [hmc] at ha2 hle2
          replace ha2 : Alloc c1 c2 (elemIdsList ms) := ha2
          replace hle2 : c1 ≤ c2 := hle2
          simp only [hdc, hmc, elemIdsList]
          exact ⟨allocAppend c c1 c2 _ _ ha1 ha2 (by omega) hle2, by omega⟩

theorem mergeNodes_alloc (c : Nat) (lo re : Elem) :
    Alloc c (mergeNodes c lo re).2 (elemIds (mergeNodes c lo re).1) ∧
      c < (mergeNodes c lo re).2 :=
  (mergeNodesF_alloc_main (4 * nodeCount lo + 4)).1 c lo re



theorem findById_ids_main : ∀ (N : Nat),
    (∀ t, nodeCount t ≤ N → ∀ (i : Nat) (node : Elem), findById i t = some node →
      i ∈ elemIds t ∧ ∀ x ∈ elemIds node, x ∈ elemIds t) ∧
    (∀ ts, nodeCountList ts ≤ N → ∀ (i : Nat) (node : Elem),
      findByIdList i ts = some node →
      i ∈ elemIdsList ts ∧ ∀ x ∈ elemIds node, x ∈ elemIdsList ts) := by
  intro N
  induction N with
  | zero =>
    constructor
    · intro t hle
      have := nodeCount_pos t
      omega
    · intro ts hle i node h
      cases ts with
      | nil => simp [findByIdList] at h
      | cons e es =>
        have := nodeCount_pos e
        simp [nodeCountList] at hle
        omega
  | succ N ih =>
    have helem : ∀ t, nodeCount t ≤ N + 1 → ∀ (i : Nat) (node : Elem),
        findById i t = some node →
        i ∈ elemIds t ∧ ∀ x ∈ elemIds node, x ∈ elemIds t := by
      intro t hle i node h
      cases t with
      | mk j tg a nm tx tl ch =>
        have hch : nodeCountList ch ≤ N := by
          simp [nodeCount] at hle; omega
        simp only [findById] at h
        by_cases hj : (j == i) = true
        · rw [if_pos hj] at h
          injection h with h1
          have hji : j = i := by simpa [beq_iff_eq] using hj
          rw [← h1]
          exact ⟨by rw [elemIds_eq, ← hji]; exact List.mem_cons_self _ _,
            fun x hx => hx⟩
        · rw [if_neg hj] at h
          obtain ⟨hi, hsub⟩ := ih.2 ch hch i node h
          rw [elemIds_eq]
          exact ⟨List.mem_cons_of_mem _ hi, fun x hx => List.mem_cons_of_mem _ (hsub x hx)⟩
    refine ⟨helem, ?_⟩
    intro ts hle i node h
    cases ts with
    | nil => simp [findByIdList] at h
    | cons e es =>
      have h1 : nodeCount e ≤ N + 1 := by
        have := nodeCount_pos e
        simp [nodeCountList] at hle
        omega
      have h2 : nodeCountList es ≤ N := by
        have := nodeCount_pos e
        simp [nodeCountList] at hle
        omega
      simp only [findByIdList] at h
      cases hf : findById i e with
      | some r =>
        rw [hf] at h
        injection h with h1'
        obtain ⟨hi, hsub⟩ := helem e h1 i r hf
        rw [← h1']
        simp only [elemIdsList]
        exact ⟨List.mem_append.mpr (Or.inl hi),
          fun x hx => List.mem_append.mpr (Or.inl (hsub x hx))⟩
      | none =>
        rw [hf] at h
        obtain ⟨hi, hsub⟩ := ih.2 es h2 i node h
        simp only [elemIdsList]
        exact ⟨List.mem_append.mpr (Or.inr hi),
          fun x hx => List.mem_append.mpr (Or.inr (hsub x hx))⟩

theorem findById_mem (t : Elem) (i : Nat) (node : Elem)
    (h : findById i t = some node) : i ∈ elemIds t :=
  ((findById_ids_main (nodeCount t)).1 t (Nat.le_refl _) i node h).1

theorem findById_ids_subset (t : Elem) (i : Nat) (node : Elem)
    (h : findById i t = some node) : ∀ x ∈ elemIds node, x ∈ elemIds t :=
  ((findById_ids_main (nodeCount t)).1 t (Nat.le_refl _) i node h).2

theorem findById_none (t : Elem) (i : Nat) (h : i ∉ elemIds t) :
    findById i t = none := by
  cases hf : findById i t with
  | none => rfl
  | some node => exact absurd (findById_mem t i node hf) h

theorem findById_self (e : Elem) : findById e.eid e = some e := by
  cases e with
  | mk j tg a nm tx tl ch =>
    simp [findById, Elem.eid]

/-- On a duplicate-free tree, every snapshot node is found again by its
identity, satisfies the snapshot predicate, and sits strictly below the
root. -/
theorem desc_main : ∀ (N : Nat),
    (∀ t, nodeCount t ≤ N → ∀ (p : Elem → Bool) (n : Elem), n ∈ descWhere p t →
      p n = true ∧ n.eid ∈ elemIdsList t.children ∧
      ((elemIds t).Nodup → findById n.eid t = some n)) ∧
    (∀ ts, nodeCountList ts ≤ N → ∀ (p : Elem → Bool) (n : Elem),
      n ∈ descWhereList p ts →
      p n = true ∧ n.eid ∈ elemIdsList ts ∧
      ((elemIdsList ts).Nodup → findByIdList n.eid ts = some n)) := by
  intro N
  induction N with
  | zero =>
    constructor
    · intro t hle
      have := nodeCount_pos t
      omega
    · intro ts hle p n hn
      cases ts with
      | nil => simp [descWhereList] at hn
      | cons e es =>
        have := nodeCount_pos e
        simp [nodeCountList] at hle
        omega
  | succ N ih =>
    have helem : ∀ t, nodeCount t ≤ N + 1 → ∀ (p : Elem → Bool) (n : Elem),
        n ∈ descWhere p t →
        p n = true ∧ n.eid ∈ elemIdsList t.children ∧
        ((elemIds t).Nodup → findById n.eid t = some n) := by
      intro t hle p n hn
      cases t with
      | mk j tg a nm tx tl ch =>
        have hch : nodeCountList ch ≤ N := by
          simp [nodeCount] at hle; omega
        simp only [descWhere] at hn
        obtain ⟨hp, hmem, hfind⟩ := ih.2 ch hch p n hn
        refine ⟨hp, by simpa [Elem.children] using hmem, ?_⟩
        intro hnd
        rw [elemIds_eq] at hnd
        simp only [Elem.eid, Elem.children] at hnd
        rw [List.nodup_cons] at hnd
        have hne : (j == n.eid) = false := by
          rw [beq_eq_false_iff_ne]
          intro hc
          exact hnd.1 (hc ▸ hmem)
        simp only [findById, hne, Bool.false_eq_true, if_false]
        exact hfind hnd.2
    refine ⟨helem, ?_⟩
    intro ts hle p n hn
    cases ts with
    | nil => simp [descWhereList] at hn
    | cons e es =>
      have h1 : nodeCount e ≤ N + 1 := by
        have := nodeCount_pos e
        simp [nodeCountList] at hle
        omega
      have h2 : nodeCountList es ≤ N := by
        have := nodeCount_pos e
        simp [nodeCountList] at hle
        omega
      simp only [descWhereList] at hn
      rcases List.mem_append.mp hn with hn1 | hn2
      · rcases List.mem_append.mp hn1 with hh | hd
        · -- n = e (only possible when p e)
          by_cases hpe : p e = true
          · rw [if_pos hpe] at hh
            have hne : n = e := by simpa using hh
            subst hne
            refine ⟨hpe, ?_, ?_⟩
            · simp only [elemIdsList]
              refine List.mem_append.mpr (Or.inl ?_)
              rw [elemIds_eq]
              exact List.mem_cons_self _ _
            · intro hnd
              simp only [findByIdList, findById_self]
          · rw [if_neg hpe] at hh
            simp at hh
        · -- n is a strict descendant of e
          obtain ⟨hp, hmem, hfind⟩ := helem e h1 p n hd
          have hmem' : n.eid ∈ elemIds e := by
            rw [elemIds_eq]
            exact List.mem_cons_of_mem _ hmem
          refine ⟨hp, by simp only [elemIdsList]; exact List.mem_append.mpr (Or.inl hmem'), ?_⟩
          intro hnd
          simp only [elemIdsList] at hnd
          have hnde : (elemIds e).Nodup := List.Nodup.of_append_left hnd
          simp only [findByIdList, hfind hnde]
      · -- n is a descendant inside es
        obtain ⟨hp, hmem, hfind⟩ := ih.2 es h2 p n hn2
        refine ⟨hp, by simp only [elemIdsList]; exact List.mem_append.mpr (Or.inr hmem), ?_⟩
        intro hnd
        simp only [elemIdsList] at hnd
        rw [List.nodup_append] at hnd
        have hnot : n.eid ∉ elemIds e := fun hc => hnd.2.2 hc hmem
        simp only [findByIdList, findById_none e n.eid hnot]
        exact hfind hnd.2.1

theorem descWithAttr_found (t : Elem) (n : Elem) (hnd : (elemIds t).Nodup)
    (hn : n ∈ descWithAttr "href" t) :
    findById n.eid t = some n ∧ (getAttr n "href").isSome = true :=
  ⟨((desc_main (nodeCount t)).1 t (Nat.le_refl _) _ n hn).2.2 hnd,
   ((desc_main (nodeCount t)).1 t (Nat.le_refl _) _ n hn).1⟩

theorem pathToId_ne_nil (i : Nat) (t : Elem) (p : List PathStep)
    (h : pathToId i t = some p) : p ≠ [] := by
  cases t with
  | mk j tg a nm tx tl ch =>
    obtain ⟨rest, hrest⟩ := pathToId_head i j tg a nm tx tl ch p h
    rw [hrest]
    simp

theorem pathToId_isSome_main (i : Nat) : ∀ (N : Nat),
    (∀ t, nodeCount t ≤ N → (pathToId i t).isSome = (findById i t).isSome) ∧
    (∀ ts, nodeCountList ts ≤ N → ∀ (all : List Elem),
      (pathToIdChildren i all ts).isSome = (findByIdList i ts).isSome) := by
  intro N
  induction N with
  | zero =>
    constructor
    · intro t hle
      have := nodeCount_pos t
      omega
    · intro ts hle all
      cases ts with
      | nil => simp [pathToIdChildren, findByIdList]
      | cons e es =>
        have := nodeCount_pos e
        simp [nodeCountList] at hle
        omega
  | succ N ih =>
    have helem : ∀ t, nodeCount t ≤ N + 1 →
        (pathToId i t).isSome = (findById i t).isSome := by
      intro t hle
      cases t with
      | mk j tg a nm tx tl ch =>
        have hch : nodeCountList ch ≤ N := by
          simp [nodeCount] at hle; omega
        simp only [pathToId, findById]
        by_cases hj : (j == i) = true
        · rw [if_pos hj, if_pos hj]
          rfl
        · rw [if_neg hj, if_neg hj]
          have := ih.2 ch hch ch
          cases hpc : pathToIdChildren i ch ch with
          | some rest =>
            rw [hpc] at this
            simp only [Option.isSome] at this ⊢
            exact this
          | none =>
            rw [hpc] at this
            simp only [Option.isSome] at this ⊢
            exact this
    refine ⟨helem, ?_⟩
    intro ts hle all
    cases ts with
    | nil => simp [pathToIdChildren, findByIdList]
    | cons e es =>
      have h1 : nodeCount e ≤ N + 1 := by
        have := nodeCount_pos e
        simp [nodeCountList] at hle
        omega
      have h2 : nodeCountList es ≤ N := by
        have := nodeCount_pos e
        simp [nodeCountList] at hle
        omega
      simp only [pathToIdChildren, findByIdList]
      have hsub : (pathToIdSub i all e).isSome = (findById i e).isSome := by
        simp only [pathToIdSub]
        cases hp : pathToId i e with
        | none =>
          have := helem e h1
          rw [hp] at this
          simp only [Option.isSome] at this
          cases hf : findById i e with
          | none => rfl
          | some r => rw [hf] at this; simp at this
        | some rest =>
          have hne := pathToId_ne_nil i e rest hp
          have := helem e h1
          rw [hp] at this
          cases rest with
          | nil => exact absurd rfl hne
          | cons r0 rtail =>
            simp only [Option.isSome] at this
            cases hf : findById i e with
            | none => rw [hf] at this; simp at this
            | some r => rfl
      cases hps : pathToIdSub i all e with
      | some pth =>
        rw [hps] at hsub
        cases hf : findById i e with
        | some r => rfl
        | none => rw [hf] at hsub; simp at hsub
      | none =>
        rw [hps] at hsub
        cases hf : findById i e with
        | some r => rw [hf] at hsub; simp at hsub
        | none => exact ih.2 es h2 all

theorem pathToId_isSome (i : Nat) (t : Elem) (node : Elem)
    (h : findById i t = some node) : ∃ p, pathToId i t = some p := by
  have := (pathToId_isSome_main i (nodeCount t)).1 t (Nat.le_refl _)
  rw [h] at this
  simp only [Option.isSome] at this
  cases hp : pathToId i t with
  | some p => exact ⟨p, rfl⟩
  | none => rw [hp] at this; simp at this

/-- An href-free tree has an empty `.//*[@href]` snapshot. -/
theorem descWithAttr_zero_main : ∀ (N : Nat),
    (∀ t, nodeCount t ≤ N → hrefCount t = 0 →
      descWhere (fun d => (getAttr d "href").isSome) t = []) ∧
    (∀ ts, nodeCountList ts ≤ N → hrefCountList ts = 0 →
      descWhereList (fun d => (getAttr d "href").isSome) ts = []) := by
  intro N
  induction N with
  | zero =>
    constructor
    · intro t hle
      have := nodeCount_pos t
      omega
    · intro ts hle h0
      cases ts with
      | nil => rfl
      | cons e es =>
        have := nodeCount_pos e
        simp [nodeCountList] at hle
        omega
  | succ N ih =>
    have helem : ∀ t, nodeCount t ≤ N + 1 → hrefCount t = 0 →
        descWhere (fun d => (getAttr d "href").isSome) t = [] := by
      intro t hle h0
      cases t with
      | mk j tg a nm tx tl ch =>
        have hch : nodeCountList ch ≤ N := by
          simp [nodeCount] at hle; omega
        have hch0 : hrefCountList ch = 0 := by
          simp only [hrefCount] at h0; omega
        simp only [descWhere]
        exact ih.2 ch hch hch0
    refine ⟨helem, ?_⟩
    intro ts hle h0
    cases ts with
    | nil => rfl
    | cons e es =>
      have h1 : nodeCount e ≤ N + 1 := by
        have := nodeCount_pos e
        simp [nodeCountList] at hle
        omega
      have h2 : nodeCountList es ≤ N := by
        have := nodeCount_pos e
        simp [nodeCountList] at hle
        omega
      simp only [hrefCountList] at h0
      have he0 : hrefCount e = 0 := by omega
      have hgz : (getAttr e "href").isSome = false := by
        rw [getAttr_href_of_zero e he0]
        rfl
      simp only [descWhereList, hgz, Bool.false_eq_true, if_false, List.nil_append,
        helem e h1 he0, ih.2 es h2 (by omega), List.append_nil]

theorem descWithAttr_pos (t : Elem) (n : Elem) (ds : List Elem)
    (h : descWithAttr "href" t = n :: ds) : 1 ≤ hrefCount t := by
  by_cases h0 : hrefCount t = 0
  · have := (descWithAttr_zero_main (nodeCount t)).1 t (Nat.le_refl _) h0
    rw [descWithAttr] at h
    rw [this] at h
    simp at h
  · omega

theorem locate_fallback_no_fuel (lo remoteRoot : Elem) (x : HydErr)
    (h : (match tryAttrFn lo remoteRoot "name" with
      | some m' => (.ok m' : Except HydErr Elem)
      | none =>
        match tryAttrFn lo remoteRoot "id" with
        | some m' => .ok m'
        | none =>
          match iterTag lo.tag remoteRoot with
          | [m'] => .ok m'
          | _ => .error (.err "Remote document does not contain a single match")) =
        .error x) : x ≠ .fuel := by
  cases hn : tryAttrFn lo remoteRoot "name" with
  | some m' => simp only [hn] at h; exact absurd h (by simp)
  | none =>
    simp only [hn] at h
    cases hi : tryAttrFn lo remoteRoot "id" with
    | some m' => simp only [hi] at h; exact absurd h (by simp)
    | none =>
      simp only [hi] at h
      cases hit : iterTag lo.tag remoteRoot with
      | nil =>
        simp only [hit] at h
        injection h with h1
        rw [← h1]
        simp
      | cons a rest =>
        cases rest with
        | nil => simp only [hit] at h; exact absurd h (by simp)
        | cons b r2 =>
          simp only [hit] at h
          injection h with h1
          rw [← h1]
          simp


theorem locateRemoteNode_no_fuel (lo remoteRoot : Elem) (p : List PathStep)
    (x : HydErr) (h : locateRemoteNode lo remoteRoot p = .error x) : x ≠ .fuel := by
  simp only [locateRemoteNode] at h
  cases hres : resolvePath remoteRoot p with
  | nil =>
    simp only [hres] at h
    exact locate_fallback_no_fuel lo remoteRoot x h
  | cons m1 rest =>
    cases rest with
    | nil => simp only [hres] at h; exact absurd h (by simp)
    | cons m2 r2 =>
      simp only [hres] at h
      exact locate_fallback_no_fuel lo remoteRoot x h


theorem hydrateSingleNode_no_fuel (fetch : Fetcher) (tree : Elem) (i c : Nat)
    (x : HydErr) (h : hydrateSingleNode fetch tree i c = .error x) : x ≠ .fuel := by
  simp only [hydrateSingleNode] at h
  cases hfd : findById i tree with
  | none => simp only [hfd] at h; exact absurd h (by simp)
  | some node =>
    simp only [hfd] at h
    cases hga : getAttr node "href" with
    | none => simp only [hga] at h; exact absurd h (by simp)
    | some v =>
      simp only [hga] at h
      by_cases hemp : (v == "") = true
      · simp only [hemp, if_true] at h
        injection h with h1
        rw [← h1]
        simp
      · simp only [hemp, Bool.false_eq_true, if_false] at h
        cases hpath : pathToId i tree with
        | none => simp only [hpath] at h; exact absurd h (by simp)
        | some path =>
          simp only [hpath] at h
          cases hfe : fetch v with
          | none =>
            simp only [hfe] at h
            injection h with h1
            rw [← h1]
            simp
          | some remoteRoot =>
            simp only [hfe] at h
            cases hloc : locateRemoteNode node remoteRoot path with
            | error e =>
              simp only [hloc] at h
              injection h with h1
              rw [← h1]
              exact locateRemoteNode_no_fuel node remoteRoot path e hloc
            | ok remoteNode =>
              simp only [hloc] at h
              rcases hmn : mergeNodes c node remoteNode with ⟨merged, c2⟩
              rw [hmn] at h
              simp only [] at h
              exact absurd h (by simp)


theorem hydrateSnapshot_no_fuel (fetch : Fetcher) :
    ∀ (L : List Nat) (tree : Elem) (c : Nat) (x : HydErr),
      hydrateSnapshot fetch L tree c = .error x → x ≠ .fuel := by
  intro L
  induction L with
  | nil =>
    intro tree c x h
    simp only [hydrateSnapshot] at h
    exact absurd h (by simp)
  | cons i is ih =>
    intro tree c x h
    simp only [hydrateSnapshot] at h
    cases hs : hydrateSingleNode fetch tree i c with
    | error e =>
      simp only [hs] at h
      injection h with h1
      rw [← h1]
      exact hydrateSingleNode_no_fuel fetch tree i c e hs
    | ok p =>
      obtain ⟨t2, c2⟩ := p
      simp only [hs] at h
      exact ih t2 c2 x h




/-- One `_hydrate_single_node` call, when every fetched document is
href-free and tree identities are unique and below the counter: the href
count never grows, uniqueness and the bound are preserved — and when the
processed identity is an attached node that carries `href`, the count
strictly falls. -/
theorem hydrateSingleNode_inv (fetch : Fetcher)
    (Hf : ∀ u d, fetch u = some d → hrefCount d = 0)
    (tree : Elem) (i c : Nat) (tree' : Elem) (c' : Nat)
    (hnd : (elemIds tree).Nodup) (hb : ∀ x ∈ elemIds tree, x < c)
    (h : hydrateSingleNode fetch tree i c = .ok (tree', c')) :
    (hrefCount tree' ≤ hrefCount tree ∧ (elemIds tree').Nodup ∧
      (∀ x ∈ elemIds tree', x < c') ∧ c ≤ c') ∧
    (∀ (node : Elem) (v : String), findById i tree = some node →
      getAttr node "href" = some v → (pathToId i tree).isSome = true →
      hrefCount tree' < hrefCount tree) := by
  simp only [hydrateSingleNode] at h
  cases hfd : findById i tree with
  | none =>
    simp only [hfd] at h
    injection h with h1
    injection h1 with h2 h3
    rw [← h2, ← h3]
    refine ⟨⟨Nat.le_refl _, hnd, hb, Nat.le_refl _⟩, ?_⟩
    intro node v hf2 _ _
    exact absurd hf2 (by simp)
  | some node =>
    simp only [hfd] at h
    cases hga : getAttr node "href" with
    | none =>
      simp only [hga] at h
      injection h with h1
      injection h1 with h2 h3
      rw [← h2, ← h3]
      refine ⟨⟨Nat.le_refl _, hnd, hb, Nat.le_refl _⟩, ?_⟩
      intro node2 v hf2 hga2 _
      injection hf2 with hf3
      rw [← hf3] at hga2
      rw [hga] at hga2
      exact absurd hga2 (by simp)
    | some v0 =>
      simp only [hga] at h
      by_cases hemp : (v0 == "") = true
      · simp only [hemp, if_true] at h
        exact absurd h (by simp)
      · simp only [hemp, Bool.false_eq_true, if_false] at h
        cases hpath : pathToId i tree with
        | none =>
          simp only [hpath] at h
          injection h with h1
          injection h1 with h2 h3
          rw [← h2, ← h3]
          refine ⟨⟨Nat.le_refl _, hnd, hb, Nat.le_refl _⟩, ?_⟩
          intro node2 v hf2 hga2 hps
          simp at hps
        | some path =>
          simp only [hpath] at h
          cases hfe : fetch v0 with
          | none => simp only [hfe] at h; exact absurd h (by simp)
          | some remoteRoot =>
            simp only [hfe] at h
            cases hloc : locateRemoteNode node remoteRoot path with
            | error e => simp only [hloc] at h; exact absurd h (by simp)
            | ok remoteNode =>
              simp only [hloc] at h
              have hrem0 : hrefCount remoteRoot = 0 := Hf v0 remoteRoot hfe
              have hrn0 : hrefCount remoteNode = 0 :=
                locateRemoteNode_hf node remoteRoot path remoteNode hrem0 hloc
              have hmcount := mergeNodes_count c node remoteNode hrn0
              obtain ⟨hal, hclt⟩ := mergeNodes_alloc c node remoteNode
              rcases hmn : mergeNodes c node remoteNode with ⟨merged, c2⟩
              rw [hmn] at hmcount hal hclt
              replace hmcount : hrefCount merged ≤ hrefCountList node.children :=
                hmcount
              replace hal : Alloc c c2 (elemIds merged) := hal
              replace hclt : c < c2 := hclt
              simp only [hmn] at h
              injection h with h1
              injection h1 with h2 h3
              have hids_eq : elemIds ((popAttr merged "href").withTail node.tail) =
                  elemIds merged := by
                rw [elemIds_withTail, elemIds_popAttr]
              have hcnt_eq := replaceById_hrefCount tree i
                ((popAttr merged "href").withTail node.tail) node hfd
              have hm'' : hrefCount ((popAttr merged "href").withTail node.tail) =
                  hrefCountList merged.children := by
                rw [hrefCount_withTail, hrefCount_popAttr_href]
              have hmch := hrefCountList_children_le merged
              have hnode_cnt := hrefCount_of_getAttr node v0 hga
              have hstrict : hrefCount (replaceById i
                  ((popAttr merged "href").withTail node.tail) tree) <
                  hrefCount tree := by
                omega
              obtain ⟨halb, haln⟩ := hal
              have hnodup : (elemIds (replaceById i
                  ((popAttr merged "href").withTail node.tail) tree)).Nodup := by
                rw [List.nodup_iff_count_le_one]
                intro x
                have hocc := replaceById_occ x tree i
                  ((popAttr merged "href").withTail node.tail) node hfd
                have htree1 : (elemIds tree).count x ≤ 1 :=
                  List.nodup_iff_count_le_one.mp hnd x
                have hm1 : (elemIds ((popAttr merged "href").withTail
                    node.tail)).count x ≤ 1 := by
                  rw [hids_eq]
                  exact List.nodup_iff_count_le_one.mp haln x
                by_cases hx : x < c
                · have hz : (elemIds ((popAttr merged "href").withTail
                      node.tail)).count x = 0 := by
                    rw [hids_eq, List.count_eq_zero]
                    intro hmem
                    have := halb x hmem
                    omega
                  omega
                · have hz : (elemIds tree).count x = 0 := by
                    rw [List.count_eq_zero]
                    intro hmem
                    exact hx (hb x hmem)
                  have hzn : (elemIds node).count x = 0 := by
                    rw [List.count_eq_zero]
                    intro hmem
                    have := findById_ids_subset tree i node hfd x hmem
                    exact hx (hb x this)
                  omega
              have hbound : ∀ x ∈ elemIds (replaceById i
                  ((popAttr merged "href").withTail node.tail) tree), x < c2 := by
                intro x hx
                rcases replaceById_mem tree i _ x hx with hin | hnew
                · have := hb x hin; omega
                · rw [hids_eq] at hnew
                  have := halb x hnew
                  omega
              rw [← h2, ← h3]
              exact ⟨⟨by omega, hnodup, hbound, by omega⟩, fun _ _ _ _ _ => hstrict⟩

/-- A whole snapshot pass preserves the invariants and never raises the
count. -/
theorem hydrateSnapshot_inv (fetch : Fetcher)
    (Hf : ∀ u d, fetch u = some d → hrefCount d = 0) :
    ∀ (L : List Nat) (tree : Elem) (c : Nat) (tree' : Elem) (c' : Nat),
      (elemIds tree).Nodup → (∀ x ∈ elemIds tree, x < c) →
      hydrateSnapshot fetch L tree c = .ok (tree', c') →
      hrefCount tree' ≤ hrefCount tree ∧ (elemIds tree').Nodup ∧
        (∀ x ∈ elemIds tree', x < c') ∧ c ≤ c' := by
  intro L
  induction L with
  | nil =>
    intro tree c tree' c' hnd hb h
    simp only [hydrateSnapshot] at h
    injection h with h1
    injection h1 with h2 h3
    rw [← h2, ← h3]
    exact ⟨Nat.le_refl _, hnd, hb, Nat.le_refl _⟩
  | cons i is ih =>
    intro tree c tree' c' hnd hb h
    simp only [hydrateSnapshot] at h
    cases hs : hydrateSingleNode fetch tree i c with
    | error e => simp only [hs] at h; exact absurd h (by simp)
    | ok p =>
      obtain ⟨t2, c2⟩ := p
      simp only [hs] at h
      obtain ⟨⟨hle, hnd2, hb2, hcle⟩, _⟩ :=
        hydrateSingleNode_inv fetch Hf tree i c t2 c2 hnd hb hs
      obtain ⟨hle2, hnd3, hb3, hcle2⟩ := ih t2 c2 tree' c' hnd2 hb2 h
      exact ⟨by omega, hnd3, hb3, by omega⟩

/-- A pass over a NON-EMPTY snapshot strictly decreases the total number of
`href` attributes: the first snapshot entry is still attached (identities
are unique), still carries its `href`, and is resolved against an href-free
document. -/
theorem hydrateSnapshot_strict (fetch : Fetcher)
    (Hf : ∀ u d, fetch u = some d → hrefCount d = 0)
    (tree : Elem) (n : Elem) (ds : List Elem) (c : Nat) (tree' : Elem) (c' : Nat)
    (hnd : (elemIds tree).Nodup) (hb : ∀ x ∈ elemIds tree, x < c)
    (hdesc : descWithAttr "href" tree = n :: ds)
    (h : hydrateSnapshot fetch ((n :: ds).map Elem.eid) tree c = .ok (tree', c')) :
    hrefCount tree' < hrefCount tree ∧ (elemIds tree').Nodup ∧
      (∀ x ∈ elemIds tree', x < c') ∧ c ≤ c' := by
  simp only [List.map_cons, hydrateSnapshot] at h
  cases hs : hydrateSingleNode fetch tree n.eid c with
  | error e => simp only [hs] at h; exact absurd h (by simp)
  | ok p =>
    obtain ⟨t2, c2⟩ := p
    simp only [hs] at h
    have hmem : n ∈ descWithAttr "href" tree := by
      rw [hdesc]
      exact List.mem_cons_self _ _
    obtain ⟨hfind, hisSome⟩ := descWithAttr_found tree n hnd hmem
    obtain ⟨v, hv⟩ := Option.isSome_iff_exists.mp hisSome
    obtain ⟨pth, hpth⟩ := pathToId_isSome n.eid tree n hfind
    obtain ⟨⟨_, hnd2, hb2, hcle⟩, hstrictF⟩ :=
      hydrateSingleNode_inv fetch Hf tree n.eid c t2 c2 hnd hb hs
    have hstrict := hstrictF n v hfind hv (by rw [hpth]; rfl)
    obtain ⟨hle2, hnd3, hb3, hcle2⟩ :=
      hydrateSnapshot_inv fetch Hf (ds.map Elem.eid) t2 c2 tree' c' hnd2 hb2 h
    exact ⟨by omega, hnd3, hb3, by omega⟩

/-- C10, amended.  The repeat-until-no-href loop DOES terminate when every
document the fetcher serves is itself free of `href` attributes (the
acyclic case the spec presupposes): on a tree with unique identities below
the counter, `hrefCount e + 1` loop iterations are enough, so the loop
never runs out of fuel.  The counterexample shows the unrestricted claim —
termination for EVERY fetcher — is false. -/
theorem c10_theorem (fetch : Fetcher)
    (Hf : ∀ u d, fetch u = some d → hrefCount d = 0) :
    ∀ (fuel : Nat) (e : Elem) (c : Nat), (elemIds e).Nodup →
      (∀ x ∈ elemIds e, x < c) → hrefCount e < fuel →
      hydrateHrefNodes fetch fuel e c ≠ .error .fuel := by
  intro fuel
  induction fuel with
  | zero =>
    intro e c hnd hb hfuel
    omega
  | succ f ih =>
    intro e c hnd hb hfuel
    rw [hydrateHrefNodes]
    cases hdesc : descWithAttr "href" e with
    | nil =>
      simp
    | cons n ds =>
      simp only [List.map_cons]
      cases hsnap : hydrateSnapshot fetch (n.eid :: ds.map Elem.eid) e c with
      | error err =>
        simp only [hsnap]
        intro hcontra
        injection hcontra with h1
        exact hydrateSnapshot_no_fuel fetch _ e c err hsnap h1
      | ok p =>
        obtain ⟨t2, c2⟩ := p
        simp only [hsnap]
        have hstrict := hydrateSnapshot_strict fetch Hf e n ds c t2 c2 hnd hb hdesc
          (by simpa using hsnap)
        exact ih t2 c2 hstrict.2.1 hstrict.2.2.1 (by
          have := hstrict.1
          omega)

/-- Fetcher for the C10 witness: one URI, one href-free document. -/
def c10wFetch : Fetcher := fun u =>
  if u == "u" then
    some (Elem.mk 0 "r" [] [] none none [Elem.mk 1 "b" [] [] none none []])
  else none

/-- Witness input: one `href` leaf under the root. -/
def c10wE : Elem :=
  Elem.mk 10 "a" [] [] none none [Elem.mk 11 "b" [("href","u")] [] none none []]

/-- C10, witness: the concrete single-href input against the href-free
fetcher satisfies every hypothesis and the loop with `hrefCount + 1 = 2`
iterations does not exhaust its fuel. -/
theorem c10_theorem_witness :
    (∀ u d, c10wFetch u = some d → hrefCount d = 0) ∧
    ((elemIds c10wE).Nodup) ∧
    (∀ x ∈ elemIds c10wE, x < 50) ∧
    (hrefCount c10wE < 2) ∧
    (hydrateHrefNodes c10wFetch 2 c10wE 50 ≠ .error .fuel) := by
  have hf : ∀ u d, c10wFetch u = some d → hrefCount d = 0 := by
    intro u d hud
    simp only [c10wFetch] at hud
    by_cases hu : (u == "u") = true
    · rw [if_pos hu] at hud
      injection hud with h1
      rw [← h1]
      rfl
    · rw [if_neg hu] at hud
      exact absurd hud (by simp)
  exact ⟨hf, by decide, by decide, by decide,
    c10_theorem c10wFetch hf 2 c10wE 50 (by decide) (by decide) (by decide)⟩

end FanOut
